import Mathlib

/-!
Shallow embedding of the cycle collector of `src/collect.rs` (a trial-deletion
cycle collector in the style of CPython's gcmodule).

The heap is a total map from addresses to blocks.  A block models one
`CcBox<T>` allocation seen through its `GcHeader`:

* `next`, `prev` are the intrusive list words.  `prev` is a raw machine word:
  outside a collection it holds a predecessor pointer, during passes 1-4 it
  holds `(ref_count << 1) | COLLECTING` exactly as in `collect.rs`.
* `refCount` is the value's reference count (`gc_ref_count`).
* `children` is the list of traverse targets reported by `gc_traverse`
  (the addresses of the headers the value's `Trace::trace` visits).
* `dropped` / `freed` record the two teardown stages of a `CcBox`.

Addresses are natural numbers.  Machine words are modelled as `Nat` with
wrap-around at `2 ^ 64` made explicit where the Rust code can wrap
(`update_refs`'s shift and `edit_gc_ref_count`'s signed add).  Real headers
are aligned, so pointer words are even; theorems assume evenness where the
code relies on alignment.
-/

namespace Gcmodule

abbrev Addr := Nat

/-- Null pointer. -/
def NULL : Addr := 0

/-- Number of values of a 64-bit machine word. -/
def W : Nat := 2 ^ 64

@[ext] structure Block where
  next : Addr
  prev : Nat
  refCount : Nat
  children : List Addr
  dropped : Bool
  freed : Bool
deriving Repr, DecidableEq

abbrev Heap := Addr → Block

def setNext (h : Heap) (a : Addr) (v : Addr) : Heap :=
  fun x => if x = a then { h x with next := v } else h x

def setPrev (h : Heap) (a : Addr) (v : Nat) : Heap :=
  fun x => if x = a then { h x with prev := v } else h x

def setRefCount (h : Heap) (a : Addr) (v : Nat) : Heap :=
  fun x => if x = a then { h x with refCount := v } else h x

def setChildren (h : Heap) (a : Addr) (v : List Addr) : Heap :=
  fun x => if x = a then { h x with children := v } else h x

def setDropped (h : Heap) (a : Addr) (v : Bool) : Heap :=
  fun x => if x = a then { h x with dropped := v } else h x

def setFreed (h : Heap) (a : Addr) (v : Bool) : Heap :=
  fun x => if x = a then { h x with freed := v } else h x

/-! ### Flag and trial-count words (`collect.rs` lines 208-209, 326-346) -/

def PREV_MASK_COLLECTING : Nat := 1

def PREV_SHIFT : Nat := 1

/-- `fn is_collecting`: `(prev & PREV_MASK_COLLECTING) != 0`. -/
def is_collecting (h : Heap) (a : Addr) : Bool :=
  ((h a).prev &&& PREV_MASK_COLLECTING) != 0

/-- `fn is_unreachable`: `is_collecting(header) && (prev >> PREV_SHIFT) == 0`. -/
def is_unreachable (h : Heap) (a : Addr) : Bool :=
  is_collecting h a && ((h a).prev >>> PREV_SHIFT == 0)

/-- `fn unset_collecting`: `new_prev = (prev & PREV_MASK_COLLECTING) ^ prev`. -/
def unset_collecting (h : Heap) (a : Addr) : Heap :=
  setPrev h a ((((h a).prev) &&& PREV_MASK_COLLECTING) ^^^ (h a).prev)

/-- `fn edit_gc_ref_count`: `new_prev = prev + (1 << PREV_SHIFT) * delta` in
`isize` arithmetic, stored back by an `as usize` (wrapping) cast; both are
two's-complement wrap-around at `2 ^ 64`. -/
def edit_gc_ref_count (h : Heap) (a : Addr) (delta : Int) : Heap :=
  setPrev h a ((((h a).prev : Int) + (((1 : Nat) <<< PREV_SHIFT : Nat) : Int) * delta) % (W : Int)).toNat

/-- The trial count stored in a prev word, `prev >> PREV_SHIFT`. -/
def trial (h : Heap) (a : Addr) : Nat := (h a).prev >>> PREV_SHIFT

/-! ### The linked-list walk (`fn visit_list`)

`visit_list` reads `header.next` *before* invoking the callback, so a callback
that rewrites `prev` words (all the collector's passes do only that) cannot
derail the walk.  The embedding keeps that read order and threads an arbitrary
accumulator `σ` (the heap itself, a counter, the staging vector, the
`restore_prev` cursor).  Rust's loop needs no fuel; the embedding takes fuel
and theorems assume it exceeds the list length. -/

def visit_list {σ : Type} (view : σ → Heap) (g : σ → Addr → σ) (root : Addr) :
    Nat → Addr → σ → σ
  | 0, _, s => s
  | fuel + 1, p, s =>
    if p = root then s else visit_list view g root fuel ((view s p).next) (g s p)

/-- `chainFrom h root p l`: starting at pointer `p`, following `next` fields
visits exactly the addresses in `l` and then returns to `root`. -/
def chainFrom (h : Heap) (root : Addr) : Addr → List Addr → Prop
  | p, [] => p = root
  | p, a :: l => p = a ∧ a ≠ root ∧ chainFrom h root ((h a).next) l

/-- The space's list is in linked shape: walking `next` from the sentinel
`root` visits `l` and returns, and no address repeats. -/
structure ListShape (h : Heap) (root : Addr) (l : List Addr) : Prop where
  chain : chainFrom h root ((h root).next) l
  nodup : (root :: l).Nodup

/-- `chainSeg h root p l q`: from pointer `p` the `next` fields visit exactly
`l` (never hitting `root`) and then reach `q`. -/
def chainSeg (h : Heap) (root : Addr) : Addr → List Addr → Addr → Prop
  | p, [], q => p = q
  | p, a :: l, q => p = a ∧ a ≠ root ∧ chainSeg h root ((h a).next) l q

/-- The predecessor each block receives from the `restore_prev` cursor that
starts at `cur` and walks `l`. -/
def predOf (cur : Addr) : List Addr → Addr → Option Addr
  | [], _ => none
  | b :: l, x => if x = b then some cur else predOf b l x

/-- Full doubly-linked shape: the `next` chain visits `l` and every node's
successor points back at it through `prev` (this pins every `prev`,
including the sentinel's). -/
structure DShape (h : Heap) (root : Addr) (l : List Addr) : Prop where
  chain : chainFrom h root ((h root).next) l
  nodup : (root :: l).Nodup
  back : ∀ x ∈ root :: l, (h ((h x).next)).prev = x

/-! ### The collector's passes (`collect.rs` lines 181-324) -/

/-- `fn new_gc_list`: an empty list is a sentinel whose `prev` and `next`
point at itself.  Every other address holds an untouched empty header. -/
def GcHeader_empty : Block :=
  { next := NULL, prev := NULL, refCount := 0, children := [], dropped := false, freed := false }

def new_gc_list (s : Addr) : Heap :=
  fun x => if x = s then { GcHeader_empty with next := s, prev := s } else GcHeader_empty

/-- `ObjectSpace::insert`: splice `a` right after the sentinel `s`.  The code
reads `next = prev.next`, then sets `a.prev := s`, `a.next := next`,
`next.prev := a`, `s.next := a`, in that order. -/
def insert (h : Heap) (s : Addr) (a : Addr) : Heap :=
  let nxt := (h s).next
  let h1 := setPrev h a s
  let h2 := setNext h1 a nxt
  let h3 := setPrev h2 nxt a
  setNext h3 s a

/-- `ObjectSpace::remove`: unlink `a` by `prev.next := next`,
`next.prev := prev`, `a.next := null`, in that order. -/
def remove (h : Heap) (a : Addr) : Heap :=
  let nxt := (h a).next
  let prv := (h a).prev
  let h1 := setNext h prv nxt
  let h2 := setPrev h1 nxt prv
  setNext h2 a NULL

/-- `CcObjectSpace::count_tracked`: walk the list counting every header. -/
def count_step (s : Heap × Nat) (_a : Addr) : Heap × Nat := (s.1, s.2 + 1)

def count_tracked (root : Addr) (fuel : Nat) (h : Heap) : Nat :=
  (visit_list Prod.fst count_step root fuel ((h root).next) (h, 0)).2

/-- Pass 1, `fn update_refs`: `prev := (ref_count << PREV_SHIFT) | COLLECTING`
for every header in the list (the shift wraps at the word size). -/
def update_step (h : Heap) (a : Addr) : Heap :=
  setPrev h a ((((h a).refCount <<< PREV_SHIFT) % W) ||| PREV_MASK_COLLECTING)

def update_refs (root : Addr) (fuel : Nat) (h : Heap) : Heap :=
  visit_list id update_step root fuel ((h root).next) h

/-- Pass 2, `fn subtract_refs`: for every header, `gc_traverse` the value and
decrement each target that `is_collecting`.  (The `debug_assert` on
`is_unreachable` is debug-build-only and has no release semantics.) -/
def subtract_tracer (h : Heap) (c : Addr) : Heap :=
  if is_collecting h c then edit_gc_ref_count h c (-1) else h

def subtract_step (h : Heap) (a : Addr) : Heap :=
  List.foldl subtract_tracer h ((h a).children)

def subtract_refs (root : Addr) (fuel : Nat) (h : Heap) : Heap :=
  visit_list id subtract_step root fuel ((h root).next) h

/-- Pass 3, `fn mark_reachable`'s inner `fn revive`: if the target is still
collecting, clear the flag, revive (note: `is_unreachable` is tested *after*
the flag was cleared), and traverse recursively over the value's children.
The Rust recursion is unbounded; the embedding spends one fuel per nesting
level. -/
def revive : Nat → Heap → Addr → Heap
  | 0, h, _ => h
  | fuel + 1, h, a =>
    if is_collecting h a then
      let h1 := unset_collecting h a
      let h2 := if is_unreachable h1 a then edit_gc_ref_count h1 a 1 else h1
      List.foldl (revive fuel) h2 ((h2 a).children)
    else h

/-- `gc_traverse` with the `revive` visitor. -/
def revive_children (fuel : Nat) (h : Heap) (cs : List Addr) : Heap :=
  List.foldl (revive fuel) h cs

/-- `fn mark_reachable`'s list walk: clear roots (`is_collecting` and not
`is_unreachable`) and revive everything they can traverse to. -/
def mark_step (rfuel : Nat) (h : Heap) (a : Addr) : Heap :=
  if is_collecting h a && !is_unreachable h a then
    let h1 := unset_collecting h a
    revive_children rfuel h1 ((h1 a).children)
  else h

def mark_reachable (root : Addr) (fuel rfuel : Nat) (h : Heap) : Heap :=
  visit_list id (mark_step rfuel) root fuel ((h root).next) h

/-- The counting walk of `fn release_unreachable`: count `is_unreachable`
headers (used to size the staging vector and as the return value). -/
def count_unreachable_step (s : Heap × Nat) (a : Addr) : Heap × Nat :=
  if is_unreachable s.1 a then (s.1, s.2 + 1) else s

def count_unreachable (root : Addr) (fuel : Nat) (h : Heap) : Nat :=
  (visit_list Prod.fst count_unreachable_step root fuel ((h root).next) (h, 0)).2

/-- Modelled from the spec: `CcDyn::gc_clone` (the `cc` module is not under
`src/`).  §4.4: "Produce a new owning handle to the block"; the handle owns
one unit of ref count, so the count goes up by one.  The staged address is
appended to the `to_drop` vector. -/
def gc_clone (h : Heap) (a : Addr) : Heap :=
  setRefCount h a ((h a).refCount + 1)

def to_drop_step (s : Heap × List Addr) (a : Addr) : Heap × List Addr :=
  if is_unreachable s.1 a then (gc_clone s.1 a, s.2 ++ [a]) else s

def build_to_drop (root : Addr) (fuel : Nat) (h : Heap) : Heap × List Addr :=
  visit_list Prod.fst to_drop_step root fuel ((h root).next) (h, [])

/-- Pass 5, `fn restore_prev`: rewrite every `prev` to the true predecessor,
starting from the sentinel. -/
def restore_step (s : Heap × Addr) (a : Addr) : Heap × Addr :=
  (setPrev s.1 a s.2, a)

def restore_prev (root : Addr) (fuel : Nat) (h : Heap) : Heap :=
  (visit_list Prod.fst restore_step root fuel ((h root).next) (h, root)).1

/-- Reachability through traverse edges from a set of roots; used to state
what `mark_reachable` marks. -/
inductive Reach (ch : Addr → List Addr) (isRoot : Addr → Prop) : Addr → Prop
  | root (a : Addr) : isRoot a → Reach ch isRoot a
  | step (w a : Addr) : Reach ch isRoot w → a ∈ ch w → Reach ch isRoot a

/-! ### Teardown (modelled from the spec)

`Cc::drop` and the `GcClone` vtable live in the `cc` module, which is not
under `src/`; §4.2 and §4.4 of the spec fix their behaviour. -/

/-- Modelled from the spec: `Cc::drop` / dropping a staging handle (§4.2).
Decrement the ref count; on zero, unlink the header if it is linked
(`next != null`), destroy the value (which, as `gc_drop_t` below, drops each
handle the value holds, at most once), and free the block. -/
def cc_drop : Nat → Heap → Addr → Heap
  | 0, h, _ => h
  | fuel + 1, h, a =>
    let h1 := setRefCount h a ((h a).refCount - 1)
    if (h a).refCount - 1 = 0 then
      let h2 := if (h1 a).next ≠ NULL then remove h1 a else h1
      let h3 :=
        if (h2 a).dropped then h2
        else List.foldl (cc_drop fuel) (setChildren (setDropped h2 a true) a []) ((h2 a).children)
      setFreed h3 a true
    else h1

/-- Modelled from the spec: `GcClone::gc_drop_t` (§4.4 "run the value's
destructor without freeing the block").  Destroying the value drops each
handle it holds; a value is destroyed at most once. -/
def gc_drop_t (fuel : Nat) (h : Heap) (a : Addr) : Heap :=
  if (h a).dropped then h
  else List.foldl (cc_drop fuel) (setChildren (setDropped h a true) a []) ((h a).children)

/-- Pass 6 of `fn release_unreachable`: run `gc_drop_t` on every staged
block, in staging order. -/
def drop_pass (fuel : Nat) (h : Heap) (toDrop : List Addr) : Heap :=
  List.foldl (gc_drop_t fuel) h toDrop

/-- Pass 7: dropping the staging vector drops each staging handle
(modelled from the spec, §4.6 pass 7). -/
def release_pass (fuel : Nat) (h : Heap) (toDrop : List Addr) : Heap :=
  List.foldl (cc_drop fuel) h toDrop

/-- `fn release_unreachable`.  Returns `none` when the `assert_eq!` on a
staging ref count fires (the process aborts), otherwise the count of
staged blocks together with the final heap. -/
def release_unreachable (root : Addr) (fuel rfuel dfuel : Nat) (h : Heap) :
    Option (Nat × Heap) :=
  let h1 := mark_reachable root fuel rfuel h
  let count := count_unreachable root fuel h1
  let staged := build_to_drop root fuel h1
  let h3 := restore_prev root fuel staged.1
  let h4 := drop_pass dfuel h3 staged.2
  if staged.2.all (fun u => (h4 u).refCount = 1) then
    some (count, release_pass dfuel h4 staged.2)
  else none

/-- `fn collect_list` = `CcObjectSpace::collect_cycles`: the three top-level
steps, returning the number of collected objects. -/
def collect_list (root : Addr) (fuel rfuel dfuel : Nat) (h : Heap) :
    Option (Nat × Heap) :=
  release_unreachable root fuel rfuel dfuel (subtract_refs root fuel (update_refs root fuel h))

/-! ### The intermediate states of a full collection, named for the theorems

Each is one of the pipeline values of `collect_list` / `release_unreachable`
(the composition is definitional: `release_unreachable_eq` below is `rfl`). -/

/-- The heap after passes 1-3 of `collect_list` (update, subtract, mark). -/
def marked (root : Addr) (fuel rfuel : Nat) (h : Heap) : Heap :=
  mark_reachable root fuel rfuel (subtract_refs root fuel (update_refs root fuel h))

/-- The staging vector built by pass 4 of a full collection. -/
def staged_list (root : Addr) (fuel rfuel : Nat) (h : Heap) : List Addr :=
  (build_to_drop root fuel (marked root fuel rfuel h)).2

/-- The heap after pass 4 (every staged block holds one extra count). -/
def staged_heap (root : Addr) (fuel rfuel : Nat) (h : Heap) : Heap :=
  (build_to_drop root fuel (marked root fuel rfuel h)).1

/-- The heap after pass 5 (`restore_prev`) of a full collection. -/
def restored (root : Addr) (fuel rfuel : Nat) (h : Heap) : Heap :=
  restore_prev root fuel (staged_heap root fuel rfuel h)

/-- The heap after pass 6 (`gc_drop_t` on every staged block). -/
def after_drop (root : Addr) (fuel rfuel dfuel : Nat) (h : Heap) : Heap :=
  drop_pass dfuel (restored root fuel rfuel h) (staged_list root fuel rfuel h)

/-- The heap after pass 7 (every staging handle dropped). -/
def after_release (root : Addr) (fuel rfuel dfuel : Nat) (h : Heap) : Heap :=
  release_pass dfuel (after_drop root fuel rfuel dfuel h) (staged_list root fuel rfuel h)

/-- Every `prev` of an `R` member points into `R`, and every traverse edge
from an `R` member stays in `R`: the invariant that keeps `prev` fields of
list members list-valued through the teardown passes. -/
def heapClosed (h : Heap) (R : List Addr) : Prop :=
  (∀ x ∈ R, (h x).prev ∈ R) ∧ (∀ x ∈ R, ∀ c ∈ (h x).children, c ∈ R)

/-! ### Concrete heaps used to instantiate the theorems

Addresses are even (headers are aligned); the sentinel sits at `2`. -/

/-- A space with a single self-referential tracked object at address `4`
(`ref_count` 1, held by its own value): the minimal unreachable cycle. -/
def heap1 : Heap := fun x =>
  if x = 2 then { GcHeader_empty with next := 4, prev := 4 }
  else if x = 4 then
    { next := 2, prev := 2, refCount := 1, children := [4], dropped := false, freed := false }
  else GcHeader_empty

/-- A space with a two-object cycle `4 → 6 → 4` plus one external handle on
`4` (so the cycle is externally reachable: `ref_count 4 = 2`). -/
def heap2 : Heap := fun x =>
  if x = 2 then { GcHeader_empty with next := 4, prev := 6 }
  else if x = 4 then
    { next := 6, prev := 2, refCount := 2, children := [6], dropped := false, freed := false }
  else if x = 6 then
    { next := 2, prev := 4, refCount := 1, children := [4], dropped := false, freed := false }
  else GcHeader_empty

/-! ### Setter frame lemmas -/

@[simp] theorem setPrev_same (h : Heap) (a : Addr) (v : Nat) : (setPrev h a v) a = { h a with prev := v } := by
  simp [setPrev]

@[simp] theorem setPrev_other (h : Heap) (a x : Addr) (v : Nat) (hx : x ≠ a) : (setPrev h a v) x = h x := by
  simp [setPrev, hx]

@[simp] theorem setPrev_next (h : Heap) (a x : Addr) (v : Nat) : ((setPrev h a v) x).next = (h x).next := by
  simp [setPrev]; split <;> simp_all

@[simp] theorem setPrev_refCount (h : Heap) (a x : Addr) (v : Nat) : ((setPrev h a v) x).refCount = (h x).refCount := by
  simp [setPrev]; split <;> simp_all

@[simp] theorem setPrev_children (h : Heap) (a x : Addr) (v : Nat) : ((setPrev h a v) x).children = (h x).children := by
  simp [setPrev]; split <;> simp_all

@[simp] theorem setPrev_dropped (h : Heap) (a x : Addr) (v : Nat) : ((setPrev h a v) x).dropped = (h x).dropped := by
  simp [setPrev]; split <;> simp_all

@[simp] theorem setPrev_freed (h : Heap) (a x : Addr) (v : Nat) : ((setPrev h a v) x).freed = (h x).freed := by
  simp [setPrev]; split <;> simp_all

@[simp] theorem setPrev_prev_same (h : Heap) (a : Addr) (v : Nat) : ((setPrev h a v) a).prev = v := by
  simp [setPrev]

@[simp] theorem setPrev_prev_other (h : Heap) (a x : Addr) (v : Nat) (hx : x ≠ a) : ((setPrev h a v) x).prev = (h x).prev := by
  simp [setPrev, hx]

@[simp] theorem setRefCount_same (h : Heap) (a : Addr) (v : Nat) : (setRefCount h a v) a = { h a with refCount := v } := by
  simp [setRefCount]

@[simp] theorem setRefCount_other (h : Heap) (a x : Addr) (v : Nat) (hx : x ≠ a) : (setRefCount h a v) x = h x := by
  simp [setRefCount, hx]

@[simp] theorem setRefCount_next (h : Heap) (a x : Addr) (v : Nat) : ((setRefCount h a v) x).next = (h x).next := by
  simp [setRefCount]; split <;> simp_all

@[simp] theorem setRefCount_prev (h : Heap) (a x : Addr) (v : Nat) : ((setRefCount h a v) x).prev = (h x).prev := by
  simp [setRefCount]; split <;> simp_all

@[simp] theorem setRefCount_children (h : Heap) (a x : Addr) (v : Nat) : ((setRefCount h a v) x).children = (h x).children := by
  simp [setRefCount]; split <;> simp_all

@[simp] theorem setNext_prev (h : Heap) (a x : Addr) (v : Addr) : ((setNext h a v) x).prev = (h x).prev := by
  simp [setNext]; split <;> simp_all

@[simp] theorem setNext_refCount (h : Heap) (a x : Addr) (v : Addr) : ((setNext h a v) x).refCount = (h x).refCount := by
  simp [setNext]; split <;> simp_all

@[simp] theorem setNext_children (h : Heap) (a x : Addr) (v : Addr) : ((setNext h a v) x).children = (h x).children := by
  simp [setNext]; split <;> simp_all

@[simp] theorem setNext_next_same (h : Heap) (a : Addr) (v : Addr) : ((setNext h a v) a).next = v := by
  simp [setNext]

@[simp] theorem setNext_next_other (h : Heap) (a x : Addr) (v : Addr) (hx : x ≠ a) : ((setNext h a v) x).next = (h x).next := by
  simp [setNext, hx]

@[simp] theorem setChildren_next (h : Heap) (a x : Addr) (v : List Addr) : ((setChildren h a v) x).next = (h x).next := by
  simp [setChildren]; split <;> simp_all

@[simp] theorem setChildren_prev (h : Heap) (a x : Addr) (v : List Addr) : ((setChildren h a v) x).prev = (h x).prev := by
  simp [setChildren]; split <;> simp_all

@[simp] theorem setChildren_refCount (h : Heap) (a x : Addr) (v : List Addr) : ((setChildren h a v) x).refCount = (h x).refCount := by
  simp [setChildren]; split <;> simp_all

@[simp] theorem setChildren_dropped (h : Heap) (a x : Addr) (v : List Addr) : ((setChildren h a v) x).dropped = (h x).dropped := by
  simp [setChildren]; split <;> simp_all

@[simp] theorem setChildren_freed (h : Heap) (a x : Addr) (v : List Addr) : ((setChildren h a v) x).freed = (h x).freed := by
  simp [setChildren]; split <;> simp_all

@[simp] theorem setChildren_children_same (h : Heap) (a : Addr) (v : List Addr) : ((setChildren h a v) a).children = v := by
  simp [setChildren]

@[simp] theorem setChildren_children_other (h : Heap) (a x : Addr) (v : List Addr) (hx : x ≠ a) : ((setChildren h a v) x).children = (h x).children := by
  simp [setChildren, hx]

@[simp] theorem setDropped_freed (h : Heap) (a x : Addr) (v : Bool) : ((setDropped h a v) x).freed = (h x).freed := by
  simp [setDropped]; split <;> simp_all

@[simp] theorem setDropped_dropped_same (h : Heap) (a : Addr) (v : Bool) : ((setDropped h a v) a).dropped = v := by
  simp [setDropped]

@[simp] theorem setDropped_dropped_other (h : Heap) (a x : Addr) (v : Bool) (hx : x ≠ a) : ((setDropped h a v) x).dropped = (h x).dropped := by
  simp [setDropped, hx]

@[simp] theorem setDropped_next (h : Heap) (a x : Addr) (v : Bool) : ((setDropped h a v) x).next = (h x).next := by
  simp [setDropped]; split <;> simp_all

@[simp] theorem setDropped_prev (h : Heap) (a x : Addr) (v : Bool) : ((setDropped h a v) x).prev = (h x).prev := by
  simp [setDropped]; split <;> simp_all

@[simp] theorem setDropped_refCount (h : Heap) (a x : Addr) (v : Bool) : ((setDropped h a v) x).refCount = (h x).refCount := by
  simp [setDropped]; split <;> simp_all

@[simp] theorem setDropped_children (h : Heap) (a x : Addr) (v : Bool) : ((setDropped h a v) x).children = (h x).children := by
  simp [setDropped]; split <;> simp_all

@[simp] theorem setRefCount_dropped (h : Heap) (a x : Addr) (v : Nat) : ((setRefCount h a v) x).dropped = (h x).dropped := by
  simp [setRefCount]; split <;> simp_all

@[simp] theorem setRefCount_freed (h : Heap) (a x : Addr) (v : Nat) : ((setRefCount h a v) x).freed = (h x).freed := by
  simp [setRefCount]; split <;> simp_all

@[simp] theorem setRefCount_refCount_same (h : Heap) (a : Addr) (v : Nat) : ((setRefCount h a v) a).refCount = v := by
  simp [setRefCount]

@[simp] theorem setRefCount_refCount_other (h : Heap) (a x : Addr) (v : Nat) (hx : x ≠ a) : ((setRefCount h a v) x).refCount = (h x).refCount := by
  simp [setRefCount, hx]

@[simp] theorem setFreed_dropped (h : Heap) (a x : Addr) (v : Bool) : ((setFreed h a v) x).dropped = (h x).dropped := by
  simp [setFreed]; split <;> simp_all

@[simp] theorem setFreed_freed_same (h : Heap) (a : Addr) (v : Bool) : ((setFreed h a v) a).freed = v := by
  simp [setFreed]

@[simp] theorem setFreed_freed_other (h : Heap) (a x : Addr) (v : Bool) (hx : x ≠ a) : ((setFreed h a v) x).freed = (h x).freed := by
  simp [setFreed, hx]

@[simp] theorem setFreed_other (h : Heap) (a x : Addr) (v : Bool) (hx : x ≠ a) : (setFreed h a v) x = h x := by
  simp [setFreed, hx]

@[simp] theorem setRefCount_other_full (h : Heap) (a x : Addr) (v : Nat) (hx : x ≠ a) : (setRefCount h a v) x = h x := by
  simp [setRefCount, hx]

@[simp] theorem setFreed_next (h : Heap) (a x : Addr) (v : Bool) : ((setFreed h a v) x).next = (h x).next := by
  simp [setFreed]; split <;> simp_all

@[simp] theorem setFreed_prev (h : Heap) (a x : Addr) (v : Bool) : ((setFreed h a v) x).prev = (h x).prev := by
  simp [setFreed]; split <;> simp_all

@[simp] theorem setFreed_refCount (h : Heap) (a x : Addr) (v : Bool) : ((setFreed h a v) x).refCount = (h x).refCount := by
  simp [setFreed]; split <;> simp_all

@[simp] theorem setFreed_children (h : Heap) (a x : Addr) (v : Bool) : ((setFreed h a v) x).children = (h x).children := by
  simp [setFreed]; split <;> simp_all

/-! ### Bit bridges for the packed prev word -/

theorem two_mul_or_one (n : Nat) : (2 * n) ||| 1 = 2 * n + 1 := by
  apply Nat.eq_of_testBit_eq
  intro i
  rw [Nat.testBit_or]
  cases i with
  | zero =>
    simp only [Nat.testBit_zero]
    have h0 : 2 * n % 2 = 0 := by omega
    have h1 : (2 * n + 1) % 2 = 1 := by omega
    rw [h0, h1]
    simp
  | succ j =>
    simp only [Nat.testBit_succ]
    have h1 : 2 * n / 2 = n := by omega
    have h2 : (2 * n + 1) / 2 = n := by omega
    have h3 : (1 : Nat) / 2 = 0 := by omega
    rw [h1, h2, h3]
    simp

theorem one_xor_odd (n : Nat) : 1 ^^^ (2 * n + 1) = 2 * n := by
  apply Nat.eq_of_testBit_eq
  intro i
  rw [Nat.testBit_xor]
  cases i with
  | zero =>
    simp only [Nat.testBit_zero]
    have h0 : 2 * n % 2 = 0 := by omega
    have h1 : (2 * n + 1) % 2 = 1 := by omega
    rw [h0, h1]
    simp
  | succ j =>
    simp only [Nat.testBit_succ]
    have h2 : (2 * n + 1) / 2 = n := by omega
    have h3 : (1 : Nat) / 2 = 0 := by omega
    rw [h2, h3]
    have h4 : 2 * n / 2 = n := by omega
    rw [h4]
    simp

/-- Clearing the COLLECTING bit of a word: `(w &&& 1) ^^^ w = w - w % 2`. -/
theorem and_one_xor_self (w : Nat) : (w &&& 1) ^^^ w = w - w % 2 := by
  rcases Nat.mod_two_eq_zero_or_one w with hw | hw
  · rw [Nat.and_one_is_mod, hw, Nat.zero_xor]
    omega
  · obtain ⟨t, rfl⟩ : ∃ t, w = 2 * t + 1 := ⟨w / 2, by omega⟩
    rw [Nat.and_one_is_mod]
    have : (2 * t + 1) % 2 = 1 := by omega
    rw [this, one_xor_odd]
    omega

theorem shiftRight_one (n : Nat) : n >>> 1 = n / 2 := by
  simp [Nat.shiftRight_eq_div_pow]

theorem is_collecting_iff (h : Heap) (a : Addr) :
    is_collecting h a = true ↔ (h a).prev % 2 = 1 := by
  simp only [is_collecting, PREV_MASK_COLLECTING, Nat.and_one_is_mod, bne_iff_ne, ne_eq]
  omega

theorem trial_eq_div (h : Heap) (a : Addr) : trial h a = (h a).prev / 2 := by
  simp [trial, PREV_SHIFT, shiftRight_one]

theorem is_unreachable_iff (h : Heap) (a : Addr) :
    is_unreachable h a = true ↔ (h a).prev = 1 := by
  simp only [is_unreachable, Bool.and_eq_true, is_collecting_iff, beq_iff_eq,
    PREV_SHIFT, shiftRight_one]
  omega

theorem unset_collecting_prev (h : Heap) (a : Addr) :
    ((unset_collecting h a) a).prev = (h a).prev - (h a).prev % 2 := by
  simp only [unset_collecting, PREV_MASK_COLLECTING, setPrev_prev_same]
  exact and_one_xor_self _

theorem unset_collecting_other (h : Heap) (a x : Addr) (hx : x ≠ a) :
    (unset_collecting h a) x = h x := by
  simp [unset_collecting, hx]

/-- `edit_gc_ref_count` on a well-encoded word `2 * t + flag` with a delta that
stays in range changes the trial count by exactly the delta. -/
theorem edit_prev (h : Heap) (a : Addr) (d : Int) (t : Nat) (f : Nat)
    (hf : f ≤ 1) (hw : (h a).prev = 2 * t + f)
    (hlo : 0 ≤ (t : Int) + d) (hhi : 2 * ((t : Int) + d) + f < (W : Int)) :
    ((edit_gc_ref_count h a d) a).prev = 2 * ((t : Int) + d).toNat + f := by
  simp only [edit_gc_ref_count, setPrev_prev_same, hw]
  have hshift : (((1 : Nat) <<< PREV_SHIFT : Nat) : Int) = 2 := by decide
  rw [hshift]
  have hval : ((2 * t + f : Nat) : Int) + 2 * d = 2 * ((t : Int) + d) + f := by
    push_cast
    ring
  rw [hval]
  have hmod : (2 * ((t : Int) + d) + f) % (W : Int) = 2 * ((t : Int) + d) + f := by
    apply Int.emod_eq_of_lt
    · omega
    · exact hhi
  rw [hmod]
  omega

theorem edit_other (h : Heap) (a x : Addr) (d : Int) (hx : x ≠ a) :
    (edit_gc_ref_count h a d) x = h x := by
  simp [edit_gc_ref_count, hx]

/-! ### Basic lemmas about the walk -/

theorem chainFrom_congr {h h' : Heap} {root : Addr}
    (hn : ∀ x, (h' x).next = (h x).next) :
    ∀ {l : List Addr} {p : Addr}, chainFrom h root p l → chainFrom h' root p l := by
  intro l
  induction l with
  | nil => intro p hc; exact hc
  | cons a l ih =>
    intro p hc
    obtain ⟨hp, hnr, hrest⟩ := hc
    refine ⟨hp, hnr, ?_⟩
    rw [hn a]
    exact ih hrest

theorem visit_list_eq_foldl {σ : Type} (view : σ → Heap) (g : σ → Addr → σ) (root : Addr)
    (hg : ∀ s a x, (view (g s a) x).next = (view s x).next) :
    ∀ (l : List Addr) (p : Addr) (s : σ) (fuel : Nat),
      chainFrom (view s) root p l → l.length < fuel →
      visit_list view g root fuel p s = List.foldl g s l := by
  intro l
  induction l with
  | nil =>
    intro p s fuel hc hfuel
    have hp : p = root := hc
    obtain ⟨fuel, rfl⟩ : ∃ f, fuel = f + 1 := ⟨fuel - 1, by omega⟩
    simp [visit_list, hp, List.foldl]
  | cons a l ih =>
    intro p s fuel hc hfuel
    obtain ⟨fuel, rfl⟩ : ∃ f, fuel = f + 1 := ⟨fuel - 1, by omega⟩
    obtain ⟨rfl, hnr, hrest⟩ := hc
    simp only [visit_list, if_neg hnr, List.foldl]
    have hc' : chainFrom (view (g s p)) root ((view (g s p) p).next) l := by
      rw [hg]
      exact chainFrom_congr (fun x => hg s p x) hrest
    exact ih ((view s p).next) (g s p) fuel (by rw [← hg s p p]; exact hc') (by
      simpa using Nat.lt_of_succ_lt_succ hfuel)

/-! ### Derived word lemmas -/

theorem enc_eq (rc : Nat) (hrc : rc < 2 ^ 63) :
    ((rc <<< PREV_SHIFT) % W) ||| PREV_MASK_COLLECTING = 2 * rc + 1 := by
  have h1 : rc <<< PREV_SHIFT = 2 * rc := by
    simp [PREV_SHIFT, Nat.shiftLeft_eq]
    ring
  have h2 : 2 * rc % W = 2 * rc := by
    apply Nat.mod_eq_of_lt
    have : W = 2 ^ 64 := rfl
    omega
  rw [h1, h2]
  exact two_mul_or_one rc

theorem is_collecting_of_odd (h : Heap) (a : Addr) (t : Nat) (hw : (h a).prev = 2 * t + 1) :
    is_collecting h a = true := by
  rw [is_collecting_iff, hw]
  omega

theorem is_collecting_of_even (h : Heap) (a : Addr) (t : Nat) (hw : (h a).prev = 2 * t) :
    is_collecting h a = false := by
  rw [Bool.eq_false_iff, ne_eq, is_collecting_iff, hw]
  omega

theorem trial_of_prev (h : Heap) (a : Addr) (t f : Nat) (hf : f ≤ 1) (hw : (h a).prev = 2 * t + f) :
    trial h a = t := by
  rw [trial_eq_div, hw]
  omega

theorem is_unreachable_of_odd (h : Heap) (a : Addr) (t : Nat) (hw : (h a).prev = 2 * t + 1) :
    is_unreachable h a = (t == 0) := by
  rcases Nat.eq_zero_or_pos t with ht | ht
  · subst ht
    have h0 : (0 == 0) = true := rfl
    rw [h0, is_unreachable_iff, hw]
  · have : is_unreachable h a = false := by
      rw [Bool.eq_false_iff, ne_eq, is_unreachable_iff, hw]
      omega
    rw [this]
    have h0 : (t == 0) = false := by
      rw [beq_eq_false_iff_ne]
      omega
    rw [h0]

/-! ### Pass 1: `update_refs` -/

theorem foldl_update_step_not_mem :
    ∀ (l : List Addr) (h : Heap) (x : Addr), x ∉ l → List.foldl update_step h l x = h x := by
  intro l
  induction l with
  | nil => intro h x _; rfl
  | cons a l ih =>
    intro h x hx
    simp only [List.mem_cons, not_or] at hx
    simp only [List.foldl]
    rw [ih _ _ hx.2]
    simp [update_step, setPrev, hx.1]

theorem foldl_update_step_mem :
    ∀ (l : List Addr) (h : Heap) (b : Addr), b ∈ l → l.Nodup →
      (List.foldl update_step h l b).prev =
        (((h b).refCount <<< PREV_SHIFT) % W) ||| PREV_MASK_COLLECTING := by
  intro l
  induction l with
  | nil => intro h b hb; exact absurd hb (List.not_mem_nil b)
  | cons a l ih =>
    intro h b hb hnd
    simp only [List.nodup_cons] at hnd
    simp only [List.foldl]
    rcases List.mem_cons.mp hb with rfl | hbl
    · rw [foldl_update_step_not_mem _ _ _ hnd.1]
      simp [update_step]
    · rw [ih _ _ hbl hnd.2]
      simp [update_step, setPrev]
      split <;> simp_all

theorem foldl_update_step_frame (l : List Addr) (h : Heap) (x : Addr) :
    (List.foldl update_step h l x).next = (h x).next ∧
    (List.foldl update_step h l x).refCount = (h x).refCount ∧
    (List.foldl update_step h l x).children = (h x).children ∧
    (List.foldl update_step h l x).dropped = (h x).dropped ∧
    (List.foldl update_step h l x).freed = (h x).freed := by
  induction l generalizing h with
  | nil => exact ⟨rfl, rfl, rfl, rfl, rfl⟩
  | cons a l ih =>
    simp only [List.foldl]
    have H := ih (update_step h a)
    refine ⟨?_, ?_, ?_, ?_, ?_⟩
    · rw [H.1]; simp [update_step]
    · rw [H.2.1]; simp [update_step]
    · rw [H.2.2.1]; simp [update_step]
    · rw [H.2.2.2.1]; simp [update_step]
    · rw [H.2.2.2.2]; simp [update_step]

theorem update_refs_eq_foldl (h : Heap) (root : Addr) (l : List Addr) (fuel : Nat)
    (hc : chainFrom h root ((h root).next) l) (hfuel : l.length < fuel) :
    update_refs root fuel h = List.foldl update_step h l := by
  exact visit_list_eq_foldl id update_step root
    (by intro s a x; simp [update_step]) l ((h root).next) h fuel hc hfuel

/-- Full description of the heap after pass 1. -/
theorem update_refs_spec (h : Heap) (root : Addr) (l : List Addr) (fuel : Nat)
    (hs : ListShape h root l) (hfuel : l.length < fuel) :
    (∀ b ∈ l, ((update_refs root fuel h) b).prev =
        (((h b).refCount <<< PREV_SHIFT) % W) ||| PREV_MASK_COLLECTING) ∧
    (∀ x, x ∉ l → (update_refs root fuel h) x = h x) ∧
    (∀ x, ((update_refs root fuel h) x).next = (h x).next ∧
      ((update_refs root fuel h) x).refCount = (h x).refCount ∧
      ((update_refs root fuel h) x).children = (h x).children ∧
      ((update_refs root fuel h) x).dropped = (h x).dropped ∧
      ((update_refs root fuel h) x).freed = (h x).freed) := by
  rw [update_refs_eq_foldl h root l fuel hs.chain hfuel]
  refine ⟨?_, ?_, ?_⟩
  · intro b hb
    exact foldl_update_step_mem l h b hb (List.Nodup.of_cons hs.nodup)
  · intro x hx
    exact foldl_update_step_not_mem l h x hx
  · intro x
    exact foldl_update_step_frame l h x

/-! ### Claim C4 -/

/-- C4: after Pass 1 (`update_refs`), every header in the space's list has the
COLLECTING flag set, the UNREACHABLE condition clear unless its ref count is
zero, and its trial slot (`prev >> 1`) equal to the value's current ref
count. -/
theorem claim_C4 (h : Heap) (root : Addr) (l : List Addr) (fuel : Nat)
    (hs : ListShape h root l) (hfuel : l.length < fuel)
    (hrc : ∀ b ∈ l, (h b).refCount < 2 ^ 63) :
    ∀ b ∈ l,
      is_collecting (update_refs root fuel h) b = true ∧
      trial (update_refs root fuel h) b = (h b).refCount ∧
      (is_unreachable (update_refs root fuel h) b = true ↔ (h b).refCount = 0) := by
  intro b hb
  have hprev := (update_refs_spec h root l fuel hs hfuel).1 b hb
  rw [enc_eq _ (hrc b hb)] at hprev
  refine ⟨is_collecting_of_odd _ _ _ hprev, trial_of_prev _ _ _ 1 (by omega) hprev, ?_⟩
  rw [is_unreachable_of_odd _ _ _ hprev]
  simp

theorem claim_C4_witness :
    is_collecting (update_refs 2 2 heap1) 4 = true ∧
    trial (update_refs 2 2 heap1) 4 = (heap1 4).refCount ∧
    (is_unreachable (update_refs 2 2 heap1) 4 = true ↔ (heap1 4).refCount = 0) :=
  claim_C4 heap1 2 [4] 2 ⟨⟨rfl, by decide, rfl⟩, by decide⟩ (by decide)
    (by decide) 4 (by decide)

/-! ### Claim C10 -/

/-- C10: the flag and trial-count encodings in the `prev` word are
independent: `unset_collecting` clears exactly the COLLECTING bit
(`is_collecting` becomes false, the trial count is unchanged, no other header
is touched), and `edit_gc_ref_count` with delta `d` (staying in word range)
changes the trial count by exactly `d` while leaving the COLLECTING bit and
every other header unchanged. -/
theorem claim_C10 (h : Heap) (a : Addr) (d : Int) (t f : Nat)
    (hf : f ≤ 1) (hw : (h a).prev = 2 * t + f)
    (hlo : 0 ≤ (t : Int) + d) (hhi : 2 * ((t : Int) + d) + f < (W : Int)) :
    (is_collecting (unset_collecting h a) a = false ∧
      trial (unset_collecting h a) a = trial h a ∧
      (∀ x, x ≠ a → unset_collecting h a x = h x)) ∧
    (((trial (edit_gc_ref_count h a d) a : Int) = (trial h a : Int) + d) ∧
      is_collecting (edit_gc_ref_count h a d) a = is_collecting h a ∧
      (∀ x, x ≠ a → edit_gc_ref_count h a d x = h x)) := by
  have huw : ((unset_collecting h a) a).prev = 2 * t := by
    rw [unset_collecting_prev, hw]
    omega
  have hew := edit_prev h a d t f hf hw hlo hhi
  refine ⟨⟨is_collecting_of_even _ _ _ huw, ?_, fun x hx => unset_collecting_other h a x hx⟩,
    ?_, ?_, fun x hx => edit_other h a x d hx⟩
  · rw [trial_of_prev _ _ t 0 (by omega) (by rw [huw]; omega),
      trial_of_prev h a t f hf hw]
  · rw [trial_of_prev _ _ (((t : Int) + d).toNat) f hf hew,
      trial_of_prev h a t f hf hw]
    omega
  · rcases Nat.le_one_iff_eq_zero_or_eq_one.mp hf with rfl | rfl
    · rw [is_collecting_of_even _ _ (((t : Int) + d).toNat) (by rw [hew]; omega),
        is_collecting_of_even h a t (by rw [hw]; omega)]
    · rw [is_collecting_of_odd _ _ _ hew, is_collecting_of_odd h a t hw]

theorem claim_C10_witness :
    (is_collecting (unset_collecting heap1 4) 4 = false ∧
      trial (unset_collecting heap1 4) 4 = trial heap1 4 ∧
      (∀ x, x ≠ 4 → unset_collecting heap1 4 x = heap1 x)) ∧
    (((trial (edit_gc_ref_count heap1 4 1) 4 : Int) = (trial heap1 4 : Int) + 1) ∧
      is_collecting (edit_gc_ref_count heap1 4 1) 4 = is_collecting heap1 4 ∧
      (∀ x, x ≠ 4 → edit_gc_ref_count heap1 4 1 x = heap1 x)) :=
  claim_C10 heap1 4 1 1 0 (by decide) (by decide) (by decide) (by decide)

/-! ### Claim C9 -/

theorem insert_next (h : Heap) (s a x : Addr) :
    ((insert h s a) x).next =
      if x = s then a else if x = a then (h s).next else (h x).next := by
  simp only [insert, setNext, setPrev]
  split_ifs <;> simp_all

theorem insert_prev (h : Heap) (s a x : Addr) :
    ((insert h s a) x).prev =
      if x = (h s).next then a else if x = a then s else (h x).prev := by
  simp only [insert, setNext, setPrev]
  split_ifs <;> simp_all

theorem insert_frame (h : Heap) (s a x : Addr) :
    ((insert h s a) x).refCount = (h x).refCount ∧
    ((insert h s a) x).children = (h x).children ∧
    ((insert h s a) x).dropped = (h x).dropped ∧
    ((insert h s a) x).freed = (h x).freed := by
  simp only [insert, setNext, setPrev]
  split_ifs <;> simp_all

theorem remove_next (h : Heap) (b x : Addr) :
    ((remove h b) x).next =
      if x = b then NULL else if x = (h b).prev then (h b).next else (h x).next := by
  simp only [remove, setNext, setPrev]
  split_ifs <;> simp_all

theorem remove_prev (h : Heap) (b x : Addr) :
    ((remove h b) x).prev =
      if x = (h b).next then (h b).prev else (h x).prev := by
  simp only [remove, setNext, setPrev]
  split_ifs <;> simp_all

theorem remove_frame (h : Heap) (b x : Addr) :
    ((remove h b) x).refCount = (h x).refCount ∧
    ((remove h b) x).children = (h x).children ∧
    ((remove h b) x).dropped = (h x).dropped ∧
    ((remove h b) x).freed = (h x).freed := by
  simp only [remove, setNext, setPrev]
  split_ifs <;> simp_all

/-- C9: `insert` splices a header at the head of the list (sentinel's `next`
is the new header, its `prev` is the sentinel, its `next` is the old first
element, whose `prev` now points back at it); `remove` unlinks a header by
relinking its neighbours and nulling its `next`; removing a header right
after inserting it restores every other header exactly and leaves the
removed header unlinked with its list-irrelevant fields intact. -/
theorem claim_C9 (h : Heap) (s a : Addr)
    (ha_s : a ≠ s) (ha_f : a ≠ (h s).next) (hnull : (h a).next = NULL)
    (hf_prev : (h ((h s).next)).prev = s) :
    (((insert h s a) s).next = a ∧
      ((insert h s a) a).prev = s ∧
      ((insert h s a) a).next = (h s).next ∧
      ((insert h s a) ((h s).next)).prev = a) ∧
    (∀ (h' : Heap) (b : Addr), b ≠ (h' b).prev → b ≠ (h' b).next →
      ((remove h' b) ((h' b).prev)).next = (h' b).next ∧
      ((remove h' b) ((h' b).next)).prev = (h' b).prev ∧
      ((remove h' b) b).next = NULL) ∧
    ((∀ x, x ≠ a → (remove (insert h s a) a) x = h x) ∧
      ((remove (insert h s a) a) a).next = (h a).next ∧
      ((remove (insert h s a) a) a).refCount = (h a).refCount ∧
      ((remove (insert h s a) a) a).children = (h a).children) := by
  have hIa_next : ((insert h s a) a).next = (h s).next := by
    rw [insert_next, if_neg ha_s, if_pos rfl]
  have hIa_prev : ((insert h s a) a).prev = s := by
    rw [insert_prev, if_neg ha_f, if_pos rfl]
  refine ⟨⟨?_, hIa_prev, hIa_next, ?_⟩, ?_, ?_, ?_, ?_, ?_⟩
  · rw [insert_next, if_pos rfl]
  · rw [insert_prev, if_pos rfl]
  · intro h' b hbp hbn
    refine ⟨?_, ?_, ?_⟩
    · rw [remove_next, if_neg (Ne.symm hbp), if_pos rfl]
    · rw [remove_prev, if_pos rfl]
    · rw [remove_next, if_pos rfl]
  · intro x hx
    ext
    · rw [remove_next, if_neg hx, hIa_prev, hIa_next]
      by_cases hxs : x = s
      · subst hxs
        rw [if_pos rfl]
      · rw [if_neg hxs, insert_next, if_neg hxs, if_neg hx]
    · rw [remove_prev, hIa_next, hIa_prev]
      by_cases hxf : x = (h s).next
      · subst hxf
        rw [if_pos rfl, hf_prev]
      · rw [if_neg hxf, insert_prev, if_neg hxf, if_neg hx]
    · rw [(remove_frame _ _ _).1, (insert_frame _ _ _ _).1]
    · rw [(remove_frame _ _ _).2.1, (insert_frame _ _ _ _).2.1]
    · rw [(remove_frame _ _ _).2.2.1, (insert_frame _ _ _ _).2.2.1]
    · rw [(remove_frame _ _ _).2.2.2, (insert_frame _ _ _ _).2.2.2]
  · rw [remove_next, if_pos rfl, hnull]
  · rw [(remove_frame _ _ _).1, (insert_frame _ _ _ _).1]
  · rw [(remove_frame _ _ _).2.1, (insert_frame _ _ _ _).2.1]

theorem claim_C9_witness :
    (((insert heap1 2 6) 2).next = 6 ∧
      ((insert heap1 2 6) 6).prev = 2 ∧
      ((insert heap1 2 6) 6).next = (heap1 2).next ∧
      ((insert heap1 2 6) ((heap1 2).next)).prev = 6) ∧
    (∀ (h' : Heap) (b : Addr), b ≠ (h' b).prev → b ≠ (h' b).next →
      ((remove h' b) ((h' b).prev)).next = (h' b).next ∧
      ((remove h' b) ((h' b).next)).prev = (h' b).prev ∧
      ((remove h' b) b).next = NULL) ∧
    ((∀ x, x ≠ 6 → (remove (insert heap1 2 6) 6) x = heap1 x) ∧
      ((remove (insert heap1 2 6) 6) 6).next = (heap1 6).next ∧
      ((remove (insert heap1 2 6) 6) 6).refCount = (heap1 6).refCount ∧
      ((remove (insert heap1 2 6) 6) 6).children = (heap1 6).children) :=
  claim_C9 heap1 2 6 (by decide) (by decide) (by decide) (by decide)

/-! ### Claim C8 -/

theorem foldl_count_step (l : List Addr) (s : Heap × Nat) :
    List.foldl count_step s l = (s.1, s.2 + l.length) := by
  induction l generalizing s with
  | nil => simp
  | cons a l ih =>
    simp only [List.foldl, ih, count_step, List.length_cons]
    rw [Prod.mk.injEq]
    exact ⟨rfl, by omega⟩

/-- C8: `count_tracked` returns the number of headers reachable from the
sentinel, the sentinel itself excluded; on a freshly constructed space the
sentinel's `next` and `prev` point at itself and `count_tracked` is 0. -/
theorem claim_C8 (h : Heap) (root : Addr) (l : List Addr) (fuel : Nat)
    (hs : ListShape h root l) (hfuel : l.length < fuel) :
    count_tracked root fuel h = l.length ∧
    (∀ (s : Addr) (fuel' : Nat), 0 < fuel' →
      ((new_gc_list s) s).next = s ∧ ((new_gc_list s) s).prev = s ∧
      count_tracked s fuel' (new_gc_list s) = 0) := by
  constructor
  · have := visit_list_eq_foldl Prod.fst count_step root
      (by intro s a x; rfl) l ((h root).next) (h, 0) fuel hs.chain hfuel
    rw [count_tracked, this, foldl_count_step]
    simp
  · intro s fuel' hfuel'
    refine ⟨by simp [new_gc_list], by simp [new_gc_list], ?_⟩
    obtain ⟨f, rfl⟩ : ∃ f, fuel' = f + 1 := ⟨fuel' - 1, by omega⟩
    have hself : ((new_gc_list s) s).next = s := by simp [new_gc_list]
    rw [count_tracked, hself]
    simp [visit_list]

theorem claim_C8_witness :
    count_tracked 2 3 heap2 = [4, 6].length ∧
    (∀ (s : Addr) (fuel' : Nat), 0 < fuel' →
      ((new_gc_list s) s).next = s ∧ ((new_gc_list s) s).prev = s ∧
      count_tracked s fuel' (new_gc_list s) = 0) :=
  claim_C8 heap2 2 [4, 6] 3 ⟨⟨rfl, by decide, rfl, by decide, rfl⟩, by decide⟩ (by decide)

/-! ### Pass 2: `subtract_refs` -/

theorem edit_parity (h : Heap) (a : Addr) (d : Int) :
    ((edit_gc_ref_count h a d) a).prev % 2 = (h a).prev % 2 := by
  simp only [edit_gc_ref_count, setPrev_prev_same]
  have hshift : (((1 : Nat) <<< PREV_SHIFT : Nat) : Int) = 2 := by decide
  have hW : (W : Int) = (2 : Int) ^ 64 := by decide
  rw [hshift, hW]
  omega

/-- Number of traverse edges from the values at `srcs` to `b`. -/
def countEdges (h : Heap) (srcs : List Addr) (b : Addr) : Nat :=
  (srcs.map (fun a => ((h a).children.count b))).sum

theorem countEdges_nil (h : Heap) (b : Addr) : countEdges h [] b = 0 := rfl

theorem countEdges_cons (h : Heap) (a : Addr) (srcs : List Addr) (b : Addr) :
    countEdges h (a :: srcs) b = ((h a).children.count b) + countEdges h srcs b := by
  simp [countEdges]

theorem countEdges_congr (h h' : Heap) (srcs : List Addr) (b : Addr)
    (hc : ∀ x, (h' x).children = (h x).children) :
    countEdges h' srcs b = countEdges h srcs b := by
  simp [countEdges, hc]

/-- Effect of one `gc_traverse` with the subtract tracer: each occurrence of a
listed collecting block among `cs` costs it one trial unit. -/
theorem foldl_subtract_tracer_spec :
    ∀ (cs : List Addr) (h : Heap) (l : List Addr) (t : Addr → Nat),
      (∀ b ∈ l, (h b).prev = 2 * t b + 1) →
      (∀ b ∈ l, cs.count b ≤ t b) →
      (∀ b ∈ l, 2 * t b + 1 < W) →
      (∀ b ∈ l, (List.foldl subtract_tracer h cs b).prev = 2 * (t b - cs.count b) + 1) ∧
      (∀ x, ((List.foldl subtract_tracer h cs) x).next = (h x).next ∧
        ((List.foldl subtract_tracer h cs) x).refCount = (h x).refCount ∧
        ((List.foldl subtract_tracer h cs) x).children = (h x).children ∧
        ((List.foldl subtract_tracer h cs) x).dropped = (h x).dropped ∧
        ((List.foldl subtract_tracer h cs) x).freed = (h x).freed) ∧
      (∀ x, ((List.foldl subtract_tracer h cs) x).prev % 2 = (h x).prev % 2) ∧
      (∀ x, (h x).prev % 2 = 0 → (List.foldl subtract_tracer h cs) x = h x) := by
  intro cs
  induction cs with
  | nil =>
    intro h l t hprev _ _
    refine ⟨?_, fun x => ⟨rfl, rfl, rfl, rfl, rfl⟩, fun x => rfl, fun x _ => rfl⟩
    intro b hb
    rw [List.foldl_nil, hprev b hb]
    simp
  | cons c cs ih =>
    intro h l t hprev hcount hW
    simp only [List.foldl_cons]
    by_cases hg : is_collecting h c = true
    · have hodd : (h c).prev % 2 = 1 := (is_collecting_iff h c).mp hg
      have hstep : subtract_tracer h c = edit_gc_ref_count h c (-1) := by
        simp [subtract_tracer, hg]
      by_cases hcl : c ∈ l
      · -- the target is a listed block: its trial count drops by one
        have htc : 1 ≤ t c := le_trans (by
          rw [List.count_cons_self]
          omega) (hcount c hcl)
        have hedit := edit_prev h c (-1) (t c) 1 (by omega) (by
          have := hprev c hcl
          omega) (by omega) (by
          have := hW c hcl
          push_cast
          omega)
        set t' : Addr → Nat := fun b => if b = c then t b - 1 else t b with ht'
        have hprev' : ∀ b ∈ l, ((edit_gc_ref_count h c (-1)) b).prev = 2 * t' b + 1 := by
          intro b hb
          by_cases hbc : b = c
          · subst hbc
            rw [hedit, ht']
            simp
            omega
          · rw [edit_other h c b (-1) hbc, hprev b hb, ht']
            simp [hbc]
        have hcount' : ∀ b ∈ l, cs.count b ≤ t' b := by
          intro b hb
          have := hcount b hb
          rw [List.count_cons] at this
          by_cases hbc : b = c
          · subst hbc
            simp only [ht']
            simp at this ⊢
            omega
          · simp only [ht', if_neg hbc]
            omega
        have hW' : ∀ b ∈ l, 2 * t' b + 1 < W := by
          intro b hb
          have := hW b hb
          simp only [ht']
          split <;> omega
        obtain ⟨ih1, ih2, ih3, ih4⟩ :=
          ih (edit_gc_ref_count h c (-1)) l t' hprev' hcount' hW'
        rw [hstep]
        refine ⟨?_, ?_, ?_, ?_⟩
        · intro b hb
          rw [ih1 b hb]
          by_cases hbc : b = c
          · subst hbc
            simp only [ht', if_pos rfl]
            rw [List.count_cons_self]
            omega
          · simp only [ht', if_neg hbc]
            rw [List.count_cons_of_ne hbc]
        · intro x
          obtain ⟨e1, e2, e3, e4, e5⟩ := ih2 x
          refine ⟨?_, ?_, ?_, ?_, ?_⟩
          · rw [e1]; simp [edit_gc_ref_count]
          · rw [e2]; simp [edit_gc_ref_count]
          · rw [e3]; simp [edit_gc_ref_count]
          · rw [e4]; simp [edit_gc_ref_count]
          · rw [e5]; simp [edit_gc_ref_count]
        · intro x
          rw [ih3 x]
          by_cases hxc : x = c
          · subst hxc
            exact edit_parity h x (-1)
          · rw [edit_other h c x (-1) hxc]
        · intro x hx
          have hxc : x ≠ c := by
            intro hxx
            subst hxx
            omega
          rw [ih4 x (by rw [edit_other h c x (-1) hxc]; exact hx),
            edit_other h c x (-1) hxc]
      · -- an unlisted target: only its own prev word moves (by an even amount)
        have hprev' : ∀ b ∈ l, ((edit_gc_ref_count h c (-1)) b).prev = 2 * t b + 1 := by
          intro b hb
          rw [edit_other h c b (-1) (fun hbc => hcl (hbc ▸ hb)), hprev b hb]
        have hcount' : ∀ b ∈ l, cs.count b ≤ t b := by
          intro b hb
          have := hcount b hb
          rw [List.count_cons] at this
          omega
        obtain ⟨ih1, ih2, ih3, ih4⟩ :=
          ih (edit_gc_ref_count h c (-1)) l t hprev' hcount' hW
        rw [hstep]
        refine ⟨?_, ?_, ?_, ?_⟩
        · intro b hb
          rw [ih1 b hb]
          have hbc : b ≠ c := fun hbc => hcl (hbc ▸ hb)
          rw [List.count_cons_of_ne hbc]
        · intro x
          obtain ⟨e1, e2, e3, e4, e5⟩ := ih2 x
          refine ⟨?_, ?_, ?_, ?_, ?_⟩
          · rw [e1]; simp [edit_gc_ref_count]
          · rw [e2]; simp [edit_gc_ref_count]
          · rw [e3]; simp [edit_gc_ref_count]
          · rw [e4]; simp [edit_gc_ref_count]
          · rw [e5]; simp [edit_gc_ref_count]
        · intro x
          rw [ih3 x]
          by_cases hxc : x = c
          · subst hxc
            exact edit_parity h x (-1)
          · rw [edit_other h c x (-1) hxc]
        · intro x hx
          have hxc : x ≠ c := by
            intro hxx
            subst hxx
            omega
          rw [ih4 x (by rw [edit_other h c x (-1) hxc]; exact hx),
            edit_other h c x (-1) hxc]
    · -- a non-collecting target is skipped
      have hstep : subtract_tracer h c = h := by
        simp [subtract_tracer, hg]
      rw [hstep]
      have hcount' : ∀ b ∈ l, cs.count b ≤ t b := by
        intro b hb
        have := hcount b hb
        rw [List.count_cons] at this
        omega
      obtain ⟨ih1, ih2, ih3, ih4⟩ := ih h l t hprev hcount' hW
      refine ⟨?_, ih2, ih3, ih4⟩
      intro b hb
      rw [ih1 b hb]
      have hbc : b ≠ c := by
        intro hbc
        subst hbc
        have := (is_collecting_iff h b).not.mp (by simp [hg])
        have := hprev b hb
        omega
      rw [List.count_cons_of_ne hbc]

theorem foldl_subtract_step_spec :
    ∀ (as : List Addr) (h : Heap) (l : List Addr) (t : Addr → Nat),
      (∀ b ∈ l, (h b).prev = 2 * t b + 1) →
      (∀ b ∈ l, countEdges h as b ≤ t b) →
      (∀ b ∈ l, 2 * t b + 1 < W) →
      (∀ b ∈ l, (List.foldl subtract_step h as b).prev = 2 * (t b - countEdges h as b) + 1) ∧
      (∀ x, ((List.foldl subtract_step h as) x).next = (h x).next ∧
        ((List.foldl subtract_step h as) x).refCount = (h x).refCount ∧
        ((List.foldl subtract_step h as) x).children = (h x).children ∧
        ((List.foldl subtract_step h as) x).dropped = (h x).dropped ∧
        ((List.foldl subtract_step h as) x).freed = (h x).freed) ∧
      (∀ x, ((List.foldl subtract_step h as) x).prev % 2 = (h x).prev % 2) ∧
      (∀ x, (h x).prev % 2 = 0 → (List.foldl subtract_step h as) x = h x) := by
  intro as
  induction as with
  | nil =>
    intro h l t hprev _ _
    refine ⟨?_, fun x => ⟨rfl, rfl, rfl, rfl, rfl⟩, fun x => rfl, fun x _ => rfl⟩
    intro b hb
    rw [List.foldl_nil, hprev b hb, countEdges_nil]
    omega
  | cons a as ih =>
    intro h l t hprev hcount hW
    simp only [List.foldl_cons]
    obtain ⟨s1, s2, s3, s4⟩ := foldl_subtract_tracer_spec ((h a).children) h l t hprev
      (fun b hb => by
        have := hcount b hb
        rw [countEdges_cons] at this
        omega)
      hW
    have hchild : ∀ x, ((subtract_step h a) x).children = (h x).children :=
      fun x => (s2 x).2.2.1
    have hstep1 : ∀ b ∈ l, ((subtract_step h a) b).prev =
        2 * (t b - ((h a).children.count b)) + 1 := by
      intro b hb
      exact s1 b hb
    obtain ⟨ih1, ih2, ih3, ih4⟩ := ih (subtract_step h a) l
      (fun b => t b - ((h a).children.count b)) hstep1
      (fun b hb => by
        show countEdges (subtract_step h a) as b ≤ t b - ((h a).children.count b)
        rw [countEdges_congr h (subtract_step h a) as b hchild]
        have := hcount b hb
        rw [countEdges_cons] at this
        omega)
      (fun b hb => by
        show 2 * (t b - ((h a).children.count b)) + 1 < W
        have := hW b hb
        omega)
    refine ⟨?_, ?_, ?_, ?_⟩
    · intro b hb
      rw [ih1 b hb, countEdges_congr h (subtract_step h a) as b hchild]
      show 2 * (t b - (h a).children.count b - countEdges h as b) + 1 =
        2 * (t b - countEdges h (a :: as) b) + 1
      rw [countEdges_cons]
      have := hcount b hb
      rw [countEdges_cons] at this
      congr 2
      omega
    · intro x
      obtain ⟨e1, e2, e3, e4, e5⟩ := ih2 x
      obtain ⟨f1, f2, f3, f4, f5⟩ := s2 x
      exact ⟨by rw [e1]; exact f1, by rw [e2]; exact f2, by rw [e3]; exact f3,
        by rw [e4]; exact f4, by rw [e5]; exact f5⟩
    · intro x
      rw [ih3 x]
      exact s3 x
    · intro x hx
      rw [ih4 x ((s3 x).trans hx)]
      exact s4 x hx

theorem subtract_step_next (s : Heap) (a x : Addr) :
    ((subtract_step s a) x).next = (s x).next :=
  ((foldl_subtract_tracer_spec ((s a).children) s [] (fun _ => 0)
    (by simp) (by simp) (by simp)).2.1 x).1

theorem subtract_refs_eq_foldl (h : Heap) (root : Addr) (l : List Addr) (fuel : Nat)
    (hc : chainFrom h root ((h root).next) l) (hfuel : l.length < fuel) :
    subtract_refs root fuel h = List.foldl subtract_step h l :=
  visit_list_eq_foldl id subtract_step root
    (fun s a x => subtract_step_next s a x) l ((h root).next) h fuel hc hfuel

/-- State of the heap after pass 1 followed by pass 2: each listed block's
prev word encodes COLLECTING plus `ref_count` minus its in-list in-degree;
every other field everywhere, and the parity of unlisted prev words, are
untouched. -/
theorem after_subtract_spec (h : Heap) (root : Addr) (l : List Addr) (fuel : Nat)
    (hs : ListShape h root l) (hfuel : l.length < fuel)
    (hrc : ∀ b ∈ l, (h b).refCount < 2 ^ 62)
    (hbound : ∀ b ∈ l, countEdges h l b ≤ (h b).refCount) :
    (∀ b ∈ l, ((subtract_refs root fuel (update_refs root fuel h)) b).prev
        = 2 * ((h b).refCount - countEdges h l b) + 1) ∧
    (∀ x, ((subtract_refs root fuel (update_refs root fuel h)) x).next = (h x).next ∧
      ((subtract_refs root fuel (update_refs root fuel h)) x).refCount = (h x).refCount ∧
      ((subtract_refs root fuel (update_refs root fuel h)) x).children = (h x).children ∧
      ((subtract_refs root fuel (update_refs root fuel h)) x).dropped = (h x).dropped ∧
      ((subtract_refs root fuel (update_refs root fuel h)) x).freed = (h x).freed) ∧
    (∀ x, x ∉ l → (h x).prev % 2 = 0 →
      (subtract_refs root fuel (update_refs root fuel h)) x = h x) := by
  obtain ⟨u1, u2, u3⟩ := update_refs_spec h root l fuel hs hfuel
  set h1 := update_refs root fuel h with hh1
  have hprev1 : ∀ b ∈ l, (h1 b).prev = 2 * (h b).refCount + 1 := by
    intro b hb
    rw [u1 b hb, enc_eq _ (lt_trans (hrc b hb) (by norm_num))]
  have hchild1 : ∀ x, (h1 x).children = (h x).children := fun x => (u3 x).2.2.1
  have hchain1 : chainFrom h1 root ((h1 root).next) l := by
    rw [(u3 root).1]
    exact chainFrom_congr (fun x => (u3 x).1) hs.chain
  rw [subtract_refs_eq_foldl h1 root l fuel hchain1 hfuel]
  obtain ⟨o1, o2, o3, o4⟩ := foldl_subtract_step_spec l h1 l (fun b => (h b).refCount)
    hprev1
    (fun b hb => by
      rw [countEdges_congr h h1 l b hchild1]
      exact hbound b hb)
    (fun b hb => by
      show 2 * (h b).refCount + 1 < W
      have := hrc b hb
      have hWpos : (2 : Nat) ^ 62 * 4 ≤ W := by norm_num [W]
      omega)
  refine ⟨?_, ?_, ?_⟩
  · intro b hb
    rw [o1 b hb, countEdges_congr h h1 l b hchild1]
  · intro x
    obtain ⟨e1, e2, e3, e4, e5⟩ := o2 x
    obtain ⟨f1, f2, f3, f4, f5⟩ := u3 x
    exact ⟨by rw [e1, f1], by rw [e2, f2], by rw [e3, f3], by rw [e4, f4], by rw [e5, f5]⟩
  · intro x hx hev
    have hux : h1 x = h x := u2 x hx
    have : (h1 x).prev % 2 = 0 := by rw [hux]; exact hev
    rw [o4 x this, hux]

/-! ### Claim C3 -/

/-- C3: after `update_refs` then `subtract_refs`, every listed block's trial
count equals its snapshotted ref count minus the number of traverse edges
pointing at it from blocks in the same list; when its ref count decomposes as
in-list edges plus external references, the trial count is exactly the number
of external references. -/
theorem claim_C3 (h : Heap) (root : Addr) (l : List Addr) (fuel : Nat)
    (hs : ListShape h root l) (hfuel : l.length < fuel)
    (hrc : ∀ b ∈ l, (h b).refCount < 2 ^ 62)
    (hbound : ∀ b ∈ l, countEdges h l b ≤ (h b).refCount) :
    ∀ b ∈ l,
      trial (subtract_refs root fuel (update_refs root fuel h)) b
          = (h b).refCount - countEdges h l b ∧
      (∀ ext : Nat, (h b).refCount = countEdges h l b + ext →
        trial (subtract_refs root fuel (update_refs root fuel h)) b = ext) := by
  intro b hb
  have hword := (after_subtract_spec h root l fuel hs hfuel hrc hbound).1 b hb
  have htrial := trial_of_prev _ b _ 1 (by omega) hword
  refine ⟨htrial, ?_⟩
  intro ext hext
  rw [htrial]
  omega

theorem claim_C3_witness :
    trial (subtract_refs 2 3 (update_refs 2 3 heap2)) 4
        = (heap2 4).refCount - countEdges heap2 [4, 6] 4 ∧
    (∀ ext : Nat, (heap2 4).refCount = countEdges heap2 [4, 6] 4 + ext →
      trial (subtract_refs 2 3 (update_refs 2 3 heap2)) 4 = ext) :=
  claim_C3 heap2 2 [4, 6] 3 ⟨⟨rfl, by decide, rfl, by decide, rfl⟩, by decide⟩
    (by decide) (by decide) (by decide) 4 (by decide)

/-! ### Pass 3: `mark_reachable` and `revive` -/

/-- The revival edit in `fn revive` is dead code: `is_unreachable` demands the
COLLECTING bit, but `unset_collecting` has just cleared it. -/
theorem revive_edit_dead (h : Heap) (a : Addr) :
    is_unreachable (unset_collecting h a) a = false := by
  rw [Bool.eq_false_iff, ne_eq, is_unreachable_iff, unset_collecting_prev]
  omega

theorem unset_trial (h : Heap) (a x : Addr) :
    trial (unset_collecting h a) x = trial h x := by
  by_cases hx : x = a
  · subst hx
    rw [trial_eq_div, trial_eq_div, unset_collecting_prev]
    omega
  · rw [trial_eq_div, trial_eq_div, unset_collecting_other h a x hx]

theorem unset_coll_self (h : Heap) (a : Addr) :
    is_collecting (unset_collecting h a) a = false := by
  rw [Bool.eq_false_iff, ne_eq, is_collecting_iff, unset_collecting_prev]
  omega

theorem unset_coll_mono (h : Heap) (a x : Addr) :
    is_collecting (unset_collecting h a) x = true → is_collecting h x = true := by
  by_cases hx : x = a
  · subst hx
    rw [unset_coll_self]
    intro hc
    exact absurd hc (by simp)
  · rw [is_collecting_iff, is_collecting_iff, unset_collecting_other h a x hx]
    exact id

theorem setPrev_self (h : Heap) (a : Addr) : setPrev h a ((h a).prev) = h := by
  funext x
  by_cases hx : x = a
  · subst hx
    simp [setPrev]
  · simp [setPrev, hx]

theorem unset_even_id (h : Heap) (a : Addr) (hev : (h a).prev % 2 = 0) :
    unset_collecting h a = h := by
  have : (((h a).prev) &&& PREV_MASK_COLLECTING) ^^^ (h a).prev = (h a).prev := by
    have := and_one_xor_self (h a).prev
    simp only [PREV_MASK_COLLECTING]
    omega
  rw [unset_collecting, this, setPrev_self]

/-- Basic frame facts about `revive`: it never changes a trial count, never
sets a COLLECTING bit, touches only `prev` words, and only on blocks whose
COLLECTING bit is set. -/
theorem revive_basic : ∀ (fuel : Nat),
    (∀ (h : Heap) (a : Addr),
      (∀ x, trial (revive fuel h a) x = trial h x) ∧
      (∀ x, is_collecting (revive fuel h a) x = true → is_collecting h x = true) ∧
      (∀ x, ((revive fuel h a) x).next = (h x).next ∧
        ((revive fuel h a) x).refCount = (h x).refCount ∧
        ((revive fuel h a) x).children = (h x).children ∧
        ((revive fuel h a) x).dropped = (h x).dropped ∧
        ((revive fuel h a) x).freed = (h x).freed) ∧
      (∀ x, (h x).prev % 2 = 0 → (revive fuel h a) x = h x)) ∧
    (∀ (cs : List Addr) (h : Heap),
      (∀ x, trial (List.foldl (revive fuel) h cs) x = trial h x) ∧
      (∀ x, is_collecting (List.foldl (revive fuel) h cs) x = true →
        is_collecting h x = true) ∧
      (∀ x, ((List.foldl (revive fuel) h cs) x).next = (h x).next ∧
        ((List.foldl (revive fuel) h cs) x).refCount = (h x).refCount ∧
        ((List.foldl (revive fuel) h cs) x).children = (h x).children ∧
        ((List.foldl (revive fuel) h cs) x).dropped = (h x).dropped ∧
        ((List.foldl (revive fuel) h cs) x).freed = (h x).freed) ∧
      (∀ x, (h x).prev % 2 = 0 → (List.foldl (revive fuel) h cs) x = h x)) := by
  intro fuel
  induction fuel with
  | zero =>
    have hid : ∀ (h : Heap) (a : Addr), revive 0 h a = h := fun h a => rfl
    have hfold : ∀ (cs : List Addr) (h : Heap), List.foldl (revive 0) h cs = h := by
      intro cs
      induction cs with
      | nil => intro h; rfl
      | cons c cs ih =>
        intro h
        rw [List.foldl_cons, hid, ih]
    refine ⟨fun h a => ?_, fun cs h => ?_⟩
    · rw [hid]
      exact ⟨fun x => rfl, fun x => id, fun x => ⟨rfl, rfl, rfl, rfl, rfl⟩, fun x _ => rfl⟩
    · rw [hfold]
      exact ⟨fun x => rfl, fun x => id, fun x => ⟨rfl, rfl, rfl, rfl, rfl⟩, fun x _ => rfl⟩
  | succ fuel ih =>
    have hsingle : ∀ (h : Heap) (a : Addr),
        (∀ x, trial (revive (fuel + 1) h a) x = trial h x) ∧
        (∀ x, is_collecting (revive (fuel + 1) h a) x = true →
          is_collecting h x = true) ∧
        (∀ x, ((revive (fuel + 1) h a) x).next = (h x).next ∧
          ((revive (fuel + 1) h a) x).refCount = (h x).refCount ∧
          ((revive (fuel + 1) h a) x).children = (h x).children ∧
          ((revive (fuel + 1) h a) x).dropped = (h x).dropped ∧
          ((revive (fuel + 1) h a) x).freed = (h x).freed) ∧
        (∀ x, (h x).prev % 2 = 0 → (revive (fuel + 1) h a) x = h x) := by
      intro h a
      by_cases hg : is_collecting h a = true
      · have hunf : revive (fuel + 1) h a =
            List.foldl (revive fuel) (unset_collecting h a)
              (((unset_collecting h a) a).children) := by
          simp only [revive, hg, if_true, revive_edit_dead, if_false, Bool.false_eq_true]
        obtain ⟨f1, f2, f3, f4⟩ := ih.2 (((unset_collecting h a) a).children) (unset_collecting h a)
        rw [hunf]
        refine ⟨?_, ?_, ?_, ?_⟩
        · intro x
          rw [f1 x, unset_trial]
        · intro x hx
          exact unset_coll_mono h a x (f2 x hx)
        · intro x
          obtain ⟨e1, e2, e3, e4, e5⟩ := f3 x
          rcases eq_or_ne x a with rfl | hxa
          · rw [e1, e2, e3, e4, e5]
            simp [unset_collecting]
          · rw [e1, e2, e3, e4, e5, unset_collecting_other h a x hxa]
            exact ⟨rfl, rfl, rfl, rfl, rfl⟩
        · intro x hx
          rcases eq_or_ne x a with rfl | hxa
          · have heve : (h x).prev % 2 = 0 := hx
            have hu : unset_collecting h x = h := unset_even_id h x heve
            rw [f4 x (by rw [hu]; exact hx), hu]
          · have hux : (unset_collecting h a) x = h x := unset_collecting_other h a x hxa
            rw [f4 x (by rw [hux]; exact hx), hux]
      · have hunf : revive (fuel + 1) h a = h := by
          simp only [revive, hg, if_false, Bool.false_eq_true]
        rw [hunf]
        exact ⟨fun x => rfl, fun x => id, fun x => ⟨rfl, rfl, rfl, rfl, rfl⟩, fun x _ => rfl⟩
    refine ⟨hsingle, ?_⟩
    intro cs
    induction cs with
    | nil =>
      intro h
      exact ⟨fun x => rfl, fun x => id, fun x => ⟨rfl, rfl, rfl, rfl, rfl⟩, fun x _ => rfl⟩
    | cons c cs ihc =>
      intro h
      rw [List.foldl_cons]
      obtain ⟨g1, g2, g3, g4⟩ := hsingle h c
      obtain ⟨k1, k2, k3, k4⟩ := ihc (revive (fuel + 1) h c)
      refine ⟨?_, ?_, ?_, ?_⟩
      · intro x
        rw [k1 x, g1 x]
      · intro x hx
        exact g2 x (k2 x hx)
      · intro x
        obtain ⟨e1, e2, e3, e4, e5⟩ := k3 x
        obtain ⟨d1, d2, d3, d4, d5⟩ := g3 x
        exact ⟨by rw [e1, d1], by rw [e2, d2], by rw [e3, d3], by rw [e4, d4], by rw [e5, d5]⟩
      · intro x hx
        have hgx : (revive (fuel + 1) h c) x = h x := g4 x hx
        rw [k4 x (by rw [hgx]; exact hx), hgx]

/-! ### Claim C2 (corrected)

`fn revive` tests `is_unreachable` *after* `unset_collecting` has already
cleared the COLLECTING bit, and `is_unreachable` requires that bit; so the
`edit_gc_ref_count(header, 1)` "revive" line never runs and the trial count
of a revived target stays 0 instead of being raised to ≥ 1. -/

theorem claim_C2_counterexample :
    is_collecting (subtract_refs 2 2 (update_refs 2 2 heap1)) 4 = true ∧
    trial (subtract_refs 2 2 (update_refs 2 2 heap1)) 4 = 0 ∧
    is_collecting (revive 2 (subtract_refs 2 2 (update_refs 2 2 heap1)) 4) 4 = false ∧
    ¬ 1 ≤ trial (revive 2 (subtract_refs 2 2 (update_refs 2 2 heap1)) 4) 4 := by
  decide

/-- C2 (amended): when the revival visitor reaches a traverse target that is
still COLLECTING, it clears the target's COLLECTING flag and recurses into
the target's children, but leaves every trial count unchanged: the revival
edit is dead code, because `is_unreachable` is tested only after the
COLLECTING bit it requires has been cleared. -/
theorem claim_C2_amended (fuel : Nat) (h : Heap) (a : Addr)
    (hcoll : is_collecting h a = true) :
    revive (fuel + 1) h a
        = revive_children fuel (unset_collecting h a) ((h a).children) ∧
    is_collecting (revive (fuel + 1) h a) a = false ∧
    (∀ x, trial (revive (fuel + 1) h a) x = trial h x) ∧
    is_unreachable (unset_collecting h a) a = false := by
  have hunf : revive (fuel + 1) h a =
      List.foldl (revive fuel) (unset_collecting h a)
        (((unset_collecting h a) a).children) := by
    simp only [revive, hcoll, if_true, revive_edit_dead, if_false, Bool.false_eq_true]
  have hch : ((unset_collecting h a) a).children = (h a).children := by
    simp [unset_collecting]
  refine ⟨?_, ?_, (revive_basic (fuel + 1)).1 h a |>.1, revive_edit_dead h a⟩
  · rw [hunf, hch, revive_children]
  · rw [hunf]
    obtain ⟨-, f2, -, -⟩ := (revive_basic fuel).2 (((unset_collecting h a) a).children)
      (unset_collecting h a)
    by_cases hc : is_collecting (List.foldl (revive fuel) (unset_collecting h a)
        (((unset_collecting h a) a).children)) a = true
    · have := f2 a hc
      rw [unset_coll_self] at this
      exact absurd this (by simp)
    · simpa using hc

theorem claim_C2_amended_witness :
    revive 2 (subtract_refs 2 2 (update_refs 2 2 heap1)) 4
        = revive_children 1
            (unset_collecting (subtract_refs 2 2 (update_refs 2 2 heap1)) 4)
            (((subtract_refs 2 2 (update_refs 2 2 heap1)) 4).children) ∧
    is_collecting (revive 2 (subtract_refs 2 2 (update_refs 2 2 heap1)) 4) 4 = false ∧
    (∀ x, trial (revive 2 (subtract_refs 2 2 (update_refs 2 2 heap1)) 4) x
        = trial (subtract_refs 2 2 (update_refs 2 2 heap1)) x) ∧
    is_unreachable (unset_collecting (subtract_refs 2 2 (update_refs 2 2 heap1)) 4) 4 = false :=
  claim_C2_amended 1 (subtract_refs 2 2 (update_refs 2 2 heap1)) 4 (by decide)

/-! ### Frames for the whole mark pass -/

theorem unset_frame (h : Heap) (a x : Addr) :
    ((unset_collecting h a) x).next = (h x).next ∧
    ((unset_collecting h a) x).refCount = (h x).refCount ∧
    ((unset_collecting h a) x).children = (h x).children ∧
    ((unset_collecting h a) x).dropped = (h x).dropped ∧
    ((unset_collecting h a) x).freed = (h x).freed := by
  refine ⟨?_, ?_, ?_, ?_, ?_⟩ <;> simp [unset_collecting]

/-- One step of the top-level marking loop expressed through `revive_children`
(the guard case) or the identity. -/
theorem mark_step_cases (rfuel : Nat) (s : Heap) (a : Addr) :
    mark_step rfuel s a
        = (if is_collecting s a && !is_unreachable s a then
            revive_children rfuel (unset_collecting s a) ((s a).children)
          else s) := by
  have h0 : mark_step rfuel s a
      = (if is_collecting s a && !is_unreachable s a then
          revive_children rfuel (unset_collecting s a)
            (((unset_collecting s a) a).children)
        else s) := rfl
  rw [h0, (unset_frame s a a).2.2.1]

theorem mark_step_frame (rfuel : Nat) (s : Heap) (a x : Addr) :
    ((mark_step rfuel s a) x).next = (s x).next ∧
    ((mark_step rfuel s a) x).refCount = (s x).refCount ∧
    ((mark_step rfuel s a) x).children = (s x).children ∧
    ((mark_step rfuel s a) x).dropped = (s x).dropped ∧
    ((mark_step rfuel s a) x).freed = (s x).freed := by
  rw [mark_step_cases]
  split
  · obtain ⟨-, -, f3, -⟩ := (revive_basic rfuel).2 ((s a).children) (unset_collecting s a)
    obtain ⟨e1, e2, e3, e4, e5⟩ := f3 x
    obtain ⟨d1, d2, d3, d4, d5⟩ := unset_frame s a x
    exact ⟨e1.trans d1, e2.trans d2, e3.trans d3, e4.trans d4, e5.trans d5⟩
  · exact ⟨rfl, rfl, rfl, rfl, rfl⟩

theorem mark_step_trial (rfuel : Nat) (s : Heap) (a x : Addr) :
    trial (mark_step rfuel s a) x = trial s x := by
  rw [mark_step_cases]
  split
  · obtain ⟨f1, -, -, -⟩ := (revive_basic rfuel).2 ((s a).children) (unset_collecting s a)
    exact (f1 x).trans (unset_trial s a x)
  · rfl

theorem mark_step_coll_mono (rfuel : Nat) (s : Heap) (a x : Addr) :
    is_collecting (mark_step rfuel s a) x = true → is_collecting s x = true := by
  rw [mark_step_cases]
  split
  · intro hx
    obtain ⟨-, f2, -, -⟩ := (revive_basic rfuel).2 ((s a).children) (unset_collecting s a)
    exact unset_coll_mono s a x (f2 x hx)
  · exact id

theorem mark_step_even_id (rfuel : Nat) (s : Heap) (a x : Addr)
    (hx : (s x).prev % 2 = 0) : (mark_step rfuel s a) x = s x := by
  rw [mark_step_cases]
  split
  · next hg =>
    obtain ⟨-, -, -, f4⟩ := (revive_basic rfuel).2 ((s a).children) (unset_collecting s a)
    have hxa : x ≠ a := by
      intro hxx
      subst hxx
      have := (is_collecting_iff s x).mp (by
        simp only [Bool.and_eq_true] at hg
        exact hg.1)
      omega
    have hux : (unset_collecting s a) x = s x := unset_collecting_other s a x hxa
    exact (f4 x (by rw [hux]; exact hx)).trans hux
  · rfl

theorem mark_reachable_eq_foldl (h : Heap) (root : Addr) (l : List Addr) (fuel rfuel : Nat)
    (hc : chainFrom h root ((h root).next) l) (hfuel : l.length < fuel) :
    mark_reachable root fuel rfuel h = List.foldl (mark_step rfuel) h l :=
  visit_list_eq_foldl id (mark_step rfuel) root
    (fun s a x => (mark_step_frame rfuel s a x).1) l ((h root).next) h fuel hc hfuel

theorem foldl_mark_frame (rfuel : Nat) (l : List Addr) (h : Heap) (x : Addr) :
    ((List.foldl (mark_step rfuel) h l) x).next = (h x).next ∧
    ((List.foldl (mark_step rfuel) h l) x).refCount = (h x).refCount ∧
    ((List.foldl (mark_step rfuel) h l) x).children = (h x).children ∧
    ((List.foldl (mark_step rfuel) h l) x).dropped = (h x).dropped ∧
    ((List.foldl (mark_step rfuel) h l) x).freed = (h x).freed := by
  induction l generalizing h with
  | nil => exact ⟨rfl, rfl, rfl, rfl, rfl⟩
  | cons a l ih =>
    rw [List.foldl_cons]
    obtain ⟨e1, e2, e3, e4, e5⟩ := ih (mark_step rfuel h a)
    obtain ⟨d1, d2, d3, d4, d5⟩ := mark_step_frame rfuel h a x
    exact ⟨by rw [e1, d1], by rw [e2, d2], by rw [e3, d3], by rw [e4, d4], by rw [e5, d5]⟩

theorem foldl_mark_trial (rfuel : Nat) (l : List Addr) (h : Heap) (x : Addr) :
    trial (List.foldl (mark_step rfuel) h l) x = trial h x := by
  induction l generalizing h with
  | nil => rfl
  | cons a l ih =>
    rw [List.foldl_cons, ih (mark_step rfuel h a), mark_step_trial]

theorem foldl_mark_coll_mono (rfuel : Nat) (l : List Addr) (h : Heap) (x : Addr) :
    is_collecting (List.foldl (mark_step rfuel) h l) x = true →
    is_collecting h x = true := by
  induction l generalizing h with
  | nil => exact id
  | cons a l ih =>
    rw [List.foldl_cons]
    intro hx
    exact mark_step_coll_mono rfuel h a x (ih (mark_step rfuel h a) hx)

theorem foldl_mark_even_id (rfuel : Nat) (l : List Addr) (h : Heap) (x : Addr)
    (hx : (h x).prev % 2 = 0) : (List.foldl (mark_step rfuel) h l) x = h x := by
  induction l generalizing h with
  | nil => rfl
  | cons a l ih =>
    rw [List.foldl_cons]
    have hstep : (mark_step rfuel h a) x = h x := mark_step_even_id rfuel h a x hx
    rw [ih (mark_step rfuel h a) (by rw [hstep]; exact hx), hstep]

/-! ### The counting and staging walks of `release_unreachable` -/

theorem is_unreachable_congr (h h' : Heap) (b : Addr)
    (hp : (h' b).prev = (h b).prev) : is_unreachable h' b = is_unreachable h b := by
  rw [is_unreachable, is_unreachable, is_collecting, is_collecting, hp]

theorem foldl_count_unreachable (l : List Addr) (h0 : Heap) (s : Heap × Nat)
    (hp : ∀ x, (s.1 x).prev = (h0 x).prev) :
    (List.foldl count_unreachable_step s l).2
        = s.2 + (l.filter (fun b => is_unreachable h0 b)).length ∧
    (List.foldl count_unreachable_step s l).1 = s.1 := by
  induction l generalizing s with
  | nil => exact ⟨by simp, rfl⟩
  | cons a l ih =>
    rw [List.foldl_cons]
    have hstep : count_unreachable_step s a =
        (s.1, if is_unreachable h0 a then s.2 + 1 else s.2) := by
      rw [count_unreachable_step, is_unreachable_congr h0 s.1 a (hp a)]
      split <;> rfl
    rw [hstep]
    obtain ⟨e1, e2⟩ := ih (s.1, if is_unreachable h0 a then s.2 + 1 else s.2) hp
    refine ⟨?_, e2⟩
    rw [e1, List.filter_cons]
    split <;> simp <;> omega

theorem gc_clone_prev (h : Heap) (a x : Addr) : ((gc_clone h a) x).prev = (h x).prev := by
  simp [gc_clone]

theorem foldl_to_drop (l : List Addr) (h0 : Heap) (s : Heap × List Addr)
    (hp : ∀ x, (s.1 x).prev = (h0 x).prev) :
    (List.foldl to_drop_step s l).2
        = s.2 ++ l.filter (fun b => is_unreachable h0 b) ∧
    (∀ x, ((List.foldl to_drop_step s l).1 x).prev = (h0 x).prev) := by
  induction l generalizing s with
  | nil => exact ⟨by simp, hp⟩
  | cons a l ih =>
    rw [List.foldl_cons]
    by_cases hu : is_unreachable h0 a
    · have hstep : to_drop_step s a = (gc_clone s.1 a, s.2 ++ [a]) := by
        rw [to_drop_step, is_unreachable_congr h0 s.1 a (hp a)]
        simp [hu]
      rw [hstep]
      obtain ⟨e1, e2⟩ := ih (gc_clone s.1 a, s.2 ++ [a])
        (fun x => by rw [gc_clone_prev]; exact hp x)
      refine ⟨?_, e2⟩
      rw [e1, List.filter_cons]
      simp [hu]
    · have hstep : to_drop_step s a = s := by
        rw [to_drop_step, is_unreachable_congr h0 s.1 a (hp a)]
        simp [hu]
      rw [hstep]
      obtain ⟨e1, e2⟩ := ih s hp
      refine ⟨?_, e2⟩
      rw [e1, List.filter_cons]
      simp [hu]

/-! ### Claim C1 -/

/-- C1: the counting walk of `release_unreachable` counts exactly the blocks
that the staging walk then pushes into the to-drop vector, and
`collect_list` (= `collect_cycles`) returns that number. -/
theorem claim_C1 (h : Heap) (root : Addr) (l : List Addr) (fuel rfuel dfuel : Nat)
    (hs : ListShape h root l) (hfuel : l.length < fuel) :
    count_unreachable root fuel
        (mark_reachable root fuel rfuel (subtract_refs root fuel (update_refs root fuel h)))
      = ((build_to_drop root fuel
          (mark_reachable root fuel rfuel
            (subtract_refs root fuel (update_refs root fuel h)))).2).length ∧
    (∀ (n : Nat) (h' : Heap), collect_list root fuel rfuel dfuel h = some (n, h') →
      n = ((build_to_drop root fuel
            (mark_reachable root fuel rfuel
              (subtract_refs root fuel (update_refs root fuel h)))).2).length) := by
  have hnext1 : ∀ x, ((update_refs root fuel h) x).next = (h x).next :=
    fun x => ((update_refs_spec h root l fuel hs hfuel).2.2 x).1
  have hchain1 : chainFrom (update_refs root fuel h) root
      (((update_refs root fuel h) root).next) l := by
    rw [hnext1]
    exact chainFrom_congr hnext1 hs.chain
  have hnext2 : ∀ x, ((subtract_refs root fuel (update_refs root fuel h)) x).next
      = (h x).next := by
    intro x
    rw [subtract_refs_eq_foldl _ root l fuel hchain1 hfuel]
    have := (foldl_subtract_step_spec l (update_refs root fuel h) [] (fun _ => 0)
      (by simp) (by simp) (by simp)).2.1 x
    rw [this.1, hnext1]
  have hchain2 : chainFrom (subtract_refs root fuel (update_refs root fuel h)) root
      (((subtract_refs root fuel (update_refs root fuel h)) root).next) l := by
    rw [hnext2]
    exact chainFrom_congr hnext2 hs.chain
  have hmark : mark_reachable root fuel rfuel
        (subtract_refs root fuel (update_refs root fuel h))
      = List.foldl (mark_step rfuel)
          (subtract_refs root fuel (update_refs root fuel h)) l :=
    mark_reachable_eq_foldl _ root l fuel rfuel hchain2 hfuel
  have hnext3 : ∀ x, ((mark_reachable root fuel rfuel
      (subtract_refs root fuel (update_refs root fuel h))) x).next = (h x).next := by
    intro x
    rw [hmark, (foldl_mark_frame rfuel l _ x).1, hnext2]
  have hchain3 : chainFrom (mark_reachable root fuel rfuel
        (subtract_refs root fuel (update_refs root fuel h))) root
      (((mark_reachable root fuel rfuel
        (subtract_refs root fuel (update_refs root fuel h))) root).next) l := by
    rw [hnext3]
    exact chainFrom_congr hnext3 hs.chain
  have hcount : count_unreachable root fuel
        (mark_reachable root fuel rfuel (subtract_refs root fuel (update_refs root fuel h)))
      = (l.filter (fun b => is_unreachable
          (mark_reachable root fuel rfuel
            (subtract_refs root fuel (update_refs root fuel h))) b)).length := by
    rw [count_unreachable,
      visit_list_eq_foldl Prod.fst count_unreachable_step root
        (by
          intro s a x
          rw [count_unreachable_step]
          split <;> rfl) l _ _ fuel hchain3 hfuel,
      (foldl_count_unreachable l _ (_, 0) (fun x => rfl)).1]
    simp
  have hdrop : (build_to_drop root fuel
        (mark_reachable root fuel rfuel
          (subtract_refs root fuel (update_refs root fuel h)))).2
      = l.filter (fun b => is_unreachable
          (mark_reachable root fuel rfuel
            (subtract_refs root fuel (update_refs root fuel h))) b) := by
    rw [build_to_drop,
      visit_list_eq_foldl Prod.fst to_drop_step root
        (by
          intro s a x
          rw [to_drop_step]
          split
          · simp [gc_clone]
          · rfl) l _ _ fuel hchain3 hfuel]
    have := (foldl_to_drop l
      (mark_reachable root fuel rfuel (subtract_refs root fuel (update_refs root fuel h)))
      ((mark_reachable root fuel rfuel (subtract_refs root fuel (update_refs root fuel h))), [])
      (fun x => rfl)).1
    rw [this]
    simp
  constructor
  · rw [hcount, hdrop]
  · intro n h' hret
    rw [collect_list, release_unreachable] at hret
    split at hret
    · simp only [Option.some.injEq, Prod.mk.injEq] at hret
      rw [← hret.1, hcount, hdrop]
    · exact absurd hret (by simp)

theorem claim_C1_witness :
    count_unreachable 2 2
        (mark_reachable 2 2 2 (subtract_refs 2 2 (update_refs 2 2 heap1)))
      = ((build_to_drop 2 2
          (mark_reachable 2 2 2
            (subtract_refs 2 2 (update_refs 2 2 heap1)))).2).length ∧
    (∀ (n : Nat) (h' : Heap), collect_list 2 2 2 2 heap1 = some (n, h') →
      n = ((build_to_drop 2 2
            (mark_reachable 2 2 2
              (subtract_refs 2 2 (update_refs 2 2 heap1)))).2).length) :=
  claim_C1 heap1 2 [4] 2 2 2 ⟨⟨rfl, by decide, rfl⟩, by decide⟩ (by decide)

/-! ### Measure lemmas for the marking recursion -/

theorem length_filter_mono {α : Type} (p q : α → Bool) (l : List α)
    (h : ∀ b, q b = true → p b = true) :
    (l.filter q).length ≤ (l.filter p).length := by
  induction l with
  | nil => simp
  | cons b l ih =>
    rw [List.filter_cons, List.filter_cons]
    by_cases hq : q b = true
    · rw [if_pos hq, if_pos (h b hq)]
      simpa using ih
    · rw [if_neg hq]
      split
      · simp only [List.length_cons]
        omega
      · exact ih

theorem length_filter_lt {α : Type} (p q : α → Bool) :
    ∀ (l : List α) (a : α), a ∈ l → (∀ b, q b = true → p b = true) →
      p a = true → q a = false →
      (l.filter q).length < (l.filter p).length := by
  intro l
  induction l with
  | nil => intro a ha; exact absurd ha (List.not_mem_nil a)
  | cons b l ih =>
    intro a ha himp hpa hqa
    rw [List.filter_cons, List.filter_cons]
    rcases List.mem_cons.mp ha with rfl | hal
    · rw [if_pos hpa, if_neg (by rw [hqa]; simp)]
      have := length_filter_mono p q l himp
      simpa using Nat.lt_succ_of_le this
    · by_cases hq : q b = true
      · rw [if_pos hq, if_pos (himp b hq)]
        simpa using ih a hal himp hpa hqa
      · rw [if_neg hq]
        have hlt := ih a hal himp hpa hqa
        split
        · simp only [List.length_cons]
          omega
        · exact hlt

/-- The number of listed blocks whose COLLECTING bit is set: the termination
measure of the `revive` recursion. -/
theorem coll_measure_le (l : List Addr) (h h' : Heap)
    (hmono : ∀ b, is_collecting h' b = true → is_collecting h b = true) :
    (l.filter (fun b => is_collecting h' b)).length
      ≤ (l.filter (fun b => is_collecting h b)).length :=
  length_filter_mono _ _ l hmono

theorem coll_measure_lt (l : List Addr) (h h' : Heap) (a : Addr) (ha : a ∈ l)
    (hmono : ∀ b, is_collecting h' b = true → is_collecting h b = true)
    (hca : is_collecting h a = true) (hca' : is_collecting h' a = false) :
    (l.filter (fun b => is_collecting h' b)).length
      < (l.filter (fun b => is_collecting h b)).length :=
  length_filter_lt _ _ l a ha hmono hca hca'

theorem is_collecting_congr (h h' : Heap) (x : Addr) (hp : (h' x).prev = (h x).prev) :
    is_collecting h' x = is_collecting h x := by
  rw [is_collecting, is_collecting, hp]

theorem revive_unfold (fuel : Nat) (h : Heap) (a : Addr) (hg : is_collecting h a = true) :
    revive (fuel + 1) h a
      = List.foldl (revive fuel) (unset_collecting h a)
          (((unset_collecting h a) a).children) := by
  simp only [revive, hg, if_true, revive_edit_dead, if_false, Bool.false_eq_true]

theorem revive_not_coll (fuel : Nat) (h : Heap) (a : Addr) (hg : is_collecting h a = false) :
    revive fuel h a = h := by
  cases fuel with
  | zero => rfl
  | succ fuel => simp only [revive, hg, if_false, Bool.false_eq_true]

/-- Completeness of `revive` given enough fuel: the visited block ends up
cleared, and "cleared blocks have only cleared children" is preserved
(except at blocks in the excuse set `B` still being processed). -/
theorem revive_complete (l : List Addr) : ∀ (rfuel : Nat),
    (∀ (h : Heap) (a : Addr) (B : List Addr),
      (∀ x, x ∉ l → (h x).prev % 2 = 0) →
      (l.filter (fun b => is_collecting h b)).length < rfuel →
      (∀ b ∈ l, b ∉ B → is_collecting h b = false →
        ∀ c ∈ (h b).children, is_collecting h c = false) →
      is_collecting (revive rfuel h a) a = false ∧
      (∀ b ∈ l, b ∉ B → is_collecting (revive rfuel h a) b = false →
        ∀ c ∈ ((revive rfuel h a) b).children,
          is_collecting (revive rfuel h a) c = false)) ∧
    (∀ (cs : List Addr) (h : Heap) (B : List Addr),
      (∀ x, x ∉ l → (h x).prev % 2 = 0) →
      (l.filter (fun b => is_collecting h b)).length < rfuel →
      (∀ b ∈ l, b ∉ B → is_collecting h b = false →
        ∀ c ∈ (h b).children, is_collecting h c = false) →
      (∀ c ∈ cs, is_collecting (List.foldl (revive rfuel) h cs) c = false) ∧
      (∀ b ∈ l, b ∉ B → is_collecting (List.foldl (revive rfuel) h cs) b = false →
        ∀ c ∈ ((List.foldl (revive rfuel) h cs) b).children,
          is_collecting (List.foldl (revive rfuel) h cs) c = false)) := by
  intro rfuel
  induction rfuel with
  | zero =>
    exact ⟨fun h a B _ hm => absurd hm (by omega),
      fun cs h B _ hm => absurd hm (by omega)⟩
  | succ f ih =>
    have hA : ∀ (h : Heap) (a : Addr) (B : List Addr),
        (∀ x, x ∉ l → (h x).prev % 2 = 0) →
        (l.filter (fun b => is_collecting h b)).length < f + 1 →
        (∀ b ∈ l, b ∉ B → is_collecting h b = false →
          ∀ c ∈ (h b).children, is_collecting h c = false) →
        is_collecting (revive (f + 1) h a) a = false ∧
        (∀ b ∈ l, b ∉ B → is_collecting (revive (f + 1) h a) b = false →
          ∀ c ∈ ((revive (f + 1) h a) b).children,
            is_collecting (revive (f + 1) h a) c = false) := by
      intro h a B hout hm hIE
      by_cases hg : is_collecting h a = true
      · have hal : a ∈ l := by
          by_contra hanl
          have := hout a hanl
          have := (is_collecting_iff h a).mp hg
          omega
        rw [revive_unfold f h a hg]
        have hout1 : ∀ x, x ∉ l → ((unset_collecting h a) x).prev % 2 = 0 := by
          intro x hx
          rw [unset_collecting_other h a x (fun hxa => hx (hxa ▸ hal))]
          exact hout x hx
        have hm1 : (l.filter (fun b => is_collecting (unset_collecting h a) b)).length < f := by
          have hlt := coll_measure_lt l h (unset_collecting h a) a hal
            (unset_coll_mono h a) hg (unset_coll_self h a)
          omega
        have hIE1 : ∀ b ∈ l, b ∉ (a :: B) →
            is_collecting (unset_collecting h a) b = false →
            ∀ c ∈ ((unset_collecting h a) b).children,
              is_collecting (unset_collecting h a) c = false := by
          intro b hb hbB hbc c hc
          have hba : b ≠ a := fun hba => hbB (by rw [hba]; exact List.mem_cons_self a B)
          have hbB' : b ∉ B := fun hbB'' => hbB (List.mem_cons_of_mem a hbB'')
          have hbch : ((unset_collecting h a) b).children = (h b).children :=
            (unset_frame h a b).2.2.1
          have hbcoll : is_collecting h b = false := by
            rw [← is_collecting_congr h (unset_collecting h a) b
              (by rw [unset_collecting_other h a b hba])]
            exact hbc
          have := hIE b hb hbB' hbcoll c (by rw [← hbch]; exact hc)
          by_cases hca : c = a
          · subst hca
            rw [hg] at this
            exact absurd this (by simp)
          · rw [is_collecting_congr h (unset_collecting h a) c
              (by rw [unset_collecting_other h a c hca])]
            exact this
        obtain ⟨hB1, hB2⟩ := ih.2 (((unset_collecting h a) a).children)
          (unset_collecting h a) (a :: B) hout1 hm1 hIE1
        have hmono2 : ∀ x, is_collecting (List.foldl (revive f) (unset_collecting h a)
            (((unset_collecting h a) a).children)) x = true →
            is_collecting (unset_collecting h a) x = true :=
          fun x => ((revive_basic f).2 (((unset_collecting h a) a).children)
            (unset_collecting h a)).2.1 x
        have hacoll : is_collecting (List.foldl (revive f) (unset_collecting h a)
            (((unset_collecting h a) a).children)) a = false := by
          by_cases hc : is_collecting (List.foldl (revive f) (unset_collecting h a)
              (((unset_collecting h a) a).children)) a = true
          · have := hmono2 a hc
            rw [unset_coll_self] at this
            exact absurd this (by simp)
          · simpa using hc
        refine ⟨hacoll, ?_⟩
        intro b hb hbB hbc c hc
        by_cases hba : b = a
        · subst hba
          have hchb : ((List.foldl (revive f) (unset_collecting h b)
              (((unset_collecting h b) b).children)) b).children
              = ((unset_collecting h b) b).children :=
            (((revive_basic f).2 (((unset_collecting h b) b).children)
              (unset_collecting h b)).2.2.1 b).2.2.1
          rw [hchb] at hc
          exact hB1 c hc
        · exact hB2 b hb (fun hmem => by
            rcases List.mem_cons.mp hmem with h1 | h1
            · exact hba h1
            · exact hbB h1) hbc c hc
      · rw [revive_not_coll (f + 1) h a (by simpa using hg)]
        refine ⟨by simpa using hg, hIE⟩
    refine ⟨hA, ?_⟩
    intro cs
    induction cs with
    | nil =>
      intro h B hout hm hIE
      exact ⟨fun c hc => absurd hc (List.not_mem_nil c), hIE⟩
    | cons c cs ihc =>
      intro h B hout hm hIE
      rw [List.foldl_cons]
      obtain ⟨hc1, hc2⟩ := hA h c B hout hm hIE
      have hout' : ∀ x, x ∉ l → ((revive (f + 1) h c) x).prev % 2 = 0 := by
        intro x hx
        rw [((revive_basic (f + 1)).1 h c).2.2.2 x (hout x hx)]
        exact hout x hx
      have hm' : (l.filter (fun b => is_collecting (revive (f + 1) h c) b)).length < f + 1 := by
        have := coll_measure_le l h (revive (f + 1) h c)
          (fun b => ((revive_basic (f + 1)).1 h c).2.1 b)
        omega
      obtain ⟨hk1, hk2⟩ := ihc (revive (f + 1) h c) B hout' hm' hc2
      refine ⟨?_, hk2⟩
      intro d hd
      rcases List.mem_cons.mp hd with rfl | hdcs
      · by_cases hcoll : is_collecting (List.foldl (revive (f + 1)) (revive (f + 1) h d) cs) d = true
        · have := ((revive_basic (f + 1)).2 cs (revive (f + 1) h d)).2.1 d hcoll
          rw [hc1] at this
          exact absurd this (by simp)
        · simpa using hcoll
      · exact hk1 d hdcs

theorem is_unreachable_eq_trial (h : Heap) (a : Addr) :
    is_unreachable h a = (is_collecting h a && (trial h a == 0)) := rfl

/-- Clearing a block's COLLECTING flag preserves the closure invariant if the
block itself is excused. -/
theorem IE_unset (l : List Addr) (h : Heap) (a : Addr) (B : List Addr)
    (hg : is_collecting h a = true)
    (hIE : ∀ b ∈ l, b ∉ B → is_collecting h b = false →
      ∀ c ∈ (h b).children, is_collecting h c = false) :
    ∀ b ∈ l, b ∉ (a :: B) → is_collecting (unset_collecting h a) b = false →
      ∀ c ∈ ((unset_collecting h a) b).children,
        is_collecting (unset_collecting h a) c = false := by
  intro b hb hbB hbc c hc
  have hba : b ≠ a := fun hba => hbB (by rw [hba]; exact List.mem_cons_self a B)
  have hbB' : b ∉ B := fun hbB'' => hbB (List.mem_cons_of_mem a hbB'')
  have hbch : ((unset_collecting h a) b).children = (h b).children :=
    (unset_frame h a b).2.2.1
  have hbcoll : is_collecting h b = false := by
    rw [← is_collecting_congr h (unset_collecting h a) b
      (by rw [unset_collecting_other h a b hba])]
    exact hbc
  have := hIE b hb hbB' hbcoll c (by rw [← hbch]; exact hc)
  by_cases hca : c = a
  · subst hca
    rw [hg] at this
    exact absurd this (by simp)
  · rw [is_collecting_congr h (unset_collecting h a) c
      (by rw [unset_collecting_other h a c hca])]
    exact this

/-- Completeness of the top-level marking loop: every processed block with a
non-zero trial count ends up cleared, the closure invariant holds, and
unlisted prev words stay even. -/
theorem mark_fold_complete (l : List Addr) (rfuel : Nat) (hrf : l.length < rfuel) :
    ∀ (as : List Addr) (h : Heap),
      (∀ x, x ∉ l → (h x).prev % 2 = 0) →
      (∀ b ∈ l, is_collecting h b = false →
        ∀ c ∈ (h b).children, is_collecting h c = false) →
      (∀ b ∈ as, trial h b ≠ 0 →
        is_collecting (List.foldl (mark_step rfuel) h as) b = false) ∧
      (∀ b ∈ l, is_collecting (List.foldl (mark_step rfuel) h as) b = false →
        ∀ c ∈ ((List.foldl (mark_step rfuel) h as) b).children,
          is_collecting (List.foldl (mark_step rfuel) h as) c = false) ∧
      (∀ x, x ∉ l → ((List.foldl (mark_step rfuel) h as) x).prev % 2 = 0) := by
  intro as
  induction as with
  | nil =>
    intro h hout hIE
    exact ⟨fun b hb => absurd hb (List.not_mem_nil b), hIE, hout⟩
  | cons a as ih =>
    intro h hout hIE
    rw [List.foldl_cons]
    have hstep : (∀ b ∈ l, is_collecting (mark_step rfuel h a) b = false →
          ∀ c ∈ ((mark_step rfuel h a) b).children,
            is_collecting (mark_step rfuel h a) c = false) ∧
        (∀ x, x ∉ l → ((mark_step rfuel h a) x).prev % 2 = 0) ∧
        (trial h a ≠ 0 → is_collecting (mark_step rfuel h a) a = false) := by
      rw [mark_step_cases]
      by_cases hg : (is_collecting h a && !is_unreachable h a) = true
      · rw [if_pos hg]
        simp only [Bool.and_eq_true, Bool.not_eq_true'] at hg
        have hcoll := hg.1
        have hal : a ∈ l := by
          by_contra hanl
          have := hout a hanl
          have := (is_collecting_iff h a).mp hcoll
          omega
        have hout1 : ∀ x, x ∉ l → ((unset_collecting h a) x).prev % 2 = 0 := by
          intro x hx
          rw [unset_collecting_other h a x (fun hxa => hx (hxa ▸ hal))]
          exact hout x hx
        have hm1 : (l.filter (fun b => is_collecting (unset_collecting h a) b)).length
            < rfuel := by
          have h1 := length_filter_mono (fun _ => true)
            (fun b => is_collecting (unset_collecting h a) b) l (by simp)
          have h2 : (l.filter (fun _ => true)).length = l.length := by simp
          omega
        have hIE1 := IE_unset l h a [] hcoll (fun b hb _ => hIE b hb)
        obtain ⟨hB1, hB2⟩ := (revive_complete l rfuel).2
          (((unset_collecting h a) a).children) (unset_collecting h a) [a]
          hout1 hm1 hIE1
        have hch2 : ∀ x, ((revive_children rfuel (unset_collecting h a) ((h a).children)) x)
            = (List.foldl (revive rfuel) (unset_collecting h a)
                (((unset_collecting h a) a).children)) x := by
          intro x
          rw [revive_children, (unset_frame h a a).2.2.1]
        have hmono2 : ∀ x, is_collecting (List.foldl (revive rfuel) (unset_collecting h a)
            (((unset_collecting h a) a).children)) x = true →
            is_collecting (unset_collecting h a) x = true :=
          fun x => ((revive_basic rfuel).2 (((unset_collecting h a) a).children)
            (unset_collecting h a)).2.1 x
        have hacoll : is_collecting (List.foldl (revive rfuel) (unset_collecting h a)
            (((unset_collecting h a) a).children)) a = false := by
          by_cases hcl : is_collecting (List.foldl (revive rfuel) (unset_collecting h a)
              (((unset_collecting h a) a).children)) a = true
          · have := hmono2 a hcl
            rw [unset_coll_self] at this
            exact absurd this (by simp)
          · simpa using hcl
        have hfoldcoll : ∀ x, is_collecting
            (revive_children rfuel (unset_collecting h a) ((h a).children)) x
            = is_collecting (List.foldl (revive rfuel) (unset_collecting h a)
                (((unset_collecting h a) a).children)) x := by
          intro x
          rw [is_collecting_congr _ _ x (by rw [hch2 x])]
        refine ⟨?_, ?_, ?_⟩
        · intro b hb hbc c hc
          rw [hfoldcoll b] at hbc
          rw [hfoldcoll c]
          have hcc : c ∈ ((List.foldl (revive rfuel) (unset_collecting h a)
              (((unset_collecting h a) a).children)) b).children := by
            have := hch2 b
            rw [← this]
            exact hc
          by_cases hba : b = a
          · subst hba
            have hchb : ((List.foldl (revive rfuel) (unset_collecting h b)
                (((unset_collecting h b) b).children)) b).children
                = ((unset_collecting h b) b).children :=
              (((revive_basic rfuel).2 (((unset_collecting h b) b).children)
                (unset_collecting h b)).2.2.1 b).2.2.1
            rw [hchb] at hcc
            exact hB1 c hcc
          · exact hB2 b hb (by
              intro hmem
              rcases List.mem_cons.mp hmem with h1 | h1
              · exact hba h1
              · exact absurd h1 (List.not_mem_nil b)) hbc c hcc
        · intro x hx
          have := ((revive_basic rfuel).2 (((unset_collecting h a) a).children)
            (unset_collecting h a)).2.2.2 x (hout1 x hx)
          have heq := hch2 x
          rw [heq, this]
          exact hout1 x hx
        · intro _
          rw [hfoldcoll a]
          exact hacoll
      · rw [if_neg hg]
        refine ⟨hIE, hout, ?_⟩
        intro htr
        simp only [Bool.and_eq_true, Bool.not_eq_true'] at hg
        by_cases hcoll : is_collecting h a = true
        · exfalso
          have hunr : is_unreachable h a = true := by
            by_cases hu : is_unreachable h a = true
            · exact hu
            · exact absurd ⟨hcoll, by simpa using hu⟩ hg
          rw [is_unreachable_eq_trial, hcoll] at hunr
          simp at hunr
          exact htr hunr
        · simpa using hcoll
    obtain ⟨hs1, hs2, hs3⟩ := hstep
    obtain ⟨k1, k2, k3⟩ := ih (mark_step rfuel h a) hs2 hs1
    refine ⟨?_, k2, k3⟩
    intro b hb htr
    rcases List.mem_cons.mp hb with rfl | hbas
    · have hcleared := hs3 htr
      by_cases hcl : is_collecting (List.foldl (mark_step rfuel) (mark_step rfuel h b) as) b = true
      · have := foldl_mark_coll_mono rfuel as (mark_step rfuel h b) b hcl
        rw [hcleared] at this
        exact absurd this (by simp)
      · simpa using hcl
    · exact k1 b hbas (by rw [mark_step_trial]; exact htr)

theorem foldl_revive_zero : ∀ (cs : List Addr) (h : Heap),
    List.foldl (revive 0) h cs = h := by
  intro cs
  induction cs with
  | nil => intro h; rfl
  | cons c cs ih =>
    intro h
    rw [List.foldl_cons]
    exact ih h

/-- Soundness of `revive`: it only clears blocks reachable from the roots. -/
theorem revive_sound (l : List Addr) (ch : Addr → List Addr) (isRoot : Addr → Prop) :
    ∀ (rfuel : Nat),
    (∀ (h : Heap) (a : Addr),
      (∀ x, (h x).children = ch x) →
      (∀ b ∈ l, is_collecting h b = false → Reach ch isRoot b) →
      (is_collecting h a = true → Reach ch isRoot a) →
      ∀ b ∈ l, is_collecting (revive rfuel h a) b = false → Reach ch isRoot b) ∧
    (∀ (cs : List Addr) (h : Heap),
      (∀ x, (h x).children = ch x) →
      (∀ b ∈ l, is_collecting h b = false → Reach ch isRoot b) →
      (∀ c ∈ cs, Reach ch isRoot c) →
      ∀ b ∈ l, is_collecting (List.foldl (revive rfuel) h cs) b = false →
        Reach ch isRoot b) := by
  intro rfuel
  induction rfuel with
  | zero =>
    constructor
    · intro h a _ hS _ b hb hbc
      exact hS b hb hbc
    · intro cs h hch hS hR
      rw [foldl_revive_zero cs h]
      exact hS
  | succ f ihf =>
    have hA : ∀ (h : Heap) (a : Addr),
        (∀ x, (h x).children = ch x) →
        (∀ b ∈ l, is_collecting h b = false → Reach ch isRoot b) →
        (is_collecting h a = true → Reach ch isRoot a) →
        ∀ b ∈ l, is_collecting (revive (f + 1) h a) b = false → Reach ch isRoot b := by
      intro h a hch hS hra
      by_cases hg : is_collecting h a = true
      · rw [revive_unfold f h a hg]
        have hReach_a : Reach ch isRoot a := hra hg
        have hch1 : ∀ x, ((unset_collecting h a) x).children = ch x := by
          intro x
          rw [(unset_frame h a x).2.2.1, hch x]
        have hS1 : ∀ b ∈ l, is_collecting (unset_collecting h a) b = false →
            Reach ch isRoot b := by
          intro b hb hbc
          by_cases hba : b = a
          · subst hba
            exact hReach_a
          · exact hS b hb (by
              rw [← is_collecting_congr h (unset_collecting h a) b
                (by rw [unset_collecting_other h a b hba])]
              exact hbc)
        have hcs : ∀ c ∈ ((unset_collecting h a) a).children, Reach ch isRoot c := by
          intro c hc
          rw [hch1 a] at hc
          exact Reach.step a c hReach_a hc
        exact ihf.2 (((unset_collecting h a) a).children) (unset_collecting h a)
          hch1 hS1 hcs
      · rw [revive_not_coll (f + 1) h a (by simpa using hg)]
        intro b hb hbc
        exact hS b hb hbc
    refine ⟨hA, ?_⟩
    intro cs
    induction cs with
    | nil =>
      intro h _ hS _ b hb hbc
      exact hS b hb hbc
    | cons c cs ihc =>
      intro h hch hS hR
      rw [List.foldl_cons]
      have hch' : ∀ x, ((revive (f + 1) h c) x).children = ch x := by
        intro x
        rw [(((revive_basic (f + 1)).1 h c).2.2.1 x).2.2.1, hch x]
      have hS' : ∀ b ∈ l, is_collecting (revive (f + 1) h c) b = false →
          Reach ch isRoot b :=
        hA h c hch hS (fun _ => hR c (List.mem_cons_self c cs))
      exact ihc (revive (f + 1) h c) hch' hS'
        (fun d hd => hR d (List.mem_cons_of_mem c hd))

/-- Soundness of the top-level marking loop. -/
theorem mark_fold_sound (l : List Addr) (ch : Addr → List Addr) (isRoot : Addr → Prop)
    (rfuel : Nat) :
    ∀ (as : List Addr) (h : Heap),
      (∀ x, (h x).children = ch x) →
      (∀ x, x ∉ l → (h x).prev % 2 = 0) →
      (∀ a ∈ l, trial h a ≠ 0 → isRoot a) →
      (∀ b ∈ l, is_collecting h b = false → Reach ch isRoot b) →
      ∀ b ∈ l, is_collecting (List.foldl (mark_step rfuel) h as) b = false →
        Reach ch isRoot b := by
  intro as
  induction as with
  | nil =>
    intro h _ _ _ hS b hb hbc
    exact hS b hb hbc
  | cons a as ih =>
    intro h hch hout hroot hS
    rw [List.foldl_cons]
    have hch' : ∀ x, ((mark_step rfuel h a) x).children = ch x := by
      intro x
      rw [(mark_step_frame rfuel h a x).2.2.1, hch x]
    have hout' : ∀ x, x ∉ l → ((mark_step rfuel h a) x).prev % 2 = 0 := by
      intro x hx
      rw [mark_step_even_id rfuel h a x (hout x hx)]
      exact hout x hx
    have hroot' : ∀ b ∈ l, trial (mark_step rfuel h a) b ≠ 0 → isRoot b := by
      intro b hb htr
      exact hroot b hb (by rw [← mark_step_trial rfuel h a b]; exact htr)
    have hS' : ∀ b ∈ l, is_collecting (mark_step rfuel h a) b = false →
        Reach ch isRoot b := by
      rw [mark_step_cases]
      by_cases hg : (is_collecting h a && !is_unreachable h a) = true
      · rw [if_pos hg]
        simp only [Bool.and_eq_true, Bool.not_eq_true'] at hg
        have hcoll := hg.1
        have hal : a ∈ l := by
          by_contra hanl
          have := hout a hanl
          have := (is_collecting_iff h a).mp hcoll
          omega
        have htr : trial h a ≠ 0 := by
          intro htr0
          have : is_unreachable h a = true := by
            rw [is_unreachable_eq_trial, hcoll, htr0]
            rfl
          rw [this] at hg
          exact absurd hg.2 (by simp)
        have hReach_a : Reach ch isRoot a := Reach.root a (hroot a hal htr)
        have hch1 : ∀ x, ((unset_collecting h a) x).children = ch x := by
          intro x
          rw [(unset_frame h a x).2.2.1, hch x]
        have hS1 : ∀ b ∈ l, is_collecting (unset_collecting h a) b = false →
            Reach ch isRoot b := by
          intro b hb hbc
          by_cases hba : b = a
          · subst hba
            exact hReach_a
          · exact hS b hb (by
              rw [← is_collecting_congr h (unset_collecting h a) b
                (by rw [unset_collecting_other h a b hba])]
              exact hbc)
        have hcs : ∀ c ∈ (h a).children, Reach ch isRoot c := by
          intro c hc
          rw [hch a] at hc
          exact Reach.step a c hReach_a hc
        intro b hb hbc
        exact (revive_sound l ch isRoot rfuel).2 ((h a).children)
          (unset_collecting h a) hch1 hS1 hcs b hb hbc
      · rw [if_neg hg]
        exact hS
    exact ih (mark_step rfuel h a) hch' hout' hroot' hS'

theorem word_decomp (h : Heap) (a : Addr) :
    (h a).prev = 2 * trial h a + (if is_collecting h a = true then 1 else 0) := by
  rw [trial_eq_div]
  by_cases hc : is_collecting h a = true
  · rw [if_pos hc]
    have := (is_collecting_iff h a).mp hc
    omega
  · rw [if_neg hc]
    have : ¬ (h a).prev % 2 = 1 := fun hodd => hc ((is_collecting_iff h a).mpr hodd)
    omega

theorem reach_in_l_cleared (l : List Addr) (ch : Addr → List Addr) (isRoot : Addr → Prop)
    (hm : Heap)
    (hrootl : ∀ b, isRoot b → b ∈ l ∧ is_collecting hm b = false)
    (hsub : ∀ a ∈ l, ∀ c ∈ ch a, c ∈ l)
    (hclosure : ∀ b ∈ l, is_collecting hm b = false →
      ∀ c ∈ ch b, is_collecting hm c = false) :
    ∀ b, Reach ch isRoot b → b ∈ l ∧ is_collecting hm b = false := by
  intro b hr
  induction hr with
  | root a ha => exact hrootl a ha
  | step w a _ hmem ih => exact ⟨hsub w ih.1 a hmem, hclosure w ih.1 ih.2 a hmem⟩

/-- Summary of the heap state after passes 1-3: trial counts hold
ref-count-minus-in-edges, blocks with external references (and everything the
marking can reach from them) are cleared, cleared blocks have only cleared
children, still-collecting blocks are exactly the `is_unreachable` ones, and
nothing else moved. -/
theorem mark_summary (h : Heap) (root : Addr) (l : List Addr) (fuel rfuel : Nat)
    (hs : ListShape h root l) (hfuel : l.length < fuel) (hrfuel : l.length < rfuel)
    (hrc : ∀ b ∈ l, (h b).refCount < 2 ^ 62)
    (hbound : ∀ b ∈ l, countEdges h l b ≤ (h b).refCount)
    (hout : ∀ x, x ∉ l → (h x).prev % 2 = 0) :
    (∀ x, x ∉ l → (mark_reachable root fuel rfuel
        (subtract_refs root fuel (update_refs root fuel h))) x = h x) ∧
    (∀ x, ((mark_reachable root fuel rfuel
        (subtract_refs root fuel (update_refs root fuel h))) x).next = (h x).next ∧
      ((mark_reachable root fuel rfuel
        (subtract_refs root fuel (update_refs root fuel h))) x).refCount = (h x).refCount ∧
      ((mark_reachable root fuel rfuel
        (subtract_refs root fuel (update_refs root fuel h))) x).children = (h x).children ∧
      ((mark_reachable root fuel rfuel
        (subtract_refs root fuel (update_refs root fuel h))) x).dropped = (h x).dropped ∧
      ((mark_reachable root fuel rfuel
        (subtract_refs root fuel (update_refs root fuel h))) x).freed = (h x).freed) ∧
    (∀ b ∈ l, trial (mark_reachable root fuel rfuel
        (subtract_refs root fuel (update_refs root fuel h))) b
      = (h b).refCount - countEdges h l b) ∧
    (∀ b ∈ l, (h b).refCount - countEdges h l b ≠ 0 →
      is_collecting (mark_reachable root fuel rfuel
        (subtract_refs root fuel (update_refs root fuel h))) b = false) ∧
    (∀ b ∈ l, is_collecting (mark_reachable root fuel rfuel
        (subtract_refs root fuel (update_refs root fuel h))) b = false →
      ∀ c ∈ (h b).children, is_collecting (mark_reachable root fuel rfuel
        (subtract_refs root fuel (update_refs root fuel h))) c = false) ∧
    (∀ b ∈ l, is_collecting (mark_reachable root fuel rfuel
        (subtract_refs root fuel (update_refs root fuel h))) b = false →
      Reach (fun x => (h x).children)
        (fun b => b ∈ l ∧ (h b).refCount - countEdges h l b ≠ 0) b) ∧
    (∀ b ∈ l, is_unreachable (mark_reachable root fuel rfuel
        (subtract_refs root fuel (update_refs root fuel h))) b
      = is_collecting (mark_reachable root fuel rfuel
        (subtract_refs root fuel (update_refs root fuel h))) b) := by
  obtain ⟨p1, p2, p3⟩ := after_subtract_spec h root l fuel hs hfuel hrc hbound
  have hnext2 : ∀ x, ((subtract_refs root fuel (update_refs root fuel h)) x).next
      = (h x).next := fun x => (p2 x).1
  have hchain2 : chainFrom (subtract_refs root fuel (update_refs root fuel h)) root
      (((subtract_refs root fuel (update_refs root fuel h)) root).next) l := by
    rw [hnext2]
    exact chainFrom_congr hnext2 hs.chain
  have hmark : mark_reachable root fuel rfuel
        (subtract_refs root fuel (update_refs root fuel h))
      = List.foldl (mark_step rfuel)
          (subtract_refs root fuel (update_refs root fuel h)) l :=
    mark_reachable_eq_foldl _ root l fuel rfuel hchain2 hfuel
  have hout2 : ∀ x, x ∉ l →
      ((subtract_refs root fuel (update_refs root fuel h)) x).prev % 2 = 0 := by
    intro x hx
    rw [p3 x hx (hout x hx)]
    exact hout x hx
  have houtid : ∀ x, x ∉ l →
      (subtract_refs root fuel (update_refs root fuel h)) x = h x := by
    intro x hx
    exact p3 x hx (hout x hx)
  have htrialp : ∀ b ∈ l, trial (subtract_refs root fuel (update_refs root fuel h)) b
      = (h b).refCount - countEdges h l b := by
    intro b hb
    exact trial_of_prev _ b _ 1 (by omega) (p1 b hb)
  have hcollp : ∀ b ∈ l, is_collecting
      (subtract_refs root fuel (update_refs root fuel h)) b = true := by
    intro b hb
    exact is_collecting_of_odd _ b _ (p1 b hb)
  obtain ⟨c1, c2, c3⟩ := mark_fold_complete l rfuel hrfuel l
    (subtract_refs root fuel (update_refs root fuel h)) hout2
    (fun b hb hbc => absurd (hcollp b hb) (by rw [hbc]; simp))
  have hm_trial : ∀ b ∈ l, trial (mark_reachable root fuel rfuel
      (subtract_refs root fuel (update_refs root fuel h))) b
      = (h b).refCount - countEdges h l b := by
    intro b hb
    rw [hmark, foldl_mark_trial, htrialp b hb]
  have hm_frame : ∀ x, ((mark_reachable root fuel rfuel
      (subtract_refs root fuel (update_refs root fuel h))) x).next = (h x).next ∧
      ((mark_reachable root fuel rfuel
        (subtract_refs root fuel (update_refs root fuel h))) x).refCount = (h x).refCount ∧
      ((mark_reachable root fuel rfuel
        (subtract_refs root fuel (update_refs root fuel h))) x).children = (h x).children ∧
      ((mark_reachable root fuel rfuel
        (subtract_refs root fuel (update_refs root fuel h))) x).dropped = (h x).dropped ∧
      ((mark_reachable root fuel rfuel
        (subtract_refs root fuel (update_refs root fuel h))) x).freed = (h x).freed := by
    intro x
    rw [hmark]
    obtain ⟨e1, e2, e3, e4, e5⟩ := foldl_mark_frame rfuel l
      (subtract_refs root fuel (update_refs root fuel h)) x
    obtain ⟨f1, f2, f3, f4, f5⟩ := p2 x
    exact ⟨by rw [e1, f1], by rw [e2, f2], by rw [e3, f3], by rw [e4, f4], by rw [e5, f5]⟩
  have hm_out : ∀ x, x ∉ l → (mark_reachable root fuel rfuel
      (subtract_refs root fuel (update_refs root fuel h))) x = h x := by
    intro x hx
    rw [hmark, foldl_mark_even_id rfuel l _ x (hout2 x hx), houtid x hx]
  have hm_roots : ∀ b ∈ l, (h b).refCount - countEdges h l b ≠ 0 →
      is_collecting (mark_reachable root fuel rfuel
        (subtract_refs root fuel (update_refs root fuel h))) b = false := by
    intro b hb htr
    rw [hmark]
    exact c1 b hb (by rw [htrialp b hb]; exact htr)
  have hm_closure : ∀ b ∈ l, is_collecting (mark_reachable root fuel rfuel
      (subtract_refs root fuel (update_refs root fuel h))) b = false →
      ∀ c ∈ (h b).children, is_collecting (mark_reachable root fuel rfuel
        (subtract_refs root fuel (update_refs root fuel h))) c = false := by
    intro b hb hbc c hc
    rw [hmark] at hbc ⊢
    refine c2 b hb hbc c ?_
    have := (foldl_mark_frame rfuel l (subtract_refs root fuel (update_refs root fuel h)) b).2.2.1
    rw [this, (p2 b).2.2.1]
    exact hc
  have hm_sound : ∀ b ∈ l, is_collecting (mark_reachable root fuel rfuel
      (subtract_refs root fuel (update_refs root fuel h))) b = false →
      Reach (fun x => (h x).children)
        (fun b => b ∈ l ∧ (h b).refCount - countEdges h l b ≠ 0) b := by
    intro b hb hbc
    rw [hmark] at hbc
    refine mark_fold_sound l (fun x => (h x).children)
      (fun b => b ∈ l ∧ (h b).refCount - countEdges h l b ≠ 0) rfuel l
      (subtract_refs root fuel (update_refs root fuel h))
      (fun x => (p2 x).2.2.1) hout2 ?_ ?_ b hb hbc
    · intro a ha htr
      rw [htrialp a ha] at htr
      exact ⟨ha, htr⟩
    · intro b' hb' hbc'
      exact absurd (hcollp b' hb') (by rw [hbc']; simp)
  refine ⟨hm_out, hm_frame, hm_trial, hm_roots, hm_closure, hm_sound, ?_⟩
  intro b hb
  by_cases hc : is_collecting (mark_reachable root fuel rfuel
      (subtract_refs root fuel (update_refs root fuel h))) b = true
  · rw [hc, is_unreachable_eq_trial, hc]
    have ht0 : (h b).refCount - countEdges h l b = 0 := by
      by_contra ht
      rw [hm_roots b hb ht] at hc
      exact absurd hc (by simp)
    rw [hm_trial b hb, ht0]
    rfl
  · have hcf : is_collecting (mark_reachable root fuel rfuel
        (subtract_refs root fuel (update_refs root fuel h))) b = false := by
      simpa using hc
    rw [hcf, is_unreachable_eq_trial, hcf]
    rfl

/-! ### Segment lemmas for the circular list -/

theorem chainFrom_eq_seg (h : Heap) (root : Addr) :
    ∀ (l : List Addr) (p : Addr), chainFrom h root p l ↔ chainSeg h root p l root := by
  intro l
  induction l with
  | nil => intro p; exact Iff.rfl
  | cons a l ih =>
    intro p
    constructor
    · rintro ⟨rfl, hnr, hrest⟩
      exact ⟨rfl, hnr, (ih _).mp hrest⟩
    · rintro ⟨rfl, hnr, hrest⟩
      exact ⟨rfl, hnr, (ih _).mpr hrest⟩

theorem chainSeg_congr_mem (h h' : Heap) (root : Addr) :
    ∀ (l : List Addr) (p q : Addr), (∀ a ∈ l, (h' a).next = (h a).next) →
      chainSeg h root p l q → chainSeg h' root p l q := by
  intro l
  induction l with
  | nil => intro p q _ hs; exact hs
  | cons a l ih =>
    rintro p q hn ⟨rfl, hnr, hrest⟩
    refine ⟨rfl, hnr, ?_⟩
    rw [hn p (List.mem_cons_self p l)]
    exact ih _ _ (fun b hb => hn b (List.mem_cons_of_mem p hb)) hrest

theorem chainSeg_append_intro (h : Heap) (root : Addr) :
    ∀ (l1 l2 : List Addr) (p q r : Addr),
      chainSeg h root p l1 q → chainSeg h root q l2 r →
      chainSeg h root p (l1 ++ l2) r := by
  intro l1
  induction l1 with
  | nil =>
    intro l2 p q r h1 h2
    have hp : p = q := h1
    rw [List.nil_append, hp]
    exact h2
  | cons a l1 ih =>
    rintro l2 p q r ⟨rfl, hnr, hrest⟩ h2
    exact ⟨rfl, hnr, ih l2 _ q r hrest h2⟩

theorem chainSeg_split (h : Heap) (root : Addr) :
    ∀ (l1 : List Addr) (u : Addr) (l2 : List Addr) (p : Addr),
      chainSeg h root p (l1 ++ u :: l2) root →
      chainSeg h root p l1 u ∧ u ≠ root ∧ chainSeg h root ((h u).next) l2 root := by
  intro l1
  induction l1 with
  | nil =>
    rintro u l2 p ⟨rfl, hnr, hrest⟩
    exact ⟨rfl, hnr, hrest⟩
  | cons a l1 ih =>
    rintro u l2 p ⟨rfl, hnr, hrest⟩
    obtain ⟨s1, s2, s3⟩ := ih u l2 _ hrest
    exact ⟨⟨rfl, hnr, s1⟩, s2, s3⟩

theorem chainSeg_next_mem (h : Heap) (root : Addr) :
    ∀ (l : List Addr) (p q : Addr), chainSeg h root p l q →
      ∀ x ∈ l, (h x).next ∈ l ∨ (h x).next = q := by
  intro l
  induction l with
  | nil => intro p q _ x hx; exact absurd hx (List.not_mem_nil x)
  | cons a l ih =>
    rintro p q ⟨rfl, hnr, hrest⟩ x hx
    rcases List.mem_cons.mp hx with rfl | hxl
    · cases l with
      | nil => exact Or.inr hrest
      | cons b l' =>
        obtain ⟨hb, -, -⟩ := hrest
        exact Or.inl (by rw [hb]; exact List.mem_cons_of_mem x (List.mem_cons_self b l'))
    · rcases ih _ q hrest x hxl with hmem | hq
      · exact Or.inl (List.mem_cons_of_mem p hmem)
      · exact Or.inr hq

theorem chain_next_mem (h : Heap) (root : Addr) (l : List Addr)
    (hc : chainFrom h root ((h root).next) l) :
    ∀ x ∈ root :: l, (h x).next ∈ root :: l := by
  intro x hx
  have hseg := (chainFrom_eq_seg h root l ((h root).next)).mp hc
  rcases List.mem_cons.mp hx with rfl | hxl
  · cases l with
    | nil => exact (by rw [hseg]; exact List.mem_cons_self x [])
    | cons b l' =>
      obtain ⟨hb, -, -⟩ := hseg
      rw [hb]
      exact List.mem_cons_of_mem x (List.mem_cons_self b l')
  · rcases chainSeg_next_mem h root l _ root hseg x hxl with hmem | hq
    · exact List.mem_cons_of_mem root hmem
    · rw [hq]
      exact List.mem_cons_self root l

theorem chain_pred_exists (h : Heap) (root : Addr) (l : List Addr)
    (hc : chainFrom h root ((h root).next) l) :
    ∀ u ∈ l, ∃ x ∈ root :: l, (h x).next = u := by
  suffices hgen : ∀ (l' : List Addr) (x0 p : Addr), (h x0).next = p →
      chainSeg h root p l' root →
      ∀ u ∈ l', ∃ x, (x = x0 ∨ x ∈ l') ∧ (h x).next = u by
    intro u hu
    obtain ⟨x, hx, hnx⟩ := hgen l root ((h root).next) rfl
      ((chainFrom_eq_seg h root l ((h root).next)).mp hc) u hu
    rcases hx with rfl | hxl
    · exact ⟨x, List.mem_cons_self x l, hnx⟩
    · exact ⟨x, List.mem_cons_of_mem root hxl, hnx⟩
  intro l'
  induction l' with
  | nil => intro x0 p _ _ u hu; exact absurd hu (List.not_mem_nil u)
  | cons a l' ih =>
    rintro x0 p hx0 ⟨rfl, hnr, hrest⟩ u hu
    rcases List.mem_cons.mp hu with rfl | hul
    · exact ⟨x0, Or.inl rfl, hx0⟩
    · obtain ⟨x, hx, hnx⟩ := ih p ((h p).next) rfl hrest u hul
      rcases hx with rfl | hxl
      · exact ⟨x, Or.inr (List.mem_cons_self x l'), hnx⟩
      · exact ⟨x, Or.inr (List.mem_cons_of_mem p hxl), hnx⟩

/-! ### The `restore_prev` pass -/

theorem chain_predOf (h : Heap) (root : Addr) :
    ∀ (l : List Addr) (cur p : Addr), chainSeg h root p l root →
      (h cur).next = p → l.Nodup → root ∉ l →
      ∀ x, (x = cur ∨ x ∈ l) → (h x).next ∈ l →
        predOf cur l ((h x).next) = some x := by
  intro l
  induction l with
  | nil =>
    intro cur p _ _ _ _ x _ hnx
    exact absurd hnx (List.not_mem_nil _)
  | cons b l ih =>
    rintro cur p ⟨rfl, hbr, hrest⟩ hcur hnd hrl x hx hnx
    rw [List.nodup_cons] at hnd
    have hrl' : root ∉ l := fun hr => hrl (List.mem_cons_of_mem p hr)
    by_cases hxb : (h x).next = p
    · have hxcur : x = cur := by
        rcases hx with rfl | hxm
        · rfl
        · exfalso
          rcases List.mem_cons.mp hxm with rfl | hxl
          · rw [hxb] at hrest
            cases l with
            | nil => exact hbr hrest
            | cons c l' =>
              obtain ⟨hc, -, -⟩ := hrest
              exact hnd.1 (by rw [hc]; exact List.mem_cons_self c l')
          · rcases chainSeg_next_mem h root _ _ root hrest x hxl with hc | hc
            · rw [hxb] at hc
              exact hnd.1 hc
            · rw [hxb] at hc
              exact hrl (by rw [← hc]; exact List.mem_cons_self p l)
      subst hxcur
      rw [hxb, predOf, if_pos rfl]
    · have hnx' : (h x).next ∈ l := by
        rcases List.mem_cons.mp hnx with hh | hh
        · exact absurd hh hxb
        · exact hh
      rw [predOf, if_neg hxb]
      refine ih p ((h p).next) hrest rfl hnd.2 hrl' x ?_ hnx'
      rcases hx with rfl | hxm
      · exact absurd hcur hxb
      · rcases List.mem_cons.mp hxm with rfl | hxl
        · exact Or.inl rfl
        · exact Or.inr hxl

theorem predOf_not_mem : ∀ (l : List Addr) (cur x : Addr), x ∉ l → predOf cur l x = none := by
  intro l
  induction l with
  | nil => intro cur x _; rfl
  | cons c l ih =>
    intro cur x hx
    rw [predOf, if_neg (fun hxc => hx (by rw [hxc]; exact List.mem_cons_self c l))]
    exact ih c x (fun hm => hx (List.mem_cons_of_mem c hm))

theorem foldl_restore_spec :
    ∀ (l : List Addr) (h : Heap) (cur : Addr), l.Nodup →
      (∀ x, ((List.foldl restore_step (h, cur) l).1 x).next = (h x).next ∧
        ((List.foldl restore_step (h, cur) l).1 x).refCount = (h x).refCount ∧
        ((List.foldl restore_step (h, cur) l).1 x).children = (h x).children ∧
        ((List.foldl restore_step (h, cur) l).1 x).dropped = (h x).dropped ∧
        ((List.foldl restore_step (h, cur) l).1 x).freed = (h x).freed) ∧
      (∀ x, ((List.foldl restore_step (h, cur) l).1 x).prev
        = ((predOf cur l x).getD (h x).prev)) := by
  intro l
  induction l with
  | nil =>
    intro h cur _
    exact ⟨fun x => ⟨rfl, rfl, rfl, rfl, rfl⟩, fun x => rfl⟩
  | cons b l ih =>
    intro h cur hnd
    rw [List.nodup_cons] at hnd
    rw [List.foldl_cons]
    have hstep : restore_step (h, cur) b = (setPrev h b cur, b) := rfl
    rw [hstep]
    obtain ⟨ihf, ihp⟩ := ih (setPrev h b cur) b hnd.2
    constructor
    · intro x
      obtain ⟨e1, e2, e3, e4, e5⟩ := ihf x
      exact ⟨by rw [e1]; simp, by rw [e2]; simp, by rw [e3]; simp,
        by rw [e4]; simp, by rw [e5]; simp⟩
    · intro x
      rw [ihp x, predOf]
      by_cases hxb : x = b
      · subst hxb
        rw [if_pos rfl, predOf_not_mem l x x hnd.1]
        simp
      · rw [if_neg hxb]
        rcases hpx : predOf b l x with _ | p
        · simp [setPrev, hxb]
        · simp

theorem restore_prev_eq_foldl (h : Heap) (root : Addr) (l : List Addr) (fuel : Nat)
    (hc : chainFrom h root ((h root).next) l) (hfuel : l.length < fuel) :
    restore_prev root fuel h = (List.foldl restore_step (h, root) l).1 := by
  rw [restore_prev,
    visit_list_eq_foldl Prod.fst restore_step root
      (by intro s a x; simp [restore_step]) l ((h root).next) (h, root) fuel hc hfuel]

/-- After `restore_prev`, the list is back in full doubly-linked shape
(the sentinel's `prev` was never packed, so it still points at the old last
element, which the rebuilt chain agrees with). -/
theorem restore_prev_DShape (h : Heap) (root : Addr) (l : List Addr) (fuel : Nat)
    (hc : chainFrom h root ((h root).next) l) (hnd : (root :: l).Nodup)
    (hfuel : l.length < fuel)
    (hback_root : ∀ x ∈ root :: l, (h x).next = root → (h root).prev = x) :
    DShape (restore_prev root fuel h) root l ∧
    (∀ x, x ∉ l → (restore_prev root fuel h) x = h x) ∧
    (∀ x, ((restore_prev root fuel h) x).next = (h x).next ∧
      ((restore_prev root fuel h) x).refCount = (h x).refCount ∧
      ((restore_prev root fuel h) x).children = (h x).children ∧
      ((restore_prev root fuel h) x).dropped = (h x).dropped ∧
      ((restore_prev root fuel h) x).freed = (h x).freed) := by
  rw [List.nodup_cons] at hnd
  have hE := restore_prev_eq_foldl h root l fuel hc hfuel
  obtain ⟨hf, hp⟩ := foldl_restore_spec l h root hnd.2
  have hnone : ∀ x, x ∉ l → predOf root l x = none :=
    fun x hx => predOf_not_mem l root x hx
  have hunch : ∀ x, x ∉ l → (restore_prev root fuel h) x = h x := by
    intro x hx
    rw [hE]
    refine Block.ext ?_ ?_ ?_ ?_ ?_ ?_
    · exact (hf x).1
    · rw [hp x, hnone x hx]
      rfl
    · exact (hf x).2.1
    · exact (hf x).2.2.1
    · exact (hf x).2.2.2.1
    · exact (hf x).2.2.2.2
  have hnext : ∀ x, ((restore_prev root fuel h) x).next = (h x).next := by
    intro x
    rw [hE]
    exact (hf x).1
  have hchain' : chainFrom (restore_prev root fuel h) root
      (((restore_prev root fuel h) root).next) l := by
    rw [hnext root]
    exact chainFrom_congr hnext hc
  refine ⟨⟨hchain', List.nodup_cons.mpr hnd, ?_⟩, hunch, fun x => by
    rw [hE]
    exact hf x⟩
  intro x hx
  have hy := chain_next_mem h root l hc x hx
  rw [hnext x]
  rcases List.mem_cons.mp hy with hyr | hyl
  · rw [hyr, hunch root (fun hr => hnd.1 hr)]
    exact hback_root x hx (by rw [hyr])
  · rw [hE, hp ((h x).next)]
    have := chain_predOf h root l root ((h root).next)
      ((chainFrom_eq_seg h root l ((h root).next)).mp hc) rfl hnd.2 hnd.1 x
      (by
        rcases List.mem_cons.mp hx with rfl | hxl
        · exact Or.inl rfl
        · exact Or.inr hxl) hyl
    rw [this]
    rfl

/-! ### Pass 6: the destructor pass, under a correct `Trace` -/

theorem countEdges_congr_mem (h h' : Heap) (b : Addr) :
    ∀ (srcs : List Addr), (∀ v ∈ srcs, (h' v).children = (h v).children) →
      countEdges h' srcs b = countEdges h srcs b := by
  intro srcs
  induction srcs with
  | nil => intro _; rfl
  | cons v srcs ih =>
    intro hc
    rw [countEdges_cons, countEdges_cons, hc v (List.mem_cons_self v srcs),
      ih (fun w hw => hc w (List.mem_cons_of_mem v hw))]

/-- `cc_drop` on a handle whose target keeps a positive count is a pure
decrement. -/
theorem cc_drop_dec (df : Nat) (h : Heap) (c : Addr)
    (hrc : (h c).refCount - 1 ≠ 0) :
    cc_drop (df + 1) h c = setRefCount h c ((h c).refCount - 1) := by
  simp only [cc_drop, if_neg hrc]

/-- Dropping a multiset of handles none of which reaches count zero is a
pointwise decrement by multiplicity. -/
theorem foldl_cc_drop_dec (df : Nat) :
    ∀ (cs : List Addr) (h : Heap),
      (∀ x, cs.count x ≠ 0 → cs.count x < (h x).refCount) →
      (∀ x, ((List.foldl (cc_drop (df + 1)) h cs) x).refCount
          = (h x).refCount - cs.count x) ∧
      (∀ x, ((List.foldl (cc_drop (df + 1)) h cs) x).next = (h x).next ∧
        ((List.foldl (cc_drop (df + 1)) h cs) x).prev = (h x).prev ∧
        ((List.foldl (cc_drop (df + 1)) h cs) x).children = (h x).children ∧
        ((List.foldl (cc_drop (df + 1)) h cs) x).dropped = (h x).dropped ∧
        ((List.foldl (cc_drop (df + 1)) h cs) x).freed = (h x).freed) := by
  intro cs
  induction cs with
  | nil =>
    intro h _
    exact ⟨fun x => by simp, fun x => ⟨rfl, rfl, rfl, rfl, rfl⟩⟩
  | cons c cs ih =>
    intro h hbound
    have hcnt : (c :: cs).count c ≠ 0 := by
      rw [List.count_cons_self]
      omega
    have hrc2 : (c :: cs).count c < (h c).refCount := hbound c hcnt
    have hge : 2 ≤ (h c).refCount := by
      have := List.count_cons_self c cs ▸ hcnt
      rw [List.count_cons_self] at hrc2
      omega
    rw [List.foldl_cons, cc_drop_dec df h c (by omega)]
    obtain ⟨ih1, ih2⟩ := ih (setRefCount h c ((h c).refCount - 1)) (by
      intro x hx
      by_cases hxc : x = c
      · subst hxc
        rw [List.count_cons_self] at hrc2
        simp only [setRefCount_same]
        omega
      · have : (c :: cs).count x = cs.count x := List.count_cons_of_ne hxc cs
        rw [setRefCount_other h c x _ (hxc)]
        have hb := hbound x (by rw [this]; exact hx)
        rw [this] at hb
        exact hb)
    refine ⟨?_, ?_⟩
    · intro x
      rw [ih1 x]
      by_cases hxc : x = c
      · subst hxc
        simp only [setRefCount_same]
        rw [List.count_cons_self]
        omega
      · rw [setRefCount_other h c x _ hxc, List.count_cons_of_ne hxc]
    · intro x
      obtain ⟨e1, e2, e3, e4, e5⟩ := ih2 x
      by_cases hxc : x = c
      · subst hxc
        simp only [setRefCount_same] at e1 e2 e3 e4 e5
        exact ⟨e1, e2, e3, e4, e5⟩
      · rw [setRefCount_other h c x _ hxc] at e1 e2 e3 e4 e5
        exact ⟨e1, e2, e3, e4, e5⟩

theorem gc_drop_t_not_dropped (fuel : Nat) (h : Heap) (a : Addr)
    (hd : (h a).dropped = false) :
    gc_drop_t fuel h a
      = List.foldl (cc_drop fuel) (setChildren (setDropped h a true) a [])
          ((h a).children) := by
  rw [gc_drop_t, if_neg (by rw [hd]; simp)]

theorem gc_drop_t_dropped (fuel : Nat) (h : Heap) (a : Addr)
    (hd : (h a).dropped = true) : gc_drop_t fuel h a = h := by
  rw [gc_drop_t, if_pos hd]

/-- Pass 6 under a correct `Trace`: running the value destructor of every
staged block decrements each block's count by its staged in-degree and marks
staged values destroyed; no ref count ever reaches zero mid-pass, so no
block is unlinked or freed. -/
theorem drop_pass_spec (df : Nat) :
    ∀ (us : List Addr) (h : Heap),
      us.Nodup →
      (∀ u ∈ us, (h u).dropped = false) →
      (∀ x, countEdges h us x ≠ 0 → countEdges h us x < (h x).refCount) →
      (∀ x, ((drop_pass (df + 1) h us) x).refCount
          = (h x).refCount - countEdges h us x) ∧
      (∀ x, ((drop_pass (df + 1) h us) x).next = (h x).next ∧
        ((drop_pass (df + 1) h us) x).prev = (h x).prev ∧
        ((drop_pass (df + 1) h us) x).freed = (h x).freed) ∧
      (∀ x, x ∉ us → ((drop_pass (df + 1) h us) x).children = (h x).children ∧
        ((drop_pass (df + 1) h us) x).dropped = (h x).dropped) ∧
      (∀ u ∈ us, ((drop_pass (df + 1) h us) u).dropped = true ∧
        ((drop_pass (df + 1) h us) u).children = []) := by
  intro us
  induction us with
  | nil =>
    intro h _ _ _
    exact ⟨fun x => by simp [drop_pass, countEdges_nil], fun x => ⟨rfl, rfl, rfl⟩,
      fun x _ => ⟨rfl, rfl⟩, fun u hu => absurd hu (List.not_mem_nil u)⟩
  | cons u us ih =>
    intro h hnd hdrop hbound
    rw [List.nodup_cons] at hnd
    have hstep : drop_pass (df + 1) h (u :: us)
        = drop_pass (df + 1) (gc_drop_t (df + 1) h u) us := by
      rw [drop_pass, List.foldl_cons, drop_pass]
    have hunf := gc_drop_t_not_dropped (df + 1) h u
      (hdrop u (List.mem_cons_self u us))
    have hbase : ∀ x, ((setChildren (setDropped h u true) u []) x).refCount
        = (h x).refCount := by
      intro x
      rw [setChildren_refCount, setDropped_refCount]
    obtain ⟨d1, d2⟩ := foldl_cc_drop_dec df ((h u).children)
      (setChildren (setDropped h u true) u []) (by
        intro x hx
        rw [hbase x]
        have hne : countEdges h (u :: us) x ≠ 0 := by
          rw [countEdges_cons]
          omega
        have := hbound x hne
        rw [countEdges_cons] at this
        omega)
    have hu_rc : ∀ x, ((gc_drop_t (df + 1) h u) x).refCount
        = (h x).refCount - ((h u).children.count x) := by
      intro x
      rw [hunf, d1 x, hbase x]
    have hu_frame : ∀ x, ((gc_drop_t (df + 1) h u) x).next = (h x).next ∧
        ((gc_drop_t (df + 1) h u) x).prev = (h x).prev ∧
        ((gc_drop_t (df + 1) h u) x).freed = (h x).freed := by
      intro x
      obtain ⟨e1, e2, -, -, e5⟩ := d2 x
      rw [hunf]
      refine ⟨?_, ?_, ?_⟩
      · rw [e1, setChildren_next, setDropped_next]
      · rw [e2, setChildren_prev, setDropped_prev]
      · rw [e5, setChildren_freed, setDropped_freed]
    have hu_children : ∀ x, x ≠ u → ((gc_drop_t (df + 1) h u) x).children
        = (h x).children ∧ ((gc_drop_t (df + 1) h u) x).dropped = (h x).dropped := by
      intro x hx
      obtain ⟨-, -, e3, e4, -⟩ := d2 x
      rw [hunf]
      constructor
      · rw [e3, setChildren_children_other _ _ _ _ hx, setDropped_children]
      · rw [e4, setChildren_dropped, setDropped_dropped_other _ _ _ _ hx]
    have hu_self : ((gc_drop_t (df + 1) h u) u).children = [] ∧
        ((gc_drop_t (df + 1) h u) u).dropped = true := by
      obtain ⟨-, -, e3, e4, -⟩ := d2 u
      rw [hunf]
      constructor
      · rw [e3, setChildren_children_same]
      · rw [e4, setChildren_dropped, setDropped_dropped_same]
    obtain ⟨k1, k2, k3, k4⟩ := ih (gc_drop_t (df + 1) h u) hnd.2 (by
        intro v hv
        have hvu : v ≠ u := fun hvu => hnd.1 (hvu ▸ hv)
        rw [(hu_children v hvu).2]
        exact hdrop v (List.mem_cons_of_mem u hv))
      (by
        intro x hx
        have hcong : countEdges (gc_drop_t (df + 1) h u) us x = countEdges h us x :=
          countEdges_congr_mem h _ x us (fun v hv =>
            (hu_children v (fun hvu => hnd.1 (hvu ▸ hv))).1)
        rw [hcong] at hx ⊢
        rw [hu_rc x]
        have hne : countEdges h (u :: us) x ≠ 0 := by
          rw [countEdges_cons]
          omega
        have := hbound x hne
        rw [countEdges_cons] at this
        omega)
    refine ⟨?_, ?_, ?_, ?_⟩
    · intro x
      rw [hstep, k1 x, hu_rc x,
        countEdges_congr_mem h _ x us (fun v hv =>
          (hu_children v (fun hvu => hnd.1 (hvu ▸ hv))).1),
        countEdges_cons]
      omega
    · intro x
      obtain ⟨e1, e2, e3⟩ := k2 x
      obtain ⟨f1, f2, f3⟩ := hu_frame x
      rw [hstep]
      exact ⟨by rw [e1, f1], by rw [e2, f2], by rw [e3, f3]⟩
    · intro x hx
      have hxu : x ≠ u := fun hxu => hx (hxu ▸ List.mem_cons_self u us)
      have hxus : x ∉ us := fun hm => hx (List.mem_cons_of_mem u hm)
      obtain ⟨e3, e4⟩ := k3 x hxus
      obtain ⟨f3, f4⟩ := hu_children x hxu
      rw [hstep]
      exact ⟨by rw [e3, f3], by rw [e4, f4]⟩
    · intro v hv
      rw [hstep]
      rcases List.mem_cons.mp hv with rfl | hvus
      · have hvnus : v ∉ us := hnd.1
        obtain ⟨e3, e4⟩ := k3 v hvnus
        exact ⟨by rw [e4, hu_self.2], by rw [e3, hu_self.1]⟩
      · exact ⟨(k4 v hvus).1, (k4 v hvus).2⟩

/-! ### Pass 7: unlinking staged blocks keeps the list doubly linked -/

theorem seg_remove_front (h : Heap) (root : Addr) (l : List Addr) (u : Addr)
    (huniq : ∀ x ∈ root :: l, (h x).next = u → x = (h u).prev)
    (hprvnext : (h ((h u).prev)).next = u)
    (hprvne : (h u).prev ≠ u) :
    ∀ (l1 : List Addr) (x : Addr), x ∈ root :: l → x ≠ u → u ∉ l1 →
      (∀ y ∈ l1, y ∈ l) → chainSeg h root ((h x).next) l1 u →
      chainSeg (remove h u) root (((remove h u) x).next) l1 ((h u).next) := by
  intro l1
  induction l1 with
  | nil =>
    intro x hx hxu hul1 hsub hseg
    have hxprv : x = (h u).prev := huniq x hx hseg
    show ((remove h u) x).next = (h u).next
    rw [remove_next, if_neg hxu, if_pos hxprv]
  | cons a l1 ih =>
    intro x hx hxu hul1 hsub hseg
    obtain ⟨ha, har, hrest⟩ := hseg
    have hau : a ≠ u := fun hau => hul1 (hau ▸ List.mem_cons_self a l1)
    have hxprv : x ≠ (h u).prev := by
      intro hxp
      rw [hxp, hprvnext] at ha
      exact hau ha.symm
    have hxnext : ((remove h u) x).next = (h x).next := by
      rw [remove_next, if_neg hxu, if_neg hxprv]
    refine ⟨by rw [hxnext, ha], har, ?_⟩
    exact ih a (List.mem_cons_of_mem root (hsub a (List.mem_cons_self a l1)))
      hau (fun hm => hul1 (List.mem_cons_of_mem a hm))
      (fun y hy => hsub y (List.mem_cons_of_mem a hy)) hrest

/-- `ObjectSpace::remove` on a doubly-linked list: the unlinked block's
neighbours are relinked, every other field everywhere is untouched, and the
list shape survives with the block erased. -/
theorem remove_DShape (h : Heap) (root : Addr) (l : List Addr) (u : Addr)
    (hd : DShape h root l) (hu : u ∈ l) :
    DShape (remove h u) root (l.erase u) ∧
    (∀ x, ((remove h u) x).refCount = (h x).refCount ∧
      ((remove h u) x).children = (h x).children ∧
      ((remove h u) x).dropped = (h x).dropped ∧
      ((remove h u) x).freed = (h x).freed) ∧
    ((remove h u) u).next = NULL := by
  obtain ⟨hchain, hnd, hback⟩ := hd
  have hndl : l.Nodup := (List.nodup_cons.mp hnd).2
  have hrnl : root ∉ l := (List.nodup_cons.mp hnd).1
  have hur : u ≠ root := fun hur => hrnl (hur ▸ hu)
  obtain ⟨l1, l2, rfl⟩ := List.append_of_mem hu
  have hul1 : u ∉ l1 := by
    have := hndl
    rw [List.nodup_append] at this
    exact fun hm => this.2.2 hm (List.mem_cons_self u l2)
  have hul2 : u ∉ l2 := by
    have := hndl
    rw [List.nodup_append] at this
    exact (List.nodup_cons.mp this.2.1).1
  have hseg := (chainFrom_eq_seg h root _ ((h root).next)).mp hchain
  obtain ⟨s1, s2u, s3⟩ := chainSeg_split h root l1 u l2 ((h root).next) hseg
  -- the unique predecessor of u
  obtain ⟨pv, hpvmem, hpvnext⟩ := chain_pred_exists h root _ hchain u hu
  have hprv : (h u).prev = pv := by
    have := hback pv hpvmem
    rw [hpvnext] at this
    exact this
  have hprvnext : (h ((h u).prev)).next = u := by
    rw [hprv]
    exact hpvnext
  have huniq : ∀ x ∈ root :: (l1 ++ u :: l2), (h x).next = u → x = (h u).prev := by
    intro x hx hnx
    have hb := hback x hx
    rw [hnx] at hb
    exact hb.symm
  have hprvne : (h u).prev ≠ u := by
    intro hpe
    have hnu : (h u).next = u := by
      have hpn := hprvnext
      rw [hpe] at hpn
      exact hpn
    cases l2 with
    | nil =>
      have hroot : (h u).next = root := s3
      rw [hnu] at hroot
      exact hur hroot
    | cons c l2' =>
      obtain ⟨hc, -, -⟩ := s3
      rw [hnu] at hc
      exact hul2 (by rw [hc]; exact List.mem_cons_self c l2')
  have partA := seg_remove_front h root (l1 ++ u :: l2) u huniq hprvnext hprvne l1 root
    (List.mem_cons_self root _) (Ne.symm hur) hul1
    (fun y hy => List.mem_append_left _ hy) s1
  have hl2next : ∀ a ∈ l2, ((remove h u) a).next = (h a).next := by
    intro a ha
    have hau : a ≠ u := fun hau => hul2 (hau ▸ ha)
    have haprv : a ≠ (h u).prev := by
      intro hap
      have hanu : (h a).next = u := by
        rw [hap]
        exact hprvnext
      rcases chainSeg_next_mem h root l2 _ root s3 a ha with hm | hm
      · rw [hanu] at hm
        exact hul2 hm
      · rw [hanu] at hm
        exact hur hm
    rw [remove_next, if_neg hau, if_neg haprv]
  have partB : chainSeg (remove h u) root ((h u).next) l2 root :=
    chainSeg_congr_mem h (remove h u) root l2 _ root hl2next s3
  have hchain' : chainFrom (remove h u) root (((remove h u) root).next) (l1 ++ l2) :=
    (chainFrom_eq_seg (remove h u) root _ _).mpr
      (chainSeg_append_intro (remove h u) root l1 l2 _ ((h u).next) root partA partB)
  have herase : (l1 ++ u :: l2).erase u = l1 ++ l2 := by
    rw [List.erase_append_right _ hul1, List.erase_cons_head]
  have hnd' : (root :: (l1 ++ l2)).Nodup :=
    List.Nodup.sublist
      (List.Sublist.cons₂ root (List.Sublist.append_left (List.sublist_cons_self u l2) l1))
      hnd
  have hback' : ∀ x ∈ root :: (l1 ++ l2),
      ((remove h u) (((remove h u) x).next)).prev = x := by
    intro x hx
    have hxl : x ∈ root :: (l1 ++ u :: l2) := by
      rcases List.mem_cons.mp hx with rfl | hxm
      · exact List.mem_cons_self x _
      · rcases List.mem_append.mp hxm with hm | hm
        · exact List.mem_cons_of_mem root (List.mem_append_left _ hm)
        · exact List.mem_cons_of_mem root
            (List.mem_append_right _ (List.mem_cons_of_mem u hm))
    have hxu : x ≠ u := by
      intro hxeq
      subst hxeq
      rcases List.mem_cons.mp hx with heq | hxm
      · exact hur heq
      · rcases List.mem_append.mp hxm with hm | hm
        · exact hul1 hm
        · exact hul2 hm
    by_cases hxprv : x = (h u).prev
    · have hnext' : ((remove h u) x).next = (h u).next := by
        rw [remove_next, if_neg hxu, if_pos hxprv]
      rw [hnext', remove_prev, if_pos rfl]
      exact hxprv.symm
    · have hnext' : ((remove h u) x).next = (h x).next := by
        rw [remove_next, if_neg hxu, if_neg hxprv]
      have hyu : (h x).next ≠ u := fun hnx => hxprv (huniq x hxl hnx)
      have hynxt : (h x).next ≠ (h u).next := by
        intro hye
        have hb1 := hback x hxl
        have hb2 := hback u (List.mem_cons_of_mem root
          (List.mem_append_right _ (List.mem_cons_self u l2)))
        rw [hye] at hb1
        rw [hb1] at hb2
        exact hxu hb2
      rw [hnext', remove_prev, if_neg hynxt]
      exact hback x hxl
  refine ⟨?_, fun x => (remove_frame h u x), by rw [remove_next, if_pos rfl]⟩
  rw [herase]
  exact ⟨hchain', hnd', hback'⟩

theorem DShape_congr (h h' : Heap) (root : Addr) (l : List Addr)
    (hn : ∀ x, (h' x).next = (h x).next) (hp : ∀ x, (h' x).prev = (h x).prev) :
    DShape h root l → DShape h' root l := by
  rintro ⟨hchain, hnd, hback⟩
  refine ⟨by rw [hn root]; exact chainFrom_congr hn hchain, hnd, ?_⟩
  intro x hx
  rw [hn x, hp ((h x).next)]
  exact hback x hx

/-- Dropping a staging handle whose block has count 1 and an already-destroyed
value: decrement to zero, unlink, skip the destructor, free. -/
theorem cc_drop_destroy (df : Nat) (h : Heap) (a : Addr)
    (hrc : (h a).refCount = 1) (hnn : (h a).next ≠ NULL)
    (hdr : (h a).dropped = true) :
    cc_drop (df + 1) h a = setFreed (remove (setRefCount h a 0) a) a true := by
  have h10 : (h a).refCount - 1 = 0 := by omega
  have hrw : setRefCount h a ((h a).refCount - 1) = setRefCount h a 0 := by
    rw [h10]
  have hnn' : ((setRefCount h a 0) a).next ≠ NULL := by
    rw [setRefCount_next]
    exact hnn
  have hdr' : ((remove (setRefCount h a 0) a) a).dropped = true := by
    rw [(remove_frame _ _ _).2.2.1, setRefCount_dropped]
    exact hdr
  simp only [cc_drop, h10, if_pos rfl, hrw, if_pos hnn', ne_eq, hdr', if_true]

/-- Addresses other than the block and its two neighbours are untouched by a
staging-handle drop. -/
theorem cc_drop_destroy_untouched (df : Nat) (h : Heap) (a x : Addr)
    (hrc : (h a).refCount = 1) (hnn : (h a).next ≠ NULL) (hdr : (h a).dropped = true)
    (hxa : x ≠ a) (hxp : x ≠ (h a).prev) (hxn : x ≠ (h a).next) :
    (cc_drop (df + 1) h a) x = h x := by
  rw [cc_drop_destroy df h a hrc hnn hdr,
    setFreed_other _ _ _ _ hxa]
  refine Block.ext ?_ ?_ ?_ ?_ ?_ ?_
  · rw [remove_next, if_neg hxa, if_neg (by rw [setRefCount_prev]; exact hxp),
      setRefCount_next]
  · rw [remove_prev, if_neg (by rw [setRefCount_next]; exact hxn), setRefCount_prev]
  · rw [(remove_frame _ _ _).1, setRefCount_refCount_other _ _ _ _ hxa]
  · rw [(remove_frame _ _ _).2.1, setRefCount_children]
  · rw [(remove_frame _ _ _).2.2.1, setRefCount_dropped]
  · rw [(remove_frame _ _ _).2.2.2, setRefCount_freed]

/-- Pass 7: dropping the staging vector unlinks and frees each staged block,
keeps the list doubly linked over the survivors, and leaves everything not
listed (and every non-staged field) alone. -/
theorem release_pass_spec (df : Nat) :
    ∀ (us : List Addr) (h : Heap) (root : Addr) (cur : List Addr),
      DShape h root cur →
      us.Nodup →
      (∀ u ∈ us, u ∈ cur) →
      (∀ u ∈ us, (h u).refCount = 1 ∧ (h u).dropped = true) →
      NULL ∉ root :: cur →
      DShape (release_pass (df + 1) h us) root (List.foldl List.erase cur us) ∧
      (∀ x, x ∉ root :: cur → (release_pass (df + 1) h us) x = h x) ∧
      (∀ x, x ∉ us → ((release_pass (df + 1) h us) x).refCount = (h x).refCount ∧
        ((release_pass (df + 1) h us) x).children = (h x).children ∧
        ((release_pass (df + 1) h us) x).dropped = (h x).dropped ∧
        ((release_pass (df + 1) h us) x).freed = (h x).freed) ∧
      (∀ u ∈ us, ((release_pass (df + 1) h us) u).refCount = 0 ∧
        ((release_pass (df + 1) h us) u).freed = true ∧
        ((release_pass (df + 1) h us) u).next = NULL) := by
  intro us
  induction us with
  | nil =>
    intro h root cur hd _ _ _ _
    exact ⟨hd, fun x _ => rfl, fun x _ => ⟨rfl, rfl, rfl, rfl⟩,
      fun u hu => absurd hu (List.not_mem_nil u)⟩
  | cons u us ih =>
    intro h root cur hd hnd hmem hstage hnull
    rw [List.nodup_cons] at hnd
    have hucur : u ∈ cur := hmem u (List.mem_cons_self u us)
    have hrcu : (h u).refCount = 1 := (hstage u (List.mem_cons_self u us)).1
    have hdru : (h u).dropped = true := (hstage u (List.mem_cons_self u us)).2
    have hnnu : (h u).next ≠ NULL := by
      intro hn
      have := chain_next_mem h root cur hd.chain u (List.mem_cons_of_mem root hucur)
      rw [hn] at this
      exact hnull this
    have hur : u ≠ root := by
      intro hur
      have := List.nodup_cons.mp hd.nodup
      exact this.1 (hur ▸ hucur)
    -- the state after dropping the first staging handle
    have hd1 : DShape (setRefCount h u 0) root cur :=
      DShape_congr h (setRefCount h u 0) root cur
        (fun x => setRefCount_next h u x 0) (fun x => setRefCount_prev h u x 0) hd
    obtain ⟨hd2, hfr2, hnull2⟩ := remove_DShape (setRefCount h u 0) root cur u hd1 hucur
    have hstep : cc_drop (df + 1) h u
        = setFreed (remove (setRefCount h u 0) u) u true :=
      cc_drop_destroy df h u hrcu hnnu hdru
    have hd3 : DShape (cc_drop (df + 1) h u) root (cur.erase u) := by
      rw [hstep]
      exact DShape_congr _ _ root _ (fun x => setFreed_next _ u x true)
        (fun x => setFreed_prev _ u x true) hd2
    have hfr3 : ∀ x, ((cc_drop (df + 1) h u) x).refCount
          = ((setRefCount h u 0) x).refCount ∧
        ((cc_drop (df + 1) h u) x).children = (h x).children ∧
        ((cc_drop (df + 1) h u) x).dropped = (h x).dropped ∧
        (x ≠ u → ((cc_drop (df + 1) h u) x).freed = (h x).freed) := by
      intro x
      rw [hstep]
      obtain ⟨f1, f2, f3, f4⟩ := hfr2 x
      refine ⟨by rw [setFreed_refCount, f1], ?_, ?_, ?_⟩
      · rw [setFreed_children, f2, setRefCount_children]
      · rw [setFreed_dropped, f3, setRefCount_dropped]
      · intro hxu
        rw [setFreed_freed_other _ _ _ _ hxu, f4, setRefCount_freed]
    have hcur' : NULL ∉ root :: cur.erase u := by
      intro hm
      rcases List.mem_cons.mp hm with hm | hm
      · exact hnull (by rw [hm]; exact List.mem_cons_self root cur)
      · exact hnull (List.mem_cons_of_mem root (List.mem_of_mem_erase hm))
    obtain ⟨k1, k2, k3, k4⟩ := ih (cc_drop (df + 1) h u) root (cur.erase u) hd3 hnd.2
      (fun v hv => (List.mem_erase_of_ne (fun hvu : v = u => hnd.1 (hvu ▸ hv))).mpr
        (hmem v (List.mem_cons_of_mem u hv)))
      (fun v hv => by
        have hvu : v ≠ u := fun hvu => hnd.1 (hvu ▸ hv)
        obtain ⟨f1, f2, f3, f4⟩ := hfr3 v
        constructor
        · rw [f1, setRefCount_refCount_other h u v 0 hvu]
          exact (hstage v (List.mem_cons_of_mem u hv)).1
        · rw [f3]
          exact (hstage v (List.mem_cons_of_mem u hv)).2)
      hcur'
    have hrelease : release_pass (df + 1) h (u :: us)
        = release_pass (df + 1) (cc_drop (df + 1) h u) us := by
      rw [release_pass, List.foldl_cons, release_pass]
    refine ⟨?_, ?_, ?_, ?_⟩
    · rw [hrelease]
      exact k1
    · intro x hx
      have hxu : x ≠ u := fun hxu => hx (by
        rw [hxu]
        exact List.mem_cons_of_mem root hucur)
      have hxcur' : x ∉ root :: cur.erase u := by
        intro hm
        rcases List.mem_cons.mp hm with hm | hm
        · exact hx (by rw [hm]; exact List.mem_cons_self root cur)
        · exact hx (List.mem_cons_of_mem root (List.mem_of_mem_erase hm))
      rw [hrelease, k2 x hxcur']
      refine cc_drop_destroy_untouched df h u x hrcu hnnu hdru hxu ?_ ?_
      · intro hxp
        obtain ⟨pv, hpvmem, hpvnext⟩ := chain_pred_exists h root cur hd.chain u hucur
        have hpveq : (h u).prev = pv := by
          have hb := hd.back pv hpvmem
          rw [hpvnext] at hb
          exact hb
        exact hx (by rw [hxp, hpveq]; exact hpvmem)
      · intro hxn
        exact hx (by
          rw [hxn]
          exact chain_next_mem h root cur hd.chain u (List.mem_cons_of_mem root hucur))
    · intro x hx
      have hxu : x ≠ u := fun hxu => hx (hxu ▸ List.mem_cons_self u us)
      have hxus : x ∉ us := fun hm => hx (List.mem_cons_of_mem u hm)
      obtain ⟨e1, e2, e3, e4⟩ := k3 x hxus
      obtain ⟨f1, f2, f3, f4⟩ := hfr3 x
      rw [hrelease]
      refine ⟨?_, ?_, ?_, ?_⟩
      · rw [e1, f1, setRefCount_refCount_other h u x 0 hxu]
      · rw [e2, f2]
      · rw [e3, f3]
      · rw [e4, f4 hxu]
    · intro v hv
      rw [hrelease]
      rcases List.mem_cons.mp hv with rfl | hvus
      · have hunm : v ∉ root :: cur.erase v := by
          intro hm
          rcases List.mem_cons.mp hm with hm | hm
          · exact hur hm
          · exact ((List.nodup_cons.mp hd.nodup).2).not_mem_erase hm
        rw [k2 v hunm, hstep]
        refine ⟨?_, ?_, ?_⟩
        · rw [setFreed_refCount, (remove_frame _ _ _).1, setRefCount_refCount_same]
        · rw [setFreed_freed_same]
        · rw [setFreed_next]
          exact hnull2
      · exact k4 v hvus

/-! ### The full collection pipeline -/

theorem collect_list_eq (root : Addr) (fuel rfuel dfuel : Nat) (h : Heap) :
    collect_list root fuel rfuel dfuel h =
      if (staged_list root fuel rfuel h).all
          (fun u => ((after_drop root fuel rfuel dfuel h) u).refCount = 1) then
        some (count_unreachable root fuel (marked root fuel rfuel h),
          after_release root fuel rfuel dfuel h)
      else none := rfl

theorem countEdges_filter_split (h : Heap) (b : Addr) (p : Addr → Bool) :
    ∀ (l : List Addr),
      countEdges h l b
        = countEdges h (l.filter p) b + countEdges h (l.filter (fun a => !p a)) b := by
  intro l
  induction l with
  | nil => rfl
  | cons a l ih =>
    by_cases hp : p a = true
    · rw [show (a :: l).filter p = a :: l.filter p by simp [List.filter_cons, hp],
        show (a :: l).filter (fun a => !p a) = l.filter (fun a => !p a) by
          simp [List.filter_cons, hp],
        countEdges_cons, countEdges_cons, ih]
      omega
    · have hpf : p a = false := by revert hp; cases p a <;> simp
      rw [show (a :: l).filter p = l.filter p by simp [List.filter_cons, hpf],
        show (a :: l).filter (fun a => !p a) = a :: l.filter (fun a => !p a) by
          simp [List.filter_cons, hpf],
        countEdges_cons, countEdges_cons, ih]
      omega

theorem countEdges_eq_zero (h : Heap) (b : Addr) :
    ∀ (srcs : List Addr), (∀ u ∈ srcs, b ∉ (h u).children) →
      countEdges h srcs b = 0 := by
  intro srcs
  induction srcs with
  | nil => intro _; rfl
  | cons a srcs ih =>
    intro hb
    rw [countEdges_cons, ih (fun u hu => hb u (List.mem_cons_of_mem a hu)),
      List.count_eq_zero.mpr (hb a (List.mem_cons_self a srcs))]

theorem foldl_erase_cons (a : Addr) :
    ∀ (us l : List Addr), a ∉ us →
      List.foldl List.erase (a :: l) us = a :: List.foldl List.erase l us := by
  intro us
  induction us with
  | nil => intro l _; rfl
  | cons u us ih =>
    intro l ha
    have hau : a ≠ u := fun he => ha (he ▸ List.mem_cons_self u us)
    rw [List.foldl_cons, List.foldl_cons,
      List.erase_cons_tail (by simp [hau]),
      ih _ (fun hm => ha (List.mem_cons_of_mem u hm))]

theorem foldl_erase_filter (p : Addr → Bool) :
    ∀ (l : List Addr), l.Nodup →
      List.foldl List.erase l (l.filter p) = l.filter (fun a => !p a) := by
  intro l
  induction l with
  | nil => intro _; rfl
  | cons a l ih =>
    intro hnd
    rw [List.nodup_cons] at hnd
    by_cases hp : p a = true
    · rw [show (a :: l).filter p = a :: l.filter p by simp [List.filter_cons, hp],
        show (a :: l).filter (fun a => !p a) = l.filter (fun a => !p a) by
          simp [List.filter_cons, hp],
        List.foldl_cons, List.erase_cons_head, ih hnd.2]
    · have hpf : p a = false := by revert hp; cases p a <;> simp
      rw [show (a :: l).filter p = l.filter p by simp [List.filter_cons, hpf],
        show (a :: l).filter (fun a => !p a) = a :: l.filter (fun a => !p a) by
          simp [List.filter_cons, hpf],
        foldl_erase_cons a _ l (fun hm => hnd.1 (List.mem_of_mem_filter hm)), ih hnd.2]

theorem foldl_to_drop_heap (h0 : Heap) :
    ∀ (l : List Addr) (s : Heap × List Addr), l.Nodup →
      (∀ x, (s.1 x).prev = (h0 x).prev) →
      (∀ x, x ∉ l → (List.foldl to_drop_step s l).1 x = s.1 x) ∧
      (∀ x ∈ l, is_unreachable h0 x = true →
        (List.foldl to_drop_step s l).1 x
          = { s.1 x with refCount := (s.1 x).refCount + 1 }) ∧
      (∀ x ∈ l, is_unreachable h0 x = false →
        (List.foldl to_drop_step s l).1 x = s.1 x) := by
  intro l
  induction l with
  | nil =>
    intro s _ _
    exact ⟨fun x _ => rfl, fun x hx => absurd hx (List.not_mem_nil x),
      fun x hx => absurd hx (List.not_mem_nil x)⟩
  | cons a l ih =>
    intro s hnd hp
    rw [List.nodup_cons] at hnd
    rw [List.foldl_cons]
    by_cases hu : is_unreachable h0 a = true
    · have hstep : to_drop_step s a = (gc_clone s.1 a, s.2 ++ [a]) := by
        rw [to_drop_step, is_unreachable_congr h0 s.1 a (hp a), hu]
        simp
      rw [hstep]
      obtain ⟨k1, k2, k3⟩ := ih (gc_clone s.1 a, s.2 ++ [a]) hnd.2
        (fun x => by rw [gc_clone_prev]; exact hp x)
      have hother : ∀ x, x ≠ a → (gc_clone s.1 a) x = s.1 x := by
        intro x hx
        simp [gc_clone, hx]
      refine ⟨?_, ?_, ?_⟩
      · intro x hx
        have hxa : x ≠ a := fun he => hx (he ▸ List.mem_cons_self a l)
        exact (k1 x (fun hm => hx (List.mem_cons_of_mem a hm))).trans (hother x hxa)
      · intro x hx hux
        rcases List.mem_cons.mp hx with rfl | hxl
        · refine (k1 x hnd.1).trans ?_
          show (gc_clone s.1 x) x = _
          simp [gc_clone]
        · have hxa : x ≠ a := fun he => hnd.1 (he ▸ hxl)
          refine (k2 x hxl hux).trans ?_
          show ({ (gc_clone s.1 a) x with
              refCount := ((gc_clone s.1 a) x).refCount + 1 } : Block)
            = { s.1 x with refCount := (s.1 x).refCount + 1 }
          rw [hother x hxa]
      · intro x hx hux
        rcases List.mem_cons.mp hx with rfl | hxl
        · exact absurd hu (by rw [hux]; simp)
        · have hxa : x ≠ a := fun he => hnd.1 (he ▸ hxl)
          exact (k3 x hxl hux).trans (hother x hxa)
    · have hstep : to_drop_step s a = s := by
        rw [to_drop_step, is_unreachable_congr h0 s.1 a (hp a)]
        simp [hu]
      rw [hstep]
      obtain ⟨k1, k2, k3⟩ := ih s hnd.2 hp
      refine ⟨?_, ?_, ?_⟩
      · intro x hx
        exact k1 x (fun hm => hx (List.mem_cons_of_mem a hm))
      · intro x hx hux
        rcases List.mem_cons.mp hx with rfl | hxl
        · exact absurd hux hu
        · exact k2 x hxl hux
      · intro x hx hux
        rcases List.mem_cons.mp hx with rfl | hxl
        · exact k1 x hnd.1
        · exact k3 x hxl hux

theorem chain_last (h : Heap) (root : Addr) :
    ∀ (l : List Addr) (a : Addr), chainFrom h root ((h a).next) l →
      ∃ y ∈ a :: l, (h y).next = root := by
  intro l
  induction l with
  | nil =>
    intro a hc
    exact ⟨a, List.mem_cons_self a [], hc⟩
  | cons b l ih =>
    intro a hc
    obtain ⟨hb, -, hrest⟩ := hc
    obtain ⟨y, hy, hnext⟩ := ih b hrest
    exact ⟨y, List.mem_cons_of_mem a hy, hnext⟩

theorem chain_pred_all (h : Heap) (root : Addr) (l : List Addr)
    (hc : chainFrom h root ((h root).next) l) :
    ∀ x ∈ root :: l, ∃ y ∈ root :: l, (h y).next = x := by
  intro x hx
  rcases List.mem_cons.mp hx with rfl | hxl
  · exact chain_last h x l x hc
  · exact chain_pred_exists h root l hc x hxl

theorem DShape_prev_mem (h : Heap) (root : Addr) (l : List Addr) (hd : DShape h root l) :
    ∀ x ∈ root :: l, (h x).prev ∈ root :: l := by
  intro x hx
  obtain ⟨y, hy, hnext⟩ := chain_pred_all h root l hd.chain x hx
  have hb := hd.back y hy
  rw [hnext] at hb
  rw [hb]
  exact hy

/-! ### The closure invariant through the teardown -/

theorem heapClosed_congr (h g : Heap) (R : List Addr)
    (hp : ∀ x, (g x).prev = (h x).prev) (hc : ∀ x, (g x).children = (h x).children)
    (hq : heapClosed h R) : heapClosed g R :=
  ⟨fun x hx => by rw [hp x]; exact hq.1 x hx,
   fun x hx c hcm => hq.2 x hx c (by rw [← hc x]; exact hcm)⟩

theorem heapClosed_remove (h : Heap) (a : Addr) (R : List Addr) (ha : a ∈ R)
    (hq : heapClosed h R) : heapClosed (remove h a) R := by
  refine ⟨?_, fun x hx c hcm => hq.2 x hx c (by
    rw [← (remove_frame h a x).2.1]; exact hcm)⟩
  intro x hx
  rw [remove_prev]
  split
  · exact hq.1 a ha
  · exact hq.1 x hx

theorem heapClosed_setChildren_nil (h : Heap) (a : Addr) (R : List Addr)
    (hq : heapClosed h R) : heapClosed (setChildren h a []) R := by
  refine ⟨fun x hx => by rw [setChildren_prev]; exact hq.1 x hx, ?_⟩
  intro x hx c hcm
  by_cases hxa : x = a
  · rw [hxa, setChildren_children_same] at hcm
    exact absurd hcm (List.not_mem_nil c)
  · rw [setChildren_children_other h a x [] hxa] at hcm
    exact hq.2 x hx c hcm

theorem cc_drop_closed :
    ∀ (fuel : Nat) (h : Heap) (a : Addr) (R : List Addr), a ∈ R →
      heapClosed h R → heapClosed (cc_drop fuel h a) R := by
  intro fuel
  induction fuel with
  | zero => intro h a R _ hq; exact hq
  | succ fuel ih =>
    intro h a R ha hq
    have hfold : ∀ (cs : List Addr) (g : Heap), (∀ c ∈ cs, c ∈ R) →
        heapClosed g R → heapClosed (List.foldl (cc_drop fuel) g cs) R := by
      intro cs
      induction cs with
      | nil => intro g _ hg; exact hg
      | cons c cs ihc =>
        intro g hcs hg
        rw [List.foldl_cons]
        exact ihc _ (fun d hd => hcs d (List.mem_cons_of_mem c hd))
          (ih g c R (hcs c (List.mem_cons_self c cs)) hg)
    have hq1 : heapClosed (setRefCount h a ((h a).refCount - 1)) R :=
      heapClosed_congr h _ R (fun x => setRefCount_prev h a x _)
        (fun x => setRefCount_children h a x _) hq
    by_cases hz : (h a).refCount - 1 = 0
    · have hgen : ∀ (g : Heap), heapClosed g R →
          heapClosed (setFreed
            (if (g a).dropped then g
             else List.foldl (cc_drop fuel)
               (setChildren (setDropped g a true) a []) ((g a).children)) a true) R := by
        intro g hg
        refine heapClosed_congr _ _ R (fun x => setFreed_prev _ a x true)
          (fun x => setFreed_children _ a x true) ?_
        split
        · exact hg
        · exact hfold _ _ (fun c hc => hg.2 a ha c hc)
            (heapClosed_setChildren_nil _ a R
              (heapClosed_congr _ _ R (fun x => setDropped_prev _ a x true)
                (fun x => setDropped_children _ a x true) hg))
      have hstep : heapClosed
          (if ((setRefCount h a ((h a).refCount - 1)) a).next ≠ NULL then
            remove (setRefCount h a ((h a).refCount - 1)) a
           else setRefCount h a ((h a).refCount - 1)) R := by
        split
        · exact heapClosed_remove _ a R ha hq1
        · exact hq1
      simp only [cc_drop, if_pos hz]
      exact hgen _ hstep
    · have he : cc_drop (fuel + 1) h a = setRefCount h a ((h a).refCount - 1) := by
        simp only [cc_drop, if_neg hz]
      rw [he]
      exact hq1

theorem foldl_cc_drop_closed (fuel : Nat) :
    ∀ (us : List Addr) (h : Heap) (R : List Addr),
      (∀ u ∈ us, u ∈ R) → heapClosed h R →
      heapClosed (List.foldl (cc_drop fuel) h us) R := by
  intro us
  induction us with
  | nil => intro h R _ hq; exact hq
  | cons u us ih =>
    intro h R hus hq
    rw [List.foldl_cons]
    exact ih _ R (fun v hv => hus v (List.mem_cons_of_mem u hv))
      (cc_drop_closed fuel h u R (hus u (List.mem_cons_self u us)) hq)

/-! ### Collecting an empty space -/

theorem collect_new_gc_list (s : Addr) (fuel rfuel dfuel : Nat) :
    collect_list s fuel rfuel dfuel (new_gc_list s) = some (0, new_gc_list s) := by
  have hvisit : ∀ {σ : Type} (view : σ → Heap) (g : σ → Addr → σ) (f : Nat) (st : σ),
      visit_list view g s f s st = st := by
    intro σ view g f st
    cases f with
    | zero => rfl
    | succ f => simp [visit_list]
  have hnext : ((new_gc_list s) s).next = s := by simp [new_gc_list]
  have hupd : update_refs s fuel (new_gc_list s) = new_gc_list s := by
    rw [update_refs, hnext, hvisit]
  have hsub : subtract_refs s fuel (new_gc_list s) = new_gc_list s := by
    rw [subtract_refs, hnext, hvisit]
  have hmark : mark_reachable s fuel rfuel (new_gc_list s) = new_gc_list s := by
    rw [mark_reachable, hnext, hvisit]
  have hcnt : count_unreachable s fuel (new_gc_list s) = 0 := by
    rw [count_unreachable, hnext, hvisit]
  have hbuild : build_to_drop s fuel (new_gc_list s) = (new_gc_list s, []) := by
    rw [build_to_drop, hnext, hvisit]
  have hrest : restore_prev s fuel (new_gc_list s) = new_gc_list s := by
    rw [restore_prev, hnext, hvisit]
  rw [collect_list, hupd, hsub, release_unreachable, hmark, hcnt, hbuild, hrest]
  rfl

theorem countEdges_pos (h : Heap) (b : Addr) :
    ∀ (srcs : List Addr) (v : Addr), v ∈ srcs → b ∈ (h v).children →
      0 < countEdges h srcs b := by
  intro srcs
  induction srcs with
  | nil => intro v hv _; exact absurd hv (List.not_mem_nil v)
  | cons a srcs ih =>
    intro v hv hb
    rw [countEdges_cons]
    rcases List.mem_cons.mp hv with rfl | hvs
    · have := List.count_pos_iff.mpr hb
      omega
    · have := ih v hvs hb
      omega

/-- The main theorem about one full collection on a well-formed space with a
correct `Trace`: the staging vector is exactly the unreachable-marked subset,
every staging count lands on exactly 1 (the assert never fires), the call
returns the staged count, and the final heap keeps the survivors doubly
linked with their original fields minus the edges that died with the staged
blocks, while every staged block ends freed and unlinked. -/
theorem collect_run (h : Heap) (root : Addr) (l : List Addr) (fuel rfuel dfuel : Nat)
    (hd : DShape h root l)
    (hfuel : l.length < fuel) (hrfuel : l.length < rfuel) (hdf : 0 < dfuel)
    (hrc : ∀ b ∈ l, (h b).refCount < 2 ^ 62)
    (hbound : ∀ b ∈ l, countEdges h l b ≤ (h b).refCount)
    (hclosed : ∀ b ∈ l, ∀ c ∈ (h b).children, c ∈ l)
    (hrootch : (h root).children = [])
    (hout : ∀ x, x ∉ l → (h x).prev % 2 = 0)
    (hnull : NULL ∉ root :: l)
    (hdrop0 : ∀ b ∈ l, (h b).dropped = false) :
    staged_list root fuel rfuel h
        = l.filter (fun b => is_unreachable (marked root fuel rfuel h) b) ∧
    (∀ u ∈ staged_list root fuel rfuel h,
        ((after_drop root fuel rfuel dfuel h) u).refCount = 1) ∧
    collect_list root fuel rfuel dfuel h
        = some ((staged_list root fuel rfuel h).length,
            after_release root fuel rfuel dfuel h) ∧
    DShape (after_release root fuel rfuel dfuel h) root
      (l.filter (fun b => !is_unreachable (marked root fuel rfuel h) b)) ∧
    (∀ x ∈ l, is_unreachable (marked root fuel rfuel h) x = false →
      ((after_release root fuel rfuel dfuel h) x).refCount
          = (h x).refCount - countEdges h (staged_list root fuel rfuel h) x ∧
        ((after_release root fuel rfuel dfuel h) x).children = (h x).children ∧
        ((after_release root fuel rfuel dfuel h) x).dropped = (h x).dropped ∧
        ((after_release root fuel rfuel dfuel h) x).freed = (h x).freed) ∧
    (∀ x ∈ l, is_unreachable (marked root fuel rfuel h) x = false →
      countEdges h (staged_list root fuel rfuel h) x < (h x).refCount) ∧
    (∀ u ∈ staged_list root fuel rfuel h,
      ((after_release root fuel rfuel dfuel h) u).refCount = 0 ∧
        ((after_release root fuel rfuel dfuel h) u).freed = true ∧
        ((after_release root fuel rfuel dfuel h) u).next = NULL) ∧
    (∀ x, x ∉ root :: l → (after_release root fuel rfuel dfuel h) x = h x) ∧
    (∀ x ∈ root :: l, ((after_release root fuel rfuel dfuel h) x).prev ∈ root :: l) ∧
    (((after_release root fuel rfuel dfuel h) root).children = (h root).children ∧
      ((after_release root fuel rfuel dfuel h) root).refCount = (h root).refCount) ∧
    DShape (restored root fuel rfuel h) root l ∧
    (∀ x, ((restored root fuel rfuel h) x).next = (h x).next ∧
      ((restored root fuel rfuel h) x).children = (h x).children ∧
      ((restored root fuel rfuel h) x).dropped = (h x).dropped ∧
      ((restored root fuel rfuel h) x).freed = (h x).freed) := by
  have bneg : ∀ b : Bool, ¬ b = true → b = false := by
    intro b hb
    cases b
    · rfl
    · exact absurd rfl hb
  have hndc := hd.nodup
  have hnd : root ∉ l ∧ l.Nodup := List.nodup_cons.mp hndc
  obtain ⟨m1, m2, m3, m4, m5, m6, m7⟩ :=
    mark_summary h root l fuel rfuel ⟨hd.chain, hd.nodup⟩ hfuel hrfuel hrc hbound hout
  have hM : marked root fuel rfuel h
      = mark_reachable root fuel rfuel (subtract_refs root fuel (update_refs root fuel h)) := rfl
  rw [← hM] at m1 m2 m3 m4 m5 m6 m7
  have hnext3 : ∀ x, ((marked root fuel rfuel h) x).next = (h x).next := fun x => (m2 x).1
  have hchain3 : chainFrom (marked root fuel rfuel h) root
      (((marked root fuel rfuel h) root).next) l := by
    rw [hnext3]
    exact chainFrom_congr hnext3 hd.chain
  have hSfold : build_to_drop root fuel (marked root fuel rfuel h)
      = List.foldl to_drop_step ((marked root fuel rfuel h), []) l := by
    rw [build_to_drop,
      visit_list_eq_foldl Prod.fst to_drop_step root
        (by
          intro s a x
          rw [to_drop_step]
          split
          · simp [gc_clone]
          · rfl) l _ _ fuel hchain3 hfuel]
  have hSeq : staged_list root fuel rfuel h
      = l.filter (fun b => is_unreachable (marked root fuel rfuel h) b) := by
    rw [staged_list, hSfold]
    exact ((foldl_to_drop l (marked root fuel rfuel h) _ (fun x => rfl)).1).trans
      (List.nil_append _)
  obtain ⟨sh1, sh2, sh3⟩ := foldl_to_drop_heap (marked root fuel rfuel h) l
      ((marked root fuel rfuel h), []) hnd.2 (fun x => rfl)
  have sh1' : ∀ x, x ∉ l →
      staged_heap root fuel rfuel h x = marked root fuel rfuel h x := by
    intro x hx
    rw [staged_heap, hSfold]
    exact sh1 x hx
  have sh2' : ∀ x ∈ l, is_unreachable (marked root fuel rfuel h) x = true →
      staged_heap root fuel rfuel h x
        = { marked root fuel rfuel h x with
            refCount := (marked root fuel rfuel h x).refCount + 1 } := by
    intro x hx hU
    rw [staged_heap, hSfold]
    exact sh2 x hx hU
  have sh3' : ∀ x ∈ l, is_unreachable (marked root fuel rfuel h) x = false →
      staged_heap root fuel rfuel h x = marked root fuel rfuel h x := by
    intro x hx hU
    rw [staged_heap, hSfold]
    exact sh3 x hx hU
  have hSHprev : ∀ x, ((staged_heap root fuel rfuel h) x).prev
      = ((marked root fuel rfuel h) x).prev := by
    intro x
    rw [staged_heap, hSfold]
    exact (foldl_to_drop l (marked root fuel rfuel h)
      ((marked root fuel rfuel h), []) (fun y => rfl)).2 x
  have hSHfields : ∀ x, ((staged_heap root fuel rfuel h) x).next = (h x).next ∧
      ((staged_heap root fuel rfuel h) x).children = (h x).children ∧
      ((staged_heap root fuel rfuel h) x).dropped = (h x).dropped ∧
      ((staged_heap root fuel rfuel h) x).freed = (h x).freed := by
    intro x
    by_cases hxl : x ∈ l
    · by_cases hU : is_unreachable (marked root fuel rfuel h) x = true
      · rw [sh2' x hxl hU]
        exact ⟨(m2 x).1, (m2 x).2.2.1, (m2 x).2.2.2.1, (m2 x).2.2.2.2⟩
      · rw [sh3' x hxl (bneg _ hU)]
        exact ⟨(m2 x).1, (m2 x).2.2.1, (m2 x).2.2.2.1, (m2 x).2.2.2.2⟩
    · rw [sh1' x hxl]
      exact ⟨(m2 x).1, (m2 x).2.2.1, (m2 x).2.2.2.1, (m2 x).2.2.2.2⟩
  have hSHrc_staged : ∀ x ∈ l, is_unreachable (marked root fuel rfuel h) x = true →
      ((staged_heap root fuel rfuel h) x).refCount = (h x).refCount + 1 := by
    intro x hx hU
    rw [sh2' x hx hU]
    show ((marked root fuel rfuel h) x).refCount + 1 = _
    rw [(m2 x).2.1]
  have hSHrc_surv : ∀ x ∈ l, is_unreachable (marked root fuel rfuel h) x = false →
      ((staged_heap root fuel rfuel h) x).refCount = (h x).refCount := by
    intro x hx hU
    rw [sh3' x hx hU]
    exact (m2 x).2.1
  have hSHrc_out : ∀ x, x ∉ l →
      ((staged_heap root fuel rfuel h) x).refCount = (h x).refCount := by
    intro x hx
    rw [sh1' x hx]
    exact (m2 x).2.1
  have hchainSH : chainFrom (staged_heap root fuel rfuel h) root
      (((staged_heap root fuel rfuel h) root).next) l := by
    rw [(hSHfields root).1]
    exact chainFrom_congr (fun x => (hSHfields x).1) hd.chain
  have hback_rootSH : ∀ x ∈ root :: l, ((staged_heap root fuel rfuel h) x).next = root →
      ((staged_heap root fuel rfuel h) root).prev = x := by
    intro x hx hnx
    have hxe : (h x).next = root := by rw [← (hSHfields x).1]; exact hnx
    have hb := hd.back x hx
    rw [hxe] at hb
    rw [hSHprev root, show (marked root fuel rfuel h) root = h root from m1 root hnd.1]
    exact hb
  obtain ⟨hRD, hRout, hRfr⟩ := restore_prev_DShape (staged_heap root fuel rfuel h) root l fuel
    hchainSH hd.nodup hfuel hback_rootSH
  have hRdef : restored root fuel rfuel h
      = restore_prev root fuel (staged_heap root fuel rfuel h) := rfl
  rw [← hRdef] at hRD hRout hRfr
  have hRfields : ∀ x, ((restored root fuel rfuel h) x).next = (h x).next ∧
      ((restored root fuel rfuel h) x).children = (h x).children ∧
      ((restored root fuel rfuel h) x).dropped = (h x).dropped ∧
      ((restored root fuel rfuel h) x).freed = (h x).freed := by
    intro x
    obtain ⟨e1, e2, e3, e4, e5⟩ := hRfr x
    obtain ⟨f1, f2, f3, f4⟩ := hSHfields x
    exact ⟨e1.trans f1, e3.trans f2, e4.trans f3, e5.trans f4⟩
  have hRrc_staged : ∀ x ∈ l, is_unreachable (marked root fuel rfuel h) x = true →
      ((restored root fuel rfuel h) x).refCount = (h x).refCount + 1 := by
    intro x hx hU
    rw [(hRfr x).2.1, hSHrc_staged x hx hU]
  have hRrc_surv : ∀ x ∈ l, is_unreachable (marked root fuel rfuel h) x = false →
      ((restored root fuel rfuel h) x).refCount = (h x).refCount := by
    intro x hx hU
    rw [(hRfr x).2.1, hSHrc_surv x hx hU]
  have hRrc_out : ∀ x, x ∉ l →
      ((restored root fuel rfuel h) x).refCount = (h x).refCount := by
    intro x hx
    rw [(hRfr x).2.1, hSHrc_out x hx]
  have hextzero : ∀ u ∈ l, is_unreachable (marked root fuel rfuel h) u = true →
      countEdges h l u = (h u).refCount := by
    intro u hu hU
    have hcoll : is_collecting (marked root fuel rfuel h) u = true := by
      rw [← m7 u hu]; exact hU
    have hne : ¬ ((h u).refCount - countEdges h l u ≠ 0) := by
      intro hne
      rw [m4 u hu hne] at hcoll
      exact Bool.false_ne_true hcoll
    have hle := hbound u hu
    omega
  have hsurvzero : ∀ u ∈ l, is_unreachable (marked root fuel rfuel h) u = true →
      countEdges h (l.filter (fun a => !is_unreachable (marked root fuel rfuel h) a)) u
        = 0 := by
    intro u hu hU
    refine countEdges_eq_zero h u _ ?_
    intro v hv hmem
    have hvl : v ∈ l := List.mem_of_mem_filter hv
    have hvU : is_unreachable (marked root fuel rfuel h) v = false := by
      have hvb := (List.mem_filter.mp hv).2
      revert hvb
      cases is_unreachable (marked root fuel rfuel h) v
      · intro _; rfl
      · intro hvb; exact absurd hvb (by simp)
    have hvcoll : is_collecting (marked root fuel rfuel h) v = false := by
      rw [← m7 v hvl]; exact hvU
    have hucoll : is_collecting (marked root fuel rfuel h) u = true := by
      rw [← m7 u hu]; exact hU
    rw [m5 v hvl hvcoll u hmem] at hucoll
    exact Bool.false_ne_true hucoll
  have hstagedE : ∀ u ∈ l, is_unreachable (marked root fuel rfuel h) u = true →
      countEdges h (l.filter (fun b => is_unreachable (marked root fuel rfuel h) b)) u
        = (h u).refCount := by
    intro u hu hU
    have hsplit : countEdges h l u
        = countEdges h (l.filter (fun b => is_unreachable (marked root fuel rfuel h) b)) u
          + countEdges h
              (l.filter (fun a => !is_unreachable (marked root fuel rfuel h) a)) u :=
      countEdges_filter_split h u (fun b => is_unreachable (marked root fuel rfuel h) b) l
    have h0 := hsurvzero u hu hU
    have he := hextzero u hu hU
    omega
  have hsurv_lt : ∀ x ∈ l, is_unreachable (marked root fuel rfuel h) x = false →
      countEdges h (l.filter (fun b => is_unreachable (marked root fuel rfuel h) b)) x
        < (h x).refCount := by
    intro x hx hU
    have hsplit : countEdges h l x
        = countEdges h (l.filter (fun b => is_unreachable (marked root fuel rfuel h) b)) x
          + countEdges h
              (l.filter (fun a => !is_unreachable (marked root fuel rfuel h) a)) x :=
      countEdges_filter_split h x (fun b => is_unreachable (marked root fuel rfuel h) b) l
    have hle := hbound x hx
    by_cases hz : countEdges h
        (l.filter (fun a => !is_unreachable (marked root fuel rfuel h) a)) x = 0
    · by_cases hext : (h x).refCount - countEdges h l x ≠ 0
      · omega
      · have hxcoll : is_collecting (marked root fuel rfuel h) x = false := by
          rw [← m7 x hx]; exact hU
        cases m6 x hx hxcoll with
        | root a ha =>
          exact absurd ha.2 hext
        | step w a hw hmem =>
          have hwl := reach_in_l_cleared l (fun y => (h y).children)
            (fun b => b ∈ l ∧ (h b).refCount - countEdges h l b ≠ 0)
            (marked root fuel rfuel h)
            (fun b hb => ⟨hb.1, m4 b hb.1 hb.2⟩) hclosed m5 w hw
          have hwU : is_unreachable (marked root fuel rfuel h) w = false := by
            rw [m7 w hwl.1]; exact hwl.2
          have hwmem : w ∈ l.filter
              (fun a => !is_unreachable (marked root fuel rfuel h) a) := by
            refine List.mem_filter.mpr ⟨hwl.1, ?_⟩
            show (!is_unreachable (marked root fuel rfuel h) w) = true
            rw [hwU]
            rfl
          have hpos : 0 < countEdges h
              (l.filter (fun a => !is_unreachable (marked root fuel rfuel h) a)) x :=
            countEdges_pos h x _ w hwmem hmem
          omega
    · omega
  have hstagedE_out : ∀ x, x ∉ l →
      countEdges h (l.filter (fun b => is_unreachable (marked root fuel rfuel h) b)) x
        = 0 := by
    intro x hx
    refine countEdges_eq_zero h x _ ?_
    intro v hv hmem
    exact hx (hclosed v (List.mem_of_mem_filter hv) x hmem)
  have hdfeq : dfuel = (dfuel - 1) + 1 := (Nat.succ_pred_eq_of_pos hdf).symm
  have hndS : (staged_list root fuel rfuel h).Nodup := by
    rw [hSeq]
    exact hnd.2.filter _
  have hmemS : ∀ u ∈ staged_list root fuel rfuel h, u ∈ l := by
    intro u hu
    rw [hSeq] at hu
    exact List.mem_of_mem_filter hu
  have hUS : ∀ u ∈ staged_list root fuel rfuel h,
      is_unreachable (marked root fuel rfuel h) u = true := by
    intro u hu
    rw [hSeq] at hu
    exact (List.mem_filter.mp hu).2
  have hdropS : ∀ u ∈ staged_list root fuel rfuel h,
      ((restored root fuel rfuel h) u).dropped = false := by
    intro u hu
    exact ((hRfields u).2.2.1).trans (hdrop0 u (hmemS u hu))
  have hcE_R3 : ∀ x, countEdges (restored root fuel rfuel h) (staged_list root fuel rfuel h) x
      = countEdges h (staged_list root fuel rfuel h) x := by
    intro x
    exact countEdges_congr_mem h _ x _ (fun v hv => (hRfields v).2.1)
  have hcES_staged : ∀ u ∈ l, is_unreachable (marked root fuel rfuel h) u = true →
      countEdges h (staged_list root fuel rfuel h) u = (h u).refCount := by
    intro u hu hU
    rw [hSeq]
    exact hstagedE u hu hU
  have hcES_surv : ∀ x ∈ l, is_unreachable (marked root fuel rfuel h) x = false →
      countEdges h (staged_list root fuel rfuel h) x < (h x).refCount := by
    intro x hx hU
    rw [hSeq]
    exact hsurv_lt x hx hU
  have hcES_out : ∀ x, x ∉ l → countEdges h (staged_list root fuel rfuel h) x = 0 := by
    intro x hx
    rw [hSeq]
    exact hstagedE_out x hx
  have hboundS : ∀ x, countEdges (restored root fuel rfuel h) (staged_list root fuel rfuel h) x ≠ 0 →
      countEdges (restored root fuel rfuel h) (staged_list root fuel rfuel h) x
        < ((restored root fuel rfuel h) x).refCount := by
    intro x hne
    rw [hcE_R3 x] at hne ⊢
    by_cases hxl : x ∈ l
    · by_cases hU : is_unreachable (marked root fuel rfuel h) x = true
      · rw [hcES_staged x hxl hU, hRrc_staged x hxl hU]
        omega
      · rw [hRrc_surv x hxl (bneg _ hU)]
        exact hcES_surv x hxl (bneg _ hU)
    · exact absurd (hcES_out x hxl) hne
  obtain ⟨d1, d2, d3, d4⟩ := drop_pass_spec (dfuel - 1) (staged_list root fuel rfuel h)
    (restored root fuel rfuel h) hndS hdropS hboundS
  have hADdef : after_drop root fuel rfuel dfuel h
      = drop_pass ((dfuel - 1) + 1) (restored root fuel rfuel h)
          (staged_list root fuel rfuel h) := by
    rw [← hdfeq]
    exact rfl
  rw [← hADdef] at d1 d2 d3 d4
  have hrc1 : ∀ u ∈ staged_list root fuel rfuel h,
      ((after_drop root fuel rfuel dfuel h) u).refCount = 1 := by
    intro u hu
    rw [d1 u, hcE_R3 u, hcES_staged u (hmemS u hu) (hUS u hu),
      hRrc_staged u (hmemS u hu) (hUS u hu)]
    omega
  have hall : (staged_list root fuel rfuel h).all
      (fun u => ((after_drop root fuel rfuel dfuel h) u).refCount = 1) = true :=
    List.all_eq_true.mpr (fun u hu => decide_eq_true (hrc1 u hu))
  have hcount : count_unreachable root fuel (marked root fuel rfuel h)
      = (l.filter (fun b => is_unreachable (marked root fuel rfuel h) b)).length := by
    rw [count_unreachable,
      visit_list_eq_foldl Prod.fst count_unreachable_step root
        (by
          intro s a x
          rw [count_unreachable_step]
          split <;> rfl) l _ _ fuel hchain3 hfuel,
      (foldl_count_unreachable l _ (_, 0) (fun x => rfl)).1]
    simp
  have hret : collect_list root fuel rfuel dfuel h
      = some ((staged_list root fuel rfuel h).length,
          after_release root fuel rfuel dfuel h) := by
    rw [collect_list_eq, hall, if_pos rfl, hcount, hSeq]
  have hDShapeAD : DShape (after_drop root fuel rfuel dfuel h) root l :=
    DShape_congr (restored root fuel rfuel h) _ root l
      (fun x => (d2 x).1) (fun x => (d2 x).2.1) hRD
  have hstageOK : ∀ u ∈ staged_list root fuel rfuel h,
      ((after_drop root fuel rfuel dfuel h) u).refCount = 1 ∧
      ((after_drop root fuel rfuel dfuel h) u).dropped = true :=
    fun u hu => ⟨hrc1 u hu, (d4 u hu).1⟩
  obtain ⟨r1, r2, r3, r4⟩ := release_pass_spec (dfuel - 1) (staged_list root fuel rfuel h)
    (after_drop root fuel rfuel dfuel h) root l hDShapeAD hndS hmemS hstageOK hnull
  have hARdef : after_release root fuel rfuel dfuel h
      = release_pass ((dfuel - 1) + 1) (after_drop root fuel rfuel dfuel h)
          (staged_list root fuel rfuel h) := by
    rw [← hdfeq]
    exact rfl
  rw [← hARdef] at r1 r2 r3 r4
  have herase : List.foldl List.erase l (staged_list root fuel rfuel h)
      = l.filter (fun b => !is_unreachable (marked root fuel rfuel h) b) := by
    rw [hSeq]
    exact foldl_erase_filter _ l hnd.2
  rw [herase] at r1
  have hsurv_fields : ∀ x ∈ l, is_unreachable (marked root fuel rfuel h) x = false →
      ((after_release root fuel rfuel dfuel h) x).refCount
          = (h x).refCount - countEdges h (staged_list root fuel rfuel h) x ∧
      ((after_release root fuel rfuel dfuel h) x).children = (h x).children ∧
      ((after_release root fuel rfuel dfuel h) x).dropped = (h x).dropped ∧
      ((after_release root fuel rfuel dfuel h) x).freed = (h x).freed := by
    intro x hx hU
    have hxS : x ∉ staged_list root fuel rfuel h := by
      intro hm
      have := hUS x hm
      rw [hU] at this
      exact Bool.false_ne_true this
    obtain ⟨e1, e2, e3, e4⟩ := r3 x hxS
    refine ⟨?_, ?_, ?_, ?_⟩
    · rw [e1, d1 x, hcE_R3 x, hRrc_surv x hx hU]
    · rw [e2, (d3 x hxS).1, (hRfields x).2.1]
    · rw [e3, (d3 x hxS).2, (hRfields x).2.2.1]
    · rw [e4, (d2 x).2.2, (hRfields x).2.2.2]
  have houtside : ∀ x, x ∉ root :: l → (after_release root fuel rfuel dfuel h) x = h x := by
    intro x hx
    have hxl : x ∉ l := fun hm => hx (List.mem_cons_of_mem root hm)
    have hxS : x ∉ staged_list root fuel rfuel h := fun hm => hxl (hmemS x hm)
    rw [r2 x hx]
    have hAD : (after_drop root fuel rfuel dfuel h) x = (restored root fuel rfuel h) x := by
      refine Block.ext ?_ ?_ ?_ ?_ ?_ ?_
      · exact (d2 x).1
      · exact (d2 x).2.1
      · rw [d1 x, hcE_R3 x, hcES_out x hxl, Nat.sub_zero]
      · exact (d3 x hxS).1
      · exact (d3 x hxS).2
      · exact (d2 x).2.2
    rw [hAD, hRout x hxl, sh1' x hxl, m1 x hxl]
  have hclosedR3 : heapClosed (restored root fuel rfuel h) (root :: l) := by
    refine ⟨DShape_prev_mem _ root l hRD, ?_⟩
    intro x hx c hc
    rw [(hRfields x).2.1] at hc
    rcases List.mem_cons.mp hx with rfl | hxl
    · rw [hrootch] at hc
      exact absurd hc (List.not_mem_nil c)
    · exact List.mem_cons_of_mem root (hclosed x hxl c hc)
  have hclosedAD : heapClosed (after_drop root fuel rfuel dfuel h) (root :: l) := by
    refine ⟨?_, ?_⟩
    · intro x hx
      rw [(d2 x).2.1]
      exact hclosedR3.1 x hx
    · intro x hx c hc
      by_cases hxS : x ∈ staged_list root fuel rfuel h
      · rw [(d4 x hxS).2] at hc
        exact absurd hc (List.not_mem_nil c)
      · rw [(d3 x hxS).1] at hc
        exact hclosedR3.2 x hx c hc
  have hclosedAR : heapClosed (after_release root fuel rfuel dfuel h) (root :: l) := by
    have hup : after_release root fuel rfuel dfuel h
        = List.foldl (cc_drop dfuel) (after_drop root fuel rfuel dfuel h)
            (staged_list root fuel rfuel h) := rfl
    rw [hup]
    exact foldl_cc_drop_closed dfuel _ _ _
      (fun u hu => List.mem_cons_of_mem root (hmemS u hu)) hclosedAD
  have hrootS : root ∉ staged_list root fuel rfuel h := fun hm => hnd.1 (hmemS root hm)
  have hrootfields : ((after_release root fuel rfuel dfuel h) root).children
        = (h root).children ∧
      ((after_release root fuel rfuel dfuel h) root).refCount = (h root).refCount := by
    obtain ⟨e1, e2, e3, e4⟩ := r3 root hrootS
    constructor
    · rw [e2, (d3 root hrootS).1, (hRfields root).2.1]
    · rw [e1, d1 root, hcE_R3 root, hcES_out root hnd.1, Nat.sub_zero,
        hRrc_out root hnd.1]
  exact ⟨hSeq, hrc1, hret, r1, hsurv_fields, hcES_surv, r4, houtside, hclosedAR.1,
    hrootfields, hRD, hRfields⟩

/-! ### Claims C5, C6, C7 -/

/-- C6: after the destructor pass the collector checks every staging
handle's ref count and aborts exactly when one differs from 1 (the
collection returns `none`); under a correct `Trace` (in-degrees bounded by
ref counts, traverse edges staying inside the tracked list) with
non-resurrecting destructors every staging count is exactly 1, the
assertion never fires, and the collection returns normally. -/
theorem claim_C6 (h : Heap) (root : Addr) (l : List Addr) (fuel rfuel dfuel : Nat)
    (hd : DShape h root l)
    (hfuel : l.length < fuel) (hrfuel : l.length < rfuel) (hdf : 0 < dfuel)
    (hrc : ∀ b ∈ l, (h b).refCount < 2 ^ 62)
    (hbound : ∀ b ∈ l, countEdges h l b ≤ (h b).refCount)
    (hclosed : ∀ b ∈ l, ∀ c ∈ (h b).children, c ∈ l)
    (hrootch : (h root).children = [])
    (hout : ∀ x, x ∉ l → (h x).prev % 2 = 0)
    (hnull : NULL ∉ root :: l)
    (hdrop0 : ∀ b ∈ l, (h b).dropped = false) :
    (∀ u ∈ staged_list root fuel rfuel h,
        ((after_drop root fuel rfuel dfuel h) u).refCount = 1) ∧
    collect_list root fuel rfuel dfuel h
        = some ((staged_list root fuel rfuel h).length,
            after_release root fuel rfuel dfuel h) ∧
    (∀ (h0 : Heap) (r : Addr) (f rf df : Nat),
        collect_list r f rf df h0 = none ↔
          ¬ ∀ u ∈ staged_list r f rf h0,
              ((after_drop r f rf df h0) u).refCount = 1) := by
  obtain ⟨-, c2, c3, -⟩ := collect_run h root l fuel rfuel dfuel hd hfuel hrfuel hdf hrc
    hbound hclosed hrootch hout hnull hdrop0
  refine ⟨c2, c3, ?_⟩
  intro h0 r f rf df
  rw [collect_list_eq]
  by_cases hall : (staged_list r f rf h0).all
      (fun u => ((after_drop r f rf df h0) u).refCount = 1) = true
  · rw [if_pos hall]
    constructor
    · intro hc
      exact absurd hc (by simp)
    · intro hforall
      exact absurd (fun u hu => of_decide_eq_true (List.all_eq_true.mp hall u hu)) hforall
  · rw [if_neg hall]
    constructor
    · intro _ hforall
      exact hall (List.all_eq_true.mpr (fun u hu => decide_eq_true (hforall u hu)))
    · intro _
      rfl

theorem claim_C6_witness :
    (∀ u ∈ staged_list 2 2 2 heap1, ((after_drop 2 2 2 1 heap1) u).refCount = 1) ∧
    collect_list 2 2 2 1 heap1
        = some ((staged_list 2 2 2 heap1).length, after_release 2 2 2 1 heap1) ∧
    (∀ (h0 : Heap) (r : Addr) (f rf df : Nat),
        collect_list r f rf df h0 = none ↔
          ¬ ∀ u ∈ staged_list r f rf h0,
              ((after_drop r f rf df h0) u).refCount = 1) :=
  claim_C6 heap1 2 [4] 2 2 1 ⟨⟨rfl, by decide, rfl⟩, by decide, by decide⟩
    (by decide) (by decide) (by decide) (by decide) (by decide) (by decide) (by decide)
    (by
      intro x hx
      have hx4 : x ≠ 4 := fun he => hx (by rw [he]; decide)
      by_cases h2 : x = 2
      · rw [h2]
        decide
      · simp only [heap1, if_neg h2, if_neg hx4]
        decide)
    (by decide) (by decide)

/-- C5: after `collect_cycles` returns, every surviving header is back in
doubly-linked shape with a true predecessor pointer (`prev->next == self`
and `next->prev == self`), its COLLECTING flag clear and its ref count at
least 1; and the `restore_prev` pass rebuilt every `prev` of the full list
while every `next` pointer, value, `dropped` and `freed` flag was still
exactly as at entry — before any destructor ran or the list was mutated. -/
theorem claim_C5 (h : Heap) (root : Addr) (l : List Addr) (fuel rfuel dfuel : Nat)
    (hd : DShape h root l)
    (hfuel : l.length < fuel) (hrfuel : l.length < rfuel) (hdf : 0 < dfuel)
    (hrc : ∀ b ∈ l, (h b).refCount < 2 ^ 62)
    (hbound : ∀ b ∈ l, countEdges h l b ≤ (h b).refCount)
    (hclosed : ∀ b ∈ l, ∀ c ∈ (h b).children, c ∈ l)
    (hrootch : (h root).children = [])
    (hout : ∀ x, x ∉ l → (h x).prev % 2 = 0)
    (hnull : NULL ∉ root :: l)
    (hdrop0 : ∀ b ∈ l, (h b).dropped = false)
    (heven : ∀ x ∈ root :: l, x % 2 = 0) :
    collect_list root fuel rfuel dfuel h
        = some ((staged_list root fuel rfuel h).length,
            after_release root fuel rfuel dfuel h) ∧
    DShape (after_release root fuel rfuel dfuel h) root
      (l.filter (fun b => !is_unreachable (marked root fuel rfuel h) b)) ∧
    (∀ x ∈ l.filter (fun b => !is_unreachable (marked root fuel rfuel h) b),
      ((after_release root fuel rfuel dfuel h)
          (((after_release root fuel rfuel dfuel h) x).prev)).next = x ∧
      ((after_release root fuel rfuel dfuel h)
          (((after_release root fuel rfuel dfuel h) x).next)).prev = x ∧
      is_collecting (after_release root fuel rfuel dfuel h) x = false ∧
      1 ≤ ((after_release root fuel rfuel dfuel h) x).refCount) ∧
    DShape (restored root fuel rfuel h) root l ∧
    (∀ x, ((restored root fuel rfuel h) x).next = (h x).next ∧
      ((restored root fuel rfuel h) x).children = (h x).children ∧
      ((restored root fuel rfuel h) x).dropped = (h x).dropped ∧
      ((restored root fuel rfuel h) x).freed = (h x).freed) := by
  obtain ⟨c1, c2, c3, c4, c5, c6, c7, c8, c9, c10, c11, c12⟩ :=
    collect_run h root l fuel rfuel dfuel hd hfuel hrfuel hdf hrc
      hbound hclosed hrootch hout hnull hdrop0
  refine ⟨c3, c4, ?_, c11, c12⟩
  intro x hxf
  have hxl : x ∈ l := List.mem_of_mem_filter hxf
  have hU : is_unreachable (marked root fuel rfuel h) x = false := by
    have hb := (List.mem_filter.mp hxf).2
    revert hb
    cases is_unreachable (marked root fuel rfuel h) x
    · intro _
      rfl
    · intro hb
      exact absurd hb (by simp)
  refine ⟨?_, ?_, ?_, ?_⟩
  · obtain ⟨y, hy, hynext⟩ := chain_pred_all (after_release root fuel rfuel dfuel h) root
      (l.filter (fun b => !is_unreachable (marked root fuel rfuel h) b)) c4.chain x
      (List.mem_cons_of_mem root hxf)
    have hb := c4.back y hy
    rw [hynext] at hb
    rw [hb]
    exact hynext
  · exact c4.back x (List.mem_cons_of_mem root hxf)
  · have hpm := c9 x (List.mem_cons_of_mem root hxl)
    have hev : ((after_release root fuel rfuel dfuel h) x).prev % 2 = 0 :=
      heven (((after_release root fuel rfuel dfuel h) x).prev) hpm
    refine is_collecting_of_even _ x
      (((after_release root fuel rfuel dfuel h) x).prev / 2) ?_
    omega
  · have hlt := c6 x hxl hU
    rw [(c5 x hxl hU).1]
    omega

theorem claim_C5_witness :
    collect_list 2 3 3 1 heap2
        = some ((staged_list 2 3 3 heap2).length, after_release 2 3 3 1 heap2) ∧
    DShape (after_release 2 3 3 1 heap2) 2
      ([4, 6].filter (fun b => !is_unreachable (marked 2 3 3 heap2) b)) ∧
    (∀ x ∈ [4, 6].filter (fun b => !is_unreachable (marked 2 3 3 heap2) b),
      ((after_release 2 3 3 1 heap2)
          (((after_release 2 3 3 1 heap2) x).prev)).next = x ∧
      ((after_release 2 3 3 1 heap2)
          (((after_release 2 3 3 1 heap2) x).next)).prev = x ∧
      is_collecting (after_release 2 3 3 1 heap2) x = false ∧
      1 ≤ ((after_release 2 3 3 1 heap2) x).refCount) ∧
    DShape (restored 2 3 3 heap2) 2 [4, 6] ∧
    (∀ x, ((restored 2 3 3 heap2) x).next = (heap2 x).next ∧
      ((restored 2 3 3 heap2) x).children = (heap2 x).children ∧
      ((restored 2 3 3 heap2) x).dropped = (heap2 x).dropped ∧
      ((restored 2 3 3 heap2) x).freed = (heap2 x).freed) :=
  claim_C5 heap2 2 [4, 6] 3 3 1 ⟨⟨rfl, by decide, rfl, by decide, rfl⟩, by decide, by decide⟩
    (by decide) (by decide) (by decide) (by decide) (by decide) (by decide) (by decide)
    (by
      intro x hx
      have hx4 : x ≠ 4 := fun he => hx (by rw [he]; decide)
      have hx6 : x ≠ 6 := fun he => hx (by rw [he]; decide)
      by_cases h2 : x = 2
      · rw [h2]
        decide
      · simp only [heap2, if_neg h2, if_neg hx4, if_neg hx6]
        decide)
    (by decide) (by decide) (by decide)

/-- C7: running `collect_cycles` again right after a collection, with no
handle creation, clone, drop or mutation in between, returns 0 — every
survivor of the first run is still externally reachable in the second —
and collecting an empty space returns 0 and leaves the list untouched. -/
theorem claim_C7 (h : Heap) (root : Addr) (l : List Addr) (fuel rfuel dfuel : Nat)
    (hd : DShape h root l)
    (hfuel : l.length < fuel) (hrfuel : l.length < rfuel) (hdf : 0 < dfuel)
    (hrc : ∀ b ∈ l, (h b).refCount < 2 ^ 62)
    (hbound : ∀ b ∈ l, countEdges h l b ≤ (h b).refCount)
    (hclosed : ∀ b ∈ l, ∀ c ∈ (h b).children, c ∈ l)
    (hrootch : (h root).children = [])
    (hout : ∀ x, x ∉ l → (h x).prev % 2 = 0)
    (hnull : NULL ∉ root :: l)
    (hdrop0 : ∀ b ∈ l, (h b).dropped = false)
    (heven : ∀ x ∈ root :: l, x % 2 = 0) :
    collect_list root fuel rfuel dfuel (after_release root fuel rfuel dfuel h)
        = some (0, after_release root fuel rfuel dfuel
            (after_release root fuel rfuel dfuel h)) ∧
    (∀ (s : Addr) (f rf df : Nat),
        collect_list s f rf df (new_gc_list s) = some (0, new_gc_list s)) := by
  refine ⟨?_, fun s f rf df => collect_new_gc_list s f rf df⟩
  obtain ⟨c1, c2, c3, c4, c5, c6, c7, c8, c9, c10, c11, c12⟩ :=
    collect_run h root l fuel rfuel dfuel hd hfuel hrfuel hdf hrc
      hbound hclosed hrootch hout hnull hdrop0
  obtain ⟨m1, m2, m3, m4, m5, m6, m7⟩ :=
    mark_summary h root l fuel rfuel ⟨hd.chain, hd.nodup⟩ hfuel hrfuel hrc hbound hout
  have hM : marked root fuel rfuel h
      = mark_reachable root fuel rfuel (subtract_refs root fuel (update_refs root fuel h)) := rfl
  rw [← hM] at m1 m2 m3 m4 m5 m6 m7
  have hsuborig : ∀ b ∈ l.filter (fun b => !is_unreachable (marked root fuel rfuel h) b),
      b ∈ l := fun b hb => List.mem_of_mem_filter hb
  have hUfalse : ∀ b ∈ l.filter (fun b => !is_unreachable (marked root fuel rfuel h) b),
      is_unreachable (marked root fuel rfuel h) b = false := by
    intro b hb
    have hx := (List.mem_filter.mp hb).2
    revert hx
    cases is_unreachable (marked root fuel rfuel h) b
    · intro _
      rfl
    · intro hx
      exact absurd hx (by simp)
  have hcoll_false : ∀ b ∈ l.filter (fun b => !is_unreachable (marked root fuel rfuel h) b),
      is_collecting (marked root fuel rfuel h) b = false := by
    intro b hb
    rw [← m7 b (hsuborig b hb)]
    exact hUfalse b hb
  have hmemsur : ∀ b ∈ l, is_collecting (marked root fuel rfuel h) b = false →
      b ∈ l.filter (fun b => !is_unreachable (marked root fuel rfuel h) b) := by
    intro b hb hc
    refine List.mem_filter.mpr ⟨hb, ?_⟩
    show (!is_unreachable (marked root fuel rfuel h) b) = true
    rw [m7 b hb, hc]
    rfl
  have hfuel2 : (l.filter (fun b => !is_unreachable (marked root fuel rfuel h) b)).length
      < fuel := lt_of_le_of_lt (List.length_filter_le _ l) hfuel
  have hrfuel2 : (l.filter (fun b => !is_unreachable (marked root fuel rfuel h) b)).length
      < rfuel := lt_of_le_of_lt (List.length_filter_le _ l) hrfuel
  have hsplit : ∀ b, countEdges h l b
      = countEdges h (l.filter (fun c => is_unreachable (marked root fuel rfuel h) c)) b
        + countEdges h
            (l.filter (fun a => !is_unreachable (marked root fuel rfuel h) a)) b :=
    fun b => countEdges_filter_split h b
      (fun c => is_unreachable (marked root fuel rfuel h) c) l
  have hcE_F : ∀ b, countEdges (after_release root fuel rfuel dfuel h)
        (l.filter (fun b => !is_unreachable (marked root fuel rfuel h) b)) b
      = countEdges h (l.filter (fun b => !is_unreachable (marked root fuel rfuel h) b)) b := by
    intro b
    refine countEdges_congr_mem h _ b _ ?_
    intro v hv
    exact (c5 v (hsuborig v hv) (hUfalse v hv)).2.1
  have hrcF : ∀ b ∈ l.filter (fun b => !is_unreachable (marked root fuel rfuel h) b),
      ((after_release root fuel rfuel dfuel h) b).refCount
        = (h b).refCount - countEdges h (staged_list root fuel rfuel h) b :=
    fun b hb => (c5 b (hsuborig b hb) (hUfalse b hb)).1
  have hext_eq : ∀ b ∈ l.filter (fun b => !is_unreachable (marked root fuel rfuel h) b),
      ((after_release root fuel rfuel dfuel h) b).refCount
          - countEdges (after_release root fuel rfuel dfuel h)
              (l.filter (fun b => !is_unreachable (marked root fuel rfuel h) b)) b
        = (h b).refCount - countEdges h l b := by
    intro b hb
    rw [hcE_F b, hrcF b hb, c1, Nat.sub_sub, ← hsplit b]
  have hrc2 : ∀ b ∈ l.filter (fun b => !is_unreachable (marked root fuel rfuel h) b),
      ((after_release root fuel rfuel dfuel h) b).refCount < 2 ^ 62 := by
    intro b hb
    have hr := hrc b (hsuborig b hb)
    rw [hrcF b hb]
    omega
  have hbound2 : ∀ b ∈ l.filter (fun b => !is_unreachable (marked root fuel rfuel h) b),
      countEdges (after_release root fuel rfuel dfuel h)
          (l.filter (fun b => !is_unreachable (marked root fuel rfuel h) b)) b
        ≤ ((after_release root fuel rfuel dfuel h) b).refCount := by
    intro b hb
    rw [hcE_F b, hrcF b hb, c1]
    have hs := hsplit b
    have hle := hbound b (hsuborig b hb)
    omega
  have hclosed2 : ∀ b ∈ l.filter (fun b => !is_unreachable (marked root fuel rfuel h) b),
      ∀ c ∈ ((after_release root fuel rfuel dfuel h) b).children,
        c ∈ l.filter (fun b => !is_unreachable (marked root fuel rfuel h) b) := by
    intro b hb c hc
    rw [(c5 b (hsuborig b hb) (hUfalse b hb)).2.1] at hc
    exact hmemsur c (hclosed b (hsuborig b hb) c hc)
      (m5 b (hsuborig b hb) (hcoll_false b hb) c hc)
  have hrootch2 : ((after_release root fuel rfuel dfuel h) root).children = [] := by
    rw [c10.1, hrootch]
  have hout2 : ∀ x, x ∉ l.filter (fun b => !is_unreachable (marked root fuel rfuel h) b) →
      ((after_release root fuel rfuel dfuel h) x).prev % 2 = 0 := by
    intro x hx
    by_cases hxm : x ∈ root :: l
    · exact heven _ (c9 x hxm)
    · rw [c8 x hxm]
      exact hout x (fun hm => hxm (List.mem_cons_of_mem root hm))
  have hnull2 : NULL ∉ root ::
      l.filter (fun b => !is_unreachable (marked root fuel rfuel h) b) := by
    intro hm
    rcases List.mem_cons.mp hm with he | hmem
    · exact hnull (by rw [he]; exact List.mem_cons_self root l)
    · exact hnull (List.mem_cons_of_mem root (hsuborig _ hmem))
  have hdrop02 : ∀ b ∈ l.filter (fun b => !is_unreachable (marked root fuel rfuel h) b),
      ((after_release root fuel rfuel dfuel h) b).dropped = false := by
    intro b hb
    rw [(c5 b (hsuborig b hb) (hUfalse b hb)).2.2.1]
    exact hdrop0 b (hsuborig b hb)
  obtain ⟨e1, -, e3, -⟩ := collect_run (after_release root fuel rfuel dfuel h) root
    (l.filter (fun b => !is_unreachable (marked root fuel rfuel h) b)) fuel rfuel dfuel
    c4 hfuel2 hrfuel2 hdf hrc2 hbound2 hclosed2 hrootch2 hout2 hnull2 hdrop02
  obtain ⟨n1, n2, n3, n4, n5, n6, n7⟩ :=
    mark_summary (after_release root fuel rfuel dfuel h) root
      (l.filter (fun b => !is_unreachable (marked root fuel rfuel h) b)) fuel rfuel
      ⟨c4.chain, c4.nodup⟩ hfuel2 hrfuel2 hrc2 hbound2 hout2
  have hM2 : marked root fuel rfuel (after_release root fuel rfuel dfuel h)
      = mark_reachable root fuel rfuel (subtract_refs root fuel
          (update_refs root fuel (after_release root fuel rfuel dfuel h))) := rfl
  rw [← hM2] at n4 n5 n7
  have hRtrans : ∀ y, Reach (fun x => (h x).children)
        (fun b => b ∈ l ∧ (h b).refCount - countEdges h l b ≠ 0) y →
      Reach (fun x => ((after_release root fuel rfuel dfuel h) x).children)
        (fun b => b ∈ l.filter (fun b => !is_unreachable (marked root fuel rfuel h) b) ∧
          ((after_release root fuel rfuel dfuel h) b).refCount
              - countEdges (after_release root fuel rfuel dfuel h)
                  (l.filter (fun b => !is_unreachable (marked root fuel rfuel h) b)) b
            ≠ 0) y := by
    intro y hy
    induction hy with
    | root a ha =>
      have hasur : a ∈ l.filter (fun b => !is_unreachable (marked root fuel rfuel h) b) :=
        hmemsur a ha.1 (m4 a ha.1 ha.2)
      refine Reach.root a ⟨hasur, ?_⟩
      rw [hext_eq a hasur]
      exact ha.2
    | step w a hw hmem ih =>
      have hwlc := reach_in_l_cleared l (fun yy => (h yy).children)
        (fun b => b ∈ l ∧ (h b).refCount - countEdges h l b ≠ 0)
        (marked root fuel rfuel h)
        (fun b hb => ⟨hb.1, m4 b hb.1 hb.2⟩) hclosed m5 w hw
      have hwsur : w ∈ l.filter (fun b => !is_unreachable (marked root fuel rfuel h) b) :=
        hmemsur w hwlc.1 hwlc.2
      refine Reach.step w a ih ?_
      rw [(c5 w hwlc.1 (hUfalse w hwsur)).2.1]
      exact hmem
  have hcleared2 : ∀ b ∈ l.filter (fun b => !is_unreachable (marked root fuel rfuel h) b),
      is_collecting (marked root fuel rfuel (after_release root fuel rfuel dfuel h)) b
        = false := by
    intro b hb
    have hreach2 := hRtrans b (m6 b (hsuborig b hb) (hcoll_false b hb))
    exact (reach_in_l_cleared
      (l.filter (fun b => !is_unreachable (marked root fuel rfuel h) b))
      (fun x => ((after_release root fuel rfuel dfuel h) x).children)
      (fun b => b ∈ l.filter (fun b => !is_unreachable (marked root fuel rfuel h) b) ∧
        ((after_release root fuel rfuel dfuel h) b).refCount
            - countEdges (after_release root fuel rfuel dfuel h)
                (l.filter (fun b => !is_unreachable (marked root fuel rfuel h) b)) b
          ≠ 0)
      (marked root fuel rfuel (after_release root fuel rfuel dfuel h))
      (fun b hb => ⟨hb.1, n4 b hb.1 hb.2⟩) hclosed2 n5 b hreach2).2
  have hstaged2 : staged_list root fuel rfuel (after_release root fuel rfuel dfuel h)
      = [] := by
    rw [e1]
    refine List.filter_eq_nil_iff.mpr ?_
    intro b hb
    show ¬ is_unreachable (marked root fuel rfuel (after_release root fuel rfuel dfuel h)) b
        = true
    rw [n7 b hb, hcleared2 b hb]
    simp
  rw [e3, hstaged2]
  rfl

theorem claim_C7_witness :
    collect_list 2 3 3 1 (after_release 2 3 3 1 heap2)
        = some (0, after_release 2 3 3 1 (after_release 2 3 3 1 heap2)) ∧
    (∀ (s : Addr) (f rf df : Nat),
        collect_list s f rf df (new_gc_list s) = some (0, new_gc_list s)) :=
  claim_C7 heap2 2 [4, 6] 3 3 1 ⟨⟨rfl, by decide, rfl, by decide, rfl⟩, by decide, by decide⟩
    (by decide) (by decide) (by decide) (by decide) (by decide) (by decide) (by decide)
    (by
      intro x hx
      have hx4 : x ≠ 4 := fun he => hx (by rw [he]; decide)
      have hx6 : x ≠ 6 := fun he => hx (by rw [he]; decide)
      by_cases h2 : x = 2
      · rw [h2]
        decide
      · simp only [heap2, if_neg h2, if_neg hx4, if_neg hx6]
        decide)
    (by decide) (by decide) (by decide)

end Gcmodule
